import Mathlib

/-!
Shallow embedding of src/arvoreb.py: a B-tree of order m (BTree) over pages
(BTreeNode) holding integer keys, with search, insertion via child splitting,
and deletion via borrowing and merging.  Partial operations of the source
(list indexing that can raise IndexError, constructor validation that can
raise ValueError) are modelled in an Except monad; recursive procedures are
fuel-indexed, with fuel exhaustion a distinguished outcome.
-/

inductive PyErr : Type where
  | indexError : PyErr
  | valueError : PyErr
  | fuelOut : PyErr
deriving DecidableEq, Repr

abbrev M (α : Type) : Type := Except PyErr α

/-- Python list indexing l[i] for a non-negative index: IndexError when out of range. -/
def getIdx {α : Type} (l : List α) (i : Nat) : M α :=
  match l[i]? with
  | some a => .ok a
  | none => .error .indexError

/-- Python l[-1]: last element, IndexError on an empty list. -/
def getLastP {α : Type} (l : List α) : M α :=
  match l.getLast? with
  | some a => .ok a
  | none => .error .indexError

/-- Python list.insert(i, a) for a non-negative index (clamps to append past the end). -/
def pyInsertAt {α : Type} (i : Nat) (a : α) (l : List α) : List α :=
  l.take i ++ a :: l.drop i

/-- Python list.pop(i) for a non-negative index: the element and the remaining list. -/
def popAt {α : Type} (l : List α) (i : Nat) : M (α × List α) := do
  let a ← getIdx l i
  pure (a, l.eraseIdx i)

/-- Python list.pop(): removes and returns the last element. -/
def popLast {α : Type} (l : List α) : M (α × List α) :=
  match l.getLast? with
  | some a => .ok (a, l.dropLast)
  | none => .error .indexError

/-- Page of the B-tree (class BTreeNode): identifier rrn, leaf flag, ordered
keys, child pages. -/
inductive BTreeNode : Type where
  | mk (rrn : Nat) (leaf : Bool) (keys : List Int) (children : List BTreeNode)
deriving Repr

def BTreeNode.rrn : BTreeNode → Nat
  | .mk r _ _ _ => r

def BTreeNode.leaf : BTreeNode → Bool
  | .mk _ l _ _ => l

def BTreeNode.keys : BTreeNode → List Int
  | .mk _ _ ks _ => ks

def BTreeNode.children : BTreeNode → List BTreeNode
  | .mk _ _ _ cs => cs

/-- Property keycount: number of keys stored in the page. -/
def BTreeNode.keycount (n : BTreeNode) : Nat := n.keys.length

/-- The BTree object: order m plus the parameters derived in BTree.__init__,
the page-number counter and the root page. -/
structure BTree : Type where
  order : Nat
  max_children : Nat
  max_keys : Nat
  min_children : Nat
  min_keys : Nat
  t : Nat
  nextRrn : Nat
  root : BTreeNode
deriving Repr

/-- BTree.__init__: rejects order < 3 (ValueError), otherwise derives
max/min parameters (min_children = ceil(order/2)) and creates the root as an
empty leaf page with rrn 0. -/
def BTree.init (order : Nat) : M BTree :=
  if order < 3 then .error .valueError
  else .ok
    { order := order
      max_children := order
      max_keys := order - 1
      min_children := (order + 1) / 2
      min_keys := (order + 1) / 2 - 1
      t := (order + 1) / 2
      nextRrn := 1
      root := BTreeNode.mk 0 true [] [] }

mutual

/-- BTree._count_keys: total number of keys in the subtree (children are
followed regardless of the leaf flag, as in the source). -/
def count_keys : BTreeNode → Nat
  | .mk _ _ ks cs => ks.length + count_keys_list cs

def count_keys_list : List BTreeNode → Nat
  | [] => 0
  | c :: cs => count_keys c + count_keys_list cs

end

/-- BTree.total_keys: 0 for an empty tree, else the full recursive count. -/
def BTree.total_keys (s : BTree) : Nat :=
  if s.root.keycount = 0 ∧ s.root.leaf then 0 else count_keys s.root

/-- BTree._height: number of pages from this page down to a leaf, always
following child 0 (IndexError on an internal page without children). -/
def height_go : Nat → BTreeNode → M Nat
  | 0, _ => .error .fuelOut
  | fuel + 1, node =>
    if node.leaf then .ok 1
    else do
      let c ← getIdx node.children 0
      let h ← height_go fuel c
      .ok (1 + h)

/-- BTree.actual_depth: 0 for an empty tree, else the measured height. -/
def BTree.actual_depth (fuel : Nat) (s : BTree) : M Nat :=
  if s.root.keycount = 0 ∧ s.root.leaf then .ok 0 else height_go fuel s.root

/-- Position loop of _search_node and _delete: the first index i with
key <= keys[i] (equivalently, the number of leading keys smaller than key). -/
def low_pos (key : Int) (ks : List Int) : Nat :=
  (ks.takeWhile (fun x => x < key)).length

/-- Position loop of _insert_non_full (scanning from the right): number of
keys up to and including the last key that is <= key. -/
def ins_pos (key : Int) (ks : List Int) : Nat :=
  ks.length - (ks.reverse.takeWhile (fun x => key < x)).length

/-- BTree._search_node: recursive search; some (page, index) when found,
none otherwise. -/
def search_node : Nat → BTreeNode → Int → M (Option (BTreeNode × Nat))
  | 0, _, _ => .error .fuelOut
  | fuel + 1, node, key =>
    let i := low_pos key node.keys
    if node.keys[i]? = some key then .ok (some (node, i))
    else if node.leaf then .ok none
    else do
      let c ← getIdx node.children i
      search_node fuel c key

/-- Outcome of the public search: Achou (page rrn and position) or Nao-Achou. -/
inductive SearchResult : Type where
  | found (rrn : Nat) (pos : Nat) : SearchResult
  | notFound : SearchResult
deriving DecidableEq, Repr

/-- BTree.search: empty tree answers not-found directly, otherwise the
recursive search from the root. -/
def BTree.search (fuel : Nat) (s : BTree) (key : Int) : M SearchResult := do
  if s.root.keycount = 0 ∧ s.root.leaf then .ok .notFound
  else
    match ← search_node fuel s.root key with
    | some (n, i) => .ok (.found n.rrn i)
    | none => .ok .notFound

/-- BTree._split_child: splits child number index of parent; the child keeps
its first t-1 keys (and first t children), a fresh right sibling receives the
keys (and children) from position t on, and the key at position t-1 moves up
into the parent at position index, the sibling entering the child list at
index+1.  Returns the updated parent and the page counter after allocating
the sibling. -/
def split_child (t : Nat) (parent : BTreeNode) (index : Nat) (nxt : Nat) :
    M (BTreeNode × Nat) := do
  let y ← getIdx parent.children index
  let middle ← getIdx y.keys (t - 1)
  let z := BTreeNode.mk nxt y.leaf (y.keys.drop t)
    (if y.leaf then [] else y.children.drop t)
  let y2 := BTreeNode.mk y.rrn y.leaf (y.keys.take (t - 1))
    (if y.leaf then y.children else y.children.take t)
  let cs := pyInsertAt (index + 1) z (parent.children.set index y2)
  let ks := pyInsertAt index middle parent.keys
  .ok (BTreeNode.mk parent.rrn parent.leaf ks cs, nxt + 1)

/-- BTree._insert_non_full: insert key into a page assumed not full; on a
leaf the key enters at its position directly, otherwise descend into the
proper child, splitting it first when it is full. -/
def insert_non_full : Nat → Nat → Nat → BTreeNode → Int → Nat → M (BTreeNode × Nat)
  | 0, _, _, _, _, _ => .error .fuelOut
  | fuel + 1, t, maxKeys, node, key, nxt =>
    if node.leaf then
      .ok (BTreeNode.mk node.rrn node.leaf
        (pyInsertAt (ins_pos key node.keys) key node.keys) node.children, nxt)
    else do
      let i := ins_pos key node.keys
      let child ← getIdx node.children i
      if child.keycount = maxKeys then do
        let (node1, nxt1) ← split_child t node i nxt
        let ki ← getIdx node1.keys i
        let i1 := if ki < key then i + 1 else i
        let c ← getIdx node1.children i1
        let (c2, nxt2) ← insert_non_full fuel t maxKeys c key nxt1
        .ok (BTreeNode.mk node1.rrn node1.leaf node1.keys (node1.children.set i1 c2), nxt2)
      else do
        let (c2, nxt2) ← insert_non_full fuel t maxKeys child key nxt
        .ok (BTreeNode.mk node.rrn node.leaf node.keys (node.children.set i c2), nxt2)

/-- BTree.insert: when the root is full, allocate a new internal root over
it and split, then insert into the non-full root. -/
def BTree.insert (fuel : Nat) (s : BTree) (key : Int) : M BTree :=
  if s.root.keycount = s.max_keys then do
    let newRoot := BTreeNode.mk s.nextRrn false [] [s.root]
    let (nr2, nxt2) ← split_child s.t newRoot 0 (s.nextRrn + 1)
    let (nr3, nxt3) ← insert_non_full fuel s.t s.max_keys nr2 key nxt2
    .ok { s with root := nr3, nextRrn := nxt3 }
  else do
    let (r2, nxt2) ← insert_non_full fuel s.t s.max_keys s.root key s.nextRrn
    .ok { s with root := r2, nextRrn := nxt2 }

/-- BTree._get_predecessor descent: from a page, follow the last child while
not at a leaf. -/
def descend_last : Nat → BTreeNode → M BTreeNode
  | 0, _ => .error .fuelOut
  | fuel + 1, cur =>
    if cur.leaf then .ok cur
    else do
      let c ← getIdx cur.children cur.keycount
      descend_last fuel c

/-- BTree._get_successor descent: from a page, follow child 0 while not at a
leaf. -/
def descend_first : Nat → BTreeNode → M BTreeNode
  | 0, _ => .error .fuelOut
  | fuel + 1, cur =>
    if cur.leaf then .ok cur
    else do
      let c ← getIdx cur.children 0
      descend_first fuel c

/-- BTree._get_predecessor: last key (keys[-1]) of the rightmost leaf below
child idx. -/
def get_predecessor (fuel : Nat) (node : BTreeNode) (idx : Nat) : M Int := do
  let c ← getIdx node.children idx
  let lf ← descend_last fuel c
  getLastP lf.keys

/-- BTree._get_successor: first key (keys[0]) of the leftmost leaf below
child idx+1. -/
def get_successor (fuel : Nat) (node : BTreeNode) (idx : Nat) : M Int := do
  let c ← getIdx node.children (idx + 1)
  let lf ← descend_first fuel c
  getIdx lf.keys 0

/-- BTree._merge_children: child idx absorbs the separator key parent.keys[idx]
and all keys (and, when internal, children) of child idx+1, which is removed. -/
def merge_children (parent : BTreeNode) (idx : Nat) : M BTreeNode := do
  let child ← getIdx parent.children idx
  let sibling ← getIdx parent.children (idx + 1)
  let sep ← getIdx parent.keys idx
  let child2 := BTreeNode.mk child.rrn child.leaf
    (child.keys ++ sep :: sibling.keys)
    (if child.leaf then child.children else child.children ++ sibling.children)
  .ok (BTreeNode.mk parent.rrn parent.leaf
    (parent.keys.eraseIdx idx)
    ((parent.children.set idx child2).eraseIdx (idx + 1)))

/-- BTree._borrow_from_prev: rotate through the parent from the left sibling:
the separator keys[idx-1] drops to the front of child idx, the left sibling's
last child (when internal) moves over, and the left sibling's last key rises
to the parent. -/
def borrow_from_prev (parent : BTreeNode) (idx : Nat) : M BTreeNode := do
  let child ← getIdx parent.children idx
  let left ← getIdx parent.children (idx - 1)
  let sep ← getIdx parent.keys (idx - 1)
  if child.leaf then do
    let (lk, leftKeys) ← popLast left.keys
    let child2 := BTreeNode.mk child.rrn child.leaf (sep :: child.keys) child.children
    let left2 := BTreeNode.mk left.rrn left.leaf leftKeys left.children
    .ok (BTreeNode.mk parent.rrn parent.leaf
      (parent.keys.set (idx - 1) lk)
      ((parent.children.set idx child2).set (idx - 1) left2))
  else do
    let (lc, leftChildren) ← popLast left.children
    let (lk, leftKeys) ← popLast left.keys
    let child2 := BTreeNode.mk child.rrn child.leaf (sep :: child.keys) (lc :: child.children)
    let left2 := BTreeNode.mk left.rrn left.leaf leftKeys leftChildren
    .ok (BTreeNode.mk parent.rrn parent.leaf
      (parent.keys.set (idx - 1) lk)
      ((parent.children.set idx child2).set (idx - 1) left2))

/-- BTree._borrow_from_next: rotate through the parent from the right sibling:
the separator keys[idx] drops to the end of child idx, the right sibling's
first child (when internal) moves over, and the right sibling's first key
rises to the parent. -/
def borrow_from_next (parent : BTreeNode) (idx : Nat) : M BTreeNode := do
  let child ← getIdx parent.children idx
  let right ← getIdx parent.children (idx + 1)
  let sep ← getIdx parent.keys idx
  if child.leaf then do
    let (rk, rightKeys) ← popAt right.keys 0
    let child2 := BTreeNode.mk child.rrn child.leaf (child.keys ++ [sep]) child.children
    let right2 := BTreeNode.mk right.rrn right.leaf rightKeys right.children
    .ok (BTreeNode.mk parent.rrn parent.leaf
      (parent.keys.set idx rk)
      ((parent.children.set idx child2).set (idx + 1) right2))
  else do
    let (rc, rightChildren) ← popAt right.children 0
    let (rk, rightKeys) ← popAt right.keys 0
    let child2 := BTreeNode.mk child.rrn child.leaf (child.keys ++ [sep]) (child.children ++ [rc])
    let right2 := BTreeNode.mk right.rrn right.leaf rightKeys rightChildren
    .ok (BTreeNode.mk parent.rrn parent.leaf
      (parent.keys.set idx rk)
      ((parent.children.set idx child2).set (idx + 1) right2))

/-- BTree._delete: the recursive deletion with the four rebalancing cases
(remove at leaf, predecessor or successor substitution, merge, and the
borrow-or-merge preparation before descending). -/
def delete_go : Nat → Nat → BTreeNode → Int → M BTreeNode
  | 0, _, _, _ => .error .fuelOut
  | fuel + 1, t, node, key =>
    let idx := low_pos key node.keys
    if node.keys[idx]? = some key then
      if node.leaf then
        .ok (BTreeNode.mk node.rrn node.leaf (node.keys.eraseIdx idx) node.children)
      else do
        let lc ← getIdx node.children idx
        if t ≤ lc.keycount then do
          let pred ← get_predecessor fuel node idx
          let node1 := BTreeNode.mk node.rrn node.leaf (node.keys.set idx pred) node.children
          let c ← getIdx node1.children idx
          let c2 ← delete_go fuel t c pred
          .ok (BTreeNode.mk node1.rrn node1.leaf node1.keys (node1.children.set idx c2))
        else do
          let rc ← getIdx node.children (idx + 1)
          if t ≤ rc.keycount then do
            let succ ← get_successor fuel node idx
            let node1 := BTreeNode.mk node.rrn node.leaf (node.keys.set idx succ) node.children
            let c ← getIdx node1.children (idx + 1)
            let c2 ← delete_go fuel t c succ
            .ok (BTreeNode.mk node1.rrn node1.leaf node1.keys (node1.children.set (idx + 1) c2))
          else do
            let node1 ← merge_children node idx
            let c ← getIdx node1.children idx
            let c2 ← delete_go fuel t c key
            .ok (BTreeNode.mk node1.rrn node1.leaf node1.keys (node1.children.set idx c2))
    else
      if node.leaf then .ok node
      else do
        let child ← getIdx node.children idx
        let (node1, idx1) ←
          if child.keycount < t then do
            let condPrev ←
              if 0 < idx then do
                let p ← getIdx node.children (idx - 1)
                pure (decide (t ≤ p.keycount))
              else pure false
            if condPrev then do
              let n2 ← borrow_from_prev node idx
              pure (n2, idx)
            else do
              let condNext ←
                if idx < node.children.length - 1 then do
                  let p ← getIdx node.children (idx + 1)
                  pure (decide (t ≤ p.keycount))
                else pure false
              if condNext then do
                let n2 ← borrow_from_next node idx
                pure (n2, idx)
              else
                if idx < node.children.length - 1 then do
                  let n2 ← merge_children node idx
                  pure (n2, idx)
                else do
                  let n2 ← merge_children node (idx - 1)
                  pure (n2, idx - 1)
          else pure (node, idx)
        let c ← getIdx node1.children idx1
        let c2 ← delete_go fuel t c key
        .ok (BTreeNode.mk node1.rrn node1.leaf node1.keys (node1.children.set idx1 c2))

/-- BTree.delete: run the recursive deletion from the root; if the root is
left internal with zero keys, its single child becomes the new root. -/
def BTree.delete (fuel : Nat) (s : BTree) (key : Int) : M BTree := do
  let r ← delete_go fuel s.t s.root key
  if r.keycount = 0 ∧ r.leaf = false then do
    let r2 ← getIdx r.children 0
    .ok { s with root := r2 }
  else .ok { s with root := r }

/-- Top-level operation fed to the tree: one public insert or delete call. -/
inductive Op : Type where
  | ins (key : Int) : Op
  | del (key : Int) : Op
deriving DecidableEq, Repr

def applyOp (fuel : Nat) (s : BTree) : Op → M BTree
  | .ins k => s.insert fuel k
  | .del k => s.delete fuel k

def runOps (fuel : Nat) : BTree → List Op → M BTree
  | s, [] => .ok s
  | s, op :: ops => do
    let s2 ← applyOp fuel s op
    runOps fuel s2 ops

mutual

/-- In-order traversal of a page: on a leaf just the keys, otherwise the
children and keys interleaved (child 0, key 0, child 1, key 1, ...). -/
def inorder : BTreeNode → List Int
  | .mk _ true ks _ => ks
  | .mk _ false ks cs => inorder_go cs ks

def inorder_go : List BTreeNode → List Int → List Int
  | [], ks => ks
  | c :: cs, [] => inorder c ++ inorder_go cs []
  | c :: cs, k :: ks => inorder c ++ k :: inorder_go cs ks

end

/-- Number of successful deletes in an operation sequence: delete calls whose
key is present (as an in-order entry) in the tree state the call sees. -/
def successful_dels (fuel : Nat) : BTree → List Op → M Nat
  | _, [] => .ok 0
  | s, op :: ops => do
    let s2 ← applyOp fuel s op
    let d ← successful_dels fuel s2 ops
    match op with
    | .ins _ => .ok d
    | .del k => .ok (if (inorder s.root).contains k then d + 1 else d)

/-- Number of insert calls in an operation sequence. -/
def ins_count : List Op → Nat
  | [] => 0
  | .ins _ :: ops => ins_count ops + 1
  | .del _ :: ops => ins_count ops

mutual

/-- Fanout check: every page with the leaf flag false holds exactly one more
child than it holds keys. -/
def fanout_ok : BTreeNode → Bool
  | .mk _ lf ks cs => (lf || decide (cs.length = ks.length + 1)) && fanout_ok_list cs

def fanout_ok_list : List BTreeNode → Bool
  | [] => true
  | c :: cs => fanout_ok c && fanout_ok_list cs

end

mutual

/-- Depths (number of pages from this page inclusive) of all leaf pages of a
subtree. -/
def leaf_depths : BTreeNode → List Nat
  | .mk _ true _ _ => [1]
  | .mk _ false _ cs => (leaf_depths_list cs).map (· + 1)

def leaf_depths_list : List BTreeNode → List Nat
  | [] => []
  | c :: cs => leaf_depths c ++ leaf_depths_list cs

end

/-- Optional lower bound: no bound, or a least admissible value. -/
def olb : Option Int → Int → Prop
  | none, _ => True
  | some a, x => a ≤ x

/-- Optional upper bound: no bound, or a greatest admissible value. -/
def oub : Option Int → Int → Prop
  | none, _ => True
  | some b, x => x ≤ b

mutual

/-- Key-order well-formedness of a page within optional bounds: a leaf has no
children and weakly sorted keys inside the bounds; an internal page has
children and keys strictly interleaved (so one more child than keys), each
child well-formed between the neighbouring separators. -/
inductive Wf : Option Int → Option Int → BTreeNode → Prop where
  | leaf (lo hi : Option Int) (r : Nat) (ks : List Int)
      (hchain : List.Sorted (fun a b : Int => a ≤ b) ks)
      (hbound : ∀ x ∈ ks, olb lo x ∧ oub hi x) :
      Wf lo hi (.mk r true ks [])
  | node (lo hi : Option Int) (r : Nat) (ks : List Int) (cs : List BTreeNode)
      (h : WfL lo hi cs ks) :
      Wf lo hi (.mk r false ks cs)

/-- Interleaving of children and separator keys, each child bounded by the
separators around it. -/
inductive WfL : Option Int → Option Int → List BTreeNode → List Int → Prop where
  | single (lo hi : Option Int) (c : BTreeNode) (h : Wf lo hi c) :
      WfL lo hi [c] []
  | cons (lo hi : Option Int) (k : Int) (c : BTreeNode) (cs : List BTreeNode)
      (ks : List Int) (hc : Wf lo (some k) c) (hlo : olb lo k) (hhi : oub hi k)
      (hrest : WfL (some k) hi cs ks) :
      WfL lo hi (c :: cs) (k :: ks)

end

mutual

/-- Balance: all leaves of the subtree lie at depth d (a page with the leaf
flag is at depth 1; an internal page adds one to the common depth of its
children). -/
inductive Deep : Nat → BTreeNode → Prop where
  | leaf (r : Nat) (ks : List Int) (cs : List BTreeNode) :
      Deep 1 (.mk r true ks cs)
  | node (d : Nat) (r : Nat) (ks : List Int) (cs : List BTreeNode)
      (h : DeepL d cs) : Deep (d + 1) (.mk r false ks cs)

/-- All pages of a list have all their leaves at the common depth d. -/
inductive DeepL : Nat → List BTreeNode → Prop where
  | nil (d : Nat) : DeepL d []
  | cons (d : Nat) (c : BTreeNode) (cs : List BTreeNode)
      (hc : Deep d c) (hcs : DeepL d cs) : DeepL d (c :: cs)

end

/-- Tree states reachable from construction with a given order by successful
public insert and delete calls. -/
inductive Reach (order : Nat) : BTree → Prop where
  | init (s : BTree) : BTree.init order = .ok s → Reach order s
  | ins (s s2 : BTree) (fuel : Nat) (k : Int) :
      Reach order s → s.insert fuel k = .ok s2 → Reach order s2
  | del (s s2 : BTree) (fuel : Nat) (k : Int) :
      Reach order s → s.delete fuel k = .ok s2 → Reach order s2

/-- Configuration facts fixed at construction and never mutated afterwards. -/
def ConfigOk (order : Nat) (s : BTree) : Prop :=
  s.order = order ∧ s.max_children = order ∧ s.max_keys = order - 1 ∧
  s.min_children = (order + 1) / 2 ∧ s.min_keys = (order + 1) / 2 - 1 ∧
  s.t = (order + 1) / 2 ∧ 3 ≤ order

/-- Structural invariant of a tree state: the root is key-order well-formed
(unbounded) and all leaves lie at a common depth. -/
def StateInv (s : BTree) : Prop :=
  Wf none none s.root ∧ ∃ d, Deep d s.root

/-- Lower bound seen by the child at slot i of a page with keys ks and
outer lower bound lo. -/
def lobnd (lo : Option Int) (ks : List Int) (i : Nat) : Option Int :=
  if i = 0 then lo else ks[i - 1]?

/-- Upper bound seen by the child at slot i of a page with keys ks and
outer upper bound hi. -/
def hibnd (hi : Option Int) (ks : List Int) (i : Nat) : Option Int :=
  if i = ks.length then hi else ks[i]?

/-- The separators around descent slot i strictly bracket the key being
navigated to: what the _delete descent guarantees about the slot it picks. -/
def NavOk (ks : List Int) (i : Nat) (key : Int) : Prop :=
  (∀ kA, 0 < i → ks[i - 1]? = some kA → kA < key) ∧
  (∀ kB, ks[i]? = some kB → key < kB)

/-! Theorems. -/

/-- C10: constructing with order < 3 raises the configuration error (and no
tree is produced), while any order >= 3 succeeds with a tree whose root is
the empty leaf page 0. -/
theorem init_spec (order : Nat) :
    (order < 3 → BTree.init order = .error .valueError) ∧
    (3 ≤ order → ∃ s, BTree.init order = .ok s ∧ s.root = BTreeNode.mk 0 true [] [] ∧
      s.root.leaf = true ∧ s.root.keycount = 0 ∧ s.order = order) := by
  constructor
  · intro h
    simp [BTree.init, h]
  · intro h
    refine ⟨{ order := order, max_children := order, max_keys := order - 1,
              min_children := (order + 1) / 2, min_keys := (order + 1) / 2 - 1,
              t := (order + 1) / 2, nextRrn := 1,
              root := BTreeNode.mk 0 true [] [] }, ?_, rfl, rfl, rfl, rfl⟩
    simp [BTree.init, Nat.not_lt.mpr h]

/-- Closed instances of init_spec at order 2 (error) and order 3 (success). -/
theorem init_spec_witness :
    (2 < 3 ∧ BTree.init 2 = .error .valueError) ∧
    (3 ≤ 3 ∧ ∃ s, BTree.init 3 = .ok s ∧ s.root = BTreeNode.mk 0 true [] [] ∧
      s.root.leaf = true ∧ s.root.keycount = 0 ∧ s.order = 3) :=
  ⟨⟨by decide, (init_spec 2).1 (by decide)⟩,
   ⟨by decide, (init_spec 3).2 (by decide)⟩⟩

/-- C1 fails on the code: with order 3 the reachable at-rest state after
inserting 10, 20, 15 (all calls succeeding) has min_keys = 1 but its root is
internal with a child page holding 0 keys, violating the non-root occupancy
lower bound. -/
theorem occupancy_code_bug :
    ((BTree.init 3).bind fun s0 =>
        runOps 20 s0 [.ins 10, .ins 20, .ins 15]).map
      (fun s => (s.min_keys, s.root.leaf, s.root.children.map BTreeNode.keycount))
      = .ok (1, false, [2, 0]) ∧ ¬ (1 : Nat) ≤ 0 := by
  exact ⟨rfl, by decide⟩

/-- C8 fails on the code: with order 3 this sequence of inserts followed by
delete 2 hits _get_predecessor on an empty page (keys[-1] raises IndexError),
so a delete call on a reachable tree fails. -/
theorem delete_crash :
    (BTree.init 3).bind (fun s0 => runOps 30 s0
      [.ins 1, .ins 2, .ins 3, .ins 4, .ins 5, .ins 6, .ins 7, .ins 8,
       .ins 7, .ins 0, .ins 0, .ins 0, .del 2]) = .error .indexError := rfl

/-- C2 as stated fails on the code: with order 4, on the reachable tree built
by inserting 10, 20, 30, 40 and deleting 40, deleting the absent key 15
succeeds but restructures the tree (the internal root page is replaced by a
leaf page with a different rrn), although the in-order key sequence is
unchanged. -/
theorem delete_absent_restructures :
    ∃ s s2 : BTree,
      (BTree.init 4).bind
        (fun s0 => runOps 20 s0 [.ins 10, .ins 20, .ins 30, .ins 40, .del 40]) = .ok s ∧
      (inorder s.root).contains 15 = false ∧
      s.delete 20 15 = .ok s2 ∧
      inorder s2.root = inorder s.root ∧
      s.root.leaf = false ∧ s2.root.leaf = true ∧ s.root.rrn = 1 ∧ s2.root.rrn = 0 := by
  refine ⟨{ order := 4, max_children := 4, max_keys := 3, min_children := 2,
            min_keys := 1, t := 2, nextRrn := 3,
            root := .mk 1 false [20] [.mk 0 true [10] [], .mk 2 true [30] []] },
          { order := 4, max_children := 4, max_keys := 3, min_children := 2,
            min_keys := 1, t := 2, nextRrn := 3,
            root := .mk 0 true [10, 20, 30] [] }, ?_, ?_, ?_, ?_, ?_, ?_, ?_, ?_⟩
  · rfl
  · rfl
  · rfl
  · rfl
  · rfl
  · rfl
  · rfl
  · rfl

/-- C3 as stated fails on the code: with order 3 (t = 2), inserting 15 into
the reachable tree whose full root holds [10, 20] splits that full page, but
the new right sibling receives no keys at all, not the last t-1 = 1 keys
(which would be [20]): [20] went up to the parent instead and the sibling got
keys[t:] = []. -/
theorem split_keys_counterexample :
    ∃ s s3 : BTree,
      (BTree.init 3).bind (fun s0 => runOps 20 s0 [.ins 10, .ins 20]) = .ok s ∧
      s.t = 2 ∧ s.root.keycount = s.max_keys ∧
      s.insert 20 15 = .ok s3 ∧
      s3.root.children[1]? = some (.mk 2 true [] []) ∧
      s.root.keys.drop (s.max_keys - (s.t - 1)) = [20] ∧
      ([] : List Int) ≠ [20] := by
  refine ⟨{ order := 3, max_children := 3, max_keys := 2, min_children := 2,
            min_keys := 1, t := 2, nextRrn := 1,
            root := .mk 0 true [10, 20] [] },
          { order := 3, max_children := 3, max_keys := 2, min_children := 2,
            min_keys := 1, t := 2, nextRrn := 3,
            root := .mk 1 false [20] [.mk 0 true [10, 15] [], .mk 2 true [] []] },
          ?_, ?_, ?_, ?_, ?_, ?_, ?_⟩
  · rfl
  · rfl
  · rfl
  · rfl
  · rfl
  · rfl
  · decide

/-- Reduction of a successful monadic bind in the error monad. -/
theorem M_bind_ok {α β : Type} (a : α) (f : α → M β) :
    (Bind.bind (Except.ok a) f : M β) = f a := rfl

/-- C3 amended: splitting a full page (max_keys keys) at child slot index
hands the new right sibling the keys from position t on (max_keys - t keys,
which is t-1 only for even order) and, when internal, the children from
position t on (max_keys + 1 - t of them); the page keeps the first t-1 keys
and first t children; the key at 0-indexed position t-1 is removed and enters
the parent at position index, the sibling entering the child list at
index+1. -/
theorem split_child_spec (t maxKeys : Nat) (parent y : BTreeNode)
    (index nxt : Nat) (p2 : BTreeNode) (n2 : Nat)
    (hy : parent.children[index]? = some y)
    (hfull : y.keycount = maxKeys)
    (ht : 1 ≤ t) (htm : t ≤ maxKeys)
    (hok : split_child t parent index nxt = .ok (p2, n2)) :
    ∃ mid, y.keys[t - 1]? = some mid ∧
      n2 = nxt + 1 ∧
      p2.rrn = parent.rrn ∧ p2.leaf = parent.leaf ∧
      p2.keys = pyInsertAt index mid parent.keys ∧
      p2.children = pyInsertAt (index + 1)
        (BTreeNode.mk nxt y.leaf (y.keys.drop t)
          (if y.leaf then [] else y.children.drop t))
        (parent.children.set index
          (BTreeNode.mk y.rrn y.leaf (y.keys.take (t - 1))
            (if y.leaf then y.children else y.children.take t))) ∧
      (y.keys.drop t).length = maxKeys - t ∧
      (y.keys.take (t - 1)).length = t - 1 ∧
      (y.children.length = y.keys.length + 1 →
        (y.children.drop t).length = maxKeys + 1 - t ∧
        (y.children.take t).length = t) := by
  have hlen : y.keys.length = maxKeys := hfull
  have htlt : t - 1 < y.keys.length := by omega
  refine ⟨y.keys[t - 1], List.getElem?_eq_getElem htlt, ?_⟩
  rw [split_child] at hok
  simp only [getIdx, hy, List.getElem?_eq_getElem htlt, M_bind_ok] at hok
  rw [Except.ok.injEq, Prod.mk.injEq] at hok
  obtain ⟨hp2, hn2⟩ := hok
  subst hp2
  refine ⟨hn2.symm, rfl, rfl, rfl, rfl, ?_, ?_, ?_⟩
  · rw [List.length_drop, hlen]
  · rw [List.length_take, hlen]
    omega
  · intro hc
    rw [List.length_drop, List.length_take, hc, hlen]
    omega

/-- Closed instance of split_child_spec: order 3 (t = 2, max_keys = 2),
splitting the full leaf page [10, 20] below a fresh root. -/
theorem split_child_spec_witness :
    ∃ mid, (BTreeNode.mk 0 true [10, 20] []).keys[2 - 1]? = some mid ∧
      3 = 2 + 1 ∧
      (BTreeNode.mk 1 false [20] [.mk 0 true [10] [], .mk 2 true [] []]).rrn =
        (BTreeNode.mk 1 false [] [.mk 0 true [10, 20] []]).rrn ∧
      (BTreeNode.mk 1 false [20] [.mk 0 true [10] [], .mk 2 true [] []]).leaf =
        (BTreeNode.mk 1 false [] [.mk 0 true [10, 20] []]).leaf ∧
      (BTreeNode.mk 1 false [20] [.mk 0 true [10] [], .mk 2 true [] []]).keys =
        pyInsertAt 0 mid (BTreeNode.mk 1 false [] [.mk 0 true [10, 20] []]).keys ∧
      (BTreeNode.mk 1 false [20] [.mk 0 true [10] [], .mk 2 true [] []]).children =
        pyInsertAt (0 + 1)
          (BTreeNode.mk 2 (BTreeNode.mk 0 true [10, 20] []).leaf
            ((BTreeNode.mk 0 true [10, 20] []).keys.drop 2)
            (if (BTreeNode.mk 0 true [10, 20] []).leaf then []
             else (BTreeNode.mk 0 true [10, 20] []).children.drop 2))
          ((BTreeNode.mk 1 false [] [.mk 0 true [10, 20] []]).children.set 0
            (BTreeNode.mk (BTreeNode.mk 0 true [10, 20] []).rrn
              (BTreeNode.mk 0 true [10, 20] []).leaf
              ((BTreeNode.mk 0 true [10, 20] []).keys.take (2 - 1))
              (if (BTreeNode.mk 0 true [10, 20] []).leaf then
                (BTreeNode.mk 0 true [10, 20] []).children
               else (BTreeNode.mk 0 true [10, 20] []).children.take 2))) ∧
      ((BTreeNode.mk 0 true [10, 20] []).keys.drop 2).length = 2 - 2 ∧
      ((BTreeNode.mk 0 true [10, 20] []).keys.take (2 - 1)).length = 2 - 1 ∧
      ((BTreeNode.mk 0 true [10, 20] []).children.length =
          (BTreeNode.mk 0 true [10, 20] []).keys.length + 1 →
        ((BTreeNode.mk 0 true [10, 20] []).children.drop 2).length = 2 + 1 - 2 ∧
        ((BTreeNode.mk 0 true [10, 20] []).children.take 2).length = 2) :=
  split_child_spec 2 2 (.mk 1 false [] [.mk 0 true [10, 20] []])
    (.mk 0 true [10, 20] []) 0 2
    (.mk 1 false [20] [.mk 0 true [10] [], .mk 2 true [] []]) 3
    rfl rfl (by decide) (by decide) rfl

/-- Transitivity of an optional lower bound through a lesser element. -/
theorem olb_trans {lo : Option Int} {k x : Int} (h : olb lo k) (hkx : k ≤ x) :
    olb lo x := by
  cases lo with
  | none => trivial
  | some a => exact le_trans h hkx

/-- Transitivity of an optional upper bound through a greater element. -/
theorem oub_trans {hi : Option Int} {k x : Int} (h : oub hi k) (hxk : x ≤ k) :
    oub hi x := by
  cases hi with
  | none => trivial
  | some b => exact le_trans hxk h

/-- Unfolding of the interleaving on a single trailing child. -/
theorem inorder_go_single (c : BTreeNode) : inorder_go [c] [] = inorder c := by
  simp [inorder_go]

/-- Unfolding of the interleaving on a child-key pair. -/
theorem inorder_go_cons (c : BTreeNode) (cs : List BTreeNode) (k : Int)
    (ks : List Int) : inorder_go (c :: cs) (k :: ks) = inorder c ++ k :: inorder_go cs ks :=
  rfl

mutual

/-- Well-formedness survives weakening of the outer bounds. -/
theorem Wf_weaken {lo hi lo2 hi2 : Option Int} {n : BTreeNode}
    (h : Wf lo hi n) (hl : ∀ x, olb lo x → olb lo2 x)
    (hh : ∀ x, oub hi x → oub hi2 x) : Wf lo2 hi2 n :=
  match h with
  | .leaf lo hi r ks hchain hbound =>
      .leaf lo2 hi2 r ks hchain (fun x hx => ⟨hl x (hbound x hx).1, hh x (hbound x hx).2⟩)
  | .node lo hi r ks cs h => .node lo2 hi2 r ks cs (WfL_weaken h hl hh)

theorem WfL_weaken {lo hi lo2 hi2 : Option Int} {cs : List BTreeNode} {ks : List Int}
    (h : WfL lo hi cs ks) (hl : ∀ x, olb lo x → olb lo2 x)
    (hh : ∀ x, oub hi x → oub hi2 x) : WfL lo2 hi2 cs ks :=
  match h with
  | .single lo hi c hc => .single lo2 hi2 c (Wf_weaken hc hl hh)
  | .cons lo hi k c cs ks hc hlo hhi hrest =>
      .cons lo2 hi2 k c cs ks (Wf_weaken hc hl (fun _ hx => hx)) (hl k hlo) (hh k hhi)
        (WfL_weaken hrest (fun _ hx => hx) hh)

end

mutual

/-- Every in-order entry of a well-formed page respects the outer bounds. -/
theorem Wf_bounds {lo hi : Option Int} {n : BTreeNode} (h : Wf lo hi n) :
    ∀ x ∈ inorder n, olb lo x ∧ oub hi x :=
  match h with
  | .leaf _ _ _ _ _ hbound => hbound
  | .node _ _ _ _ _ h => WfL_bounds h

theorem WfL_bounds {lo hi : Option Int} {cs : List BTreeNode} {ks : List Int}
    (h : WfL lo hi cs ks) : ∀ x ∈ inorder_go cs ks, olb lo x ∧ oub hi x :=
  match h with
  | .single _ _ c hc => by
      intro x hx
      rw [inorder_go_single] at hx
      exact Wf_bounds hc x hx
  | .cons _ hi k c cs ks hc hlo hhi hrest => by
      intro x hx
      rw [inorder_go_cons, List.mem_append, List.mem_cons] at hx
      rcases hx with hx | hx | hx
      · rcases Wf_bounds hc x hx with ⟨h1, h2⟩
        exact ⟨h1, oub_trans hhi h2⟩
      · subst hx
        exact ⟨hlo, hhi⟩
      · rcases WfL_bounds hrest x hx with ⟨h1, h2⟩
        exact ⟨olb_trans hlo h1, h2⟩

end

mutual

/-- The in-order traversal of a well-formed page is weakly sorted. -/
theorem Wf_sorted {lo hi : Option Int} {n : BTreeNode} (h : Wf lo hi n) :
    List.Sorted (fun a b : Int => a ≤ b) (inorder n) :=
  match h with
  | .leaf _ _ _ _ hchain _ => hchain
  | .node _ _ _ _ _ h => WfL_sorted h

theorem WfL_sorted {lo hi : Option Int} {cs : List BTreeNode} {ks : List Int}
    (h : WfL lo hi cs ks) : List.Sorted (fun a b : Int => a ≤ b) (inorder_go cs ks) :=
  match h with
  | .single _ _ c hc => by
      rw [inorder_go_single]
      exact Wf_sorted hc
  | .cons _ hi k c cs ks hc hlo hhi hrest => by
      rw [inorder_go_cons]
      refine List.pairwise_append.2 ⟨Wf_sorted hc, ?_, ?_⟩
      · exact List.pairwise_cons.2 ⟨fun b hb => (WfL_bounds hrest b hb).1, WfL_sorted hrest⟩
      · intro x hx y hy
        have hxk : x ≤ k := (Wf_bounds hc x hx).2
        rcases List.mem_cons.1 hy with hy | hy
        · exact hy ▸ hxk
        · exact le_trans hxk (WfL_bounds hrest y hy).1

end

mutual

/-- The upper bound of a well-formed page can be replaced by any bound its
in-order entries satisfy. -/
theorem Wf_tighten_hi {lo hi hi2 : Option Int} {n : BTreeNode} (h : Wf lo hi n)
    (hh : ∀ x ∈ inorder n, oub hi2 x) : Wf lo hi2 n :=
  match h with
  | .leaf lo _ r ks hchain hbound =>
      .leaf lo hi2 r ks hchain (fun x hx => ⟨(hbound x hx).1, hh x hx⟩)
  | .node lo _ r ks cs h => .node lo hi2 r ks cs (WfL_tighten_hi h hh)

theorem WfL_tighten_hi {lo hi hi2 : Option Int} {cs : List BTreeNode} {ks : List Int}
    (h : WfL lo hi cs ks) (hh : ∀ x ∈ inorder_go cs ks, oub hi2 x) :
    WfL lo hi2 cs ks :=
  match h with
  | .single lo _ c hc =>
      .single lo hi2 c (Wf_tighten_hi hc (fun x hx => hh x (by rw [inorder_go_single]; exact hx)))
  | .cons lo _ k c cs ks hc hlo hhi hrest =>
      .cons lo hi2 k c cs ks hc hlo
        (hh k (by rw [inorder_go_cons]; simp))
        (WfL_tighten_hi hrest (fun x hx => hh x (by rw [inorder_go_cons]; simp [hx])))

end

mutual

/-- The lower bound of a well-formed page can be replaced by any bound its
in-order entries satisfy. -/
theorem Wf_tighten_lo {lo lo2 hi : Option Int} {n : BTreeNode} (h : Wf lo hi n)
    (hl : ∀ x ∈ inorder n, olb lo2 x) : Wf lo2 hi n :=
  match h with
  | .leaf _ hi r ks hchain hbound =>
      .leaf lo2 hi r ks hchain (fun x hx => ⟨hl x hx, (hbound x hx).2⟩)
  | .node _ hi r ks cs h => .node lo2 hi r ks cs (WfL_tighten_lo h hl)

theorem WfL_tighten_lo {lo lo2 hi : Option Int} {cs : List BTreeNode} {ks : List Int}
    (h : WfL lo hi cs ks) (hl : ∀ x ∈ inorder_go cs ks, olb lo2 x) :
    WfL lo2 hi cs ks :=
  match h with
  | .single _ hi c hc =>
      .single lo2 hi c (Wf_tighten_lo hc (fun x hx => hl x (by rw [inorder_go_single]; exact hx)))
  | .cons _ hi k c cs ks hc hlo hhi hrest =>
      .cons lo2 hi k c cs ks
        (Wf_tighten_lo hc (fun x hx => hl x (by rw [inorder_go_cons]; simp [hx])))
        (hl k (by rw [inorder_go_cons]; simp))
        hhi hrest

end

/-- The lower bound seen at slot i+1 of an extended key list is the bound
seen at slot i under the head key. -/
theorem lobnd_cons (lo lo2 : Option Int) (k : Int) (ks : List Int) (j : Nat) :
    lobnd (some k) ks j = lobnd lo2 (k :: ks) (j + 1) := by
  cases j with
  | zero => simp [lobnd]
  | succ d => simp [lobnd]

/-- The upper bound seen at slot i+1 of an extended key list is the bound
seen at slot i under the head key. -/
theorem hibnd_cons (hi : Option Int) (k : Int) (ks : List Int) (j : Nat) :
    hibnd hi ks j = hibnd hi (k :: ks) (j + 1) := by
  by_cases hj : j = ks.length
  · simp [hibnd, hj]
  · have : ¬ (j + 1 = (k :: ks).length) := by simp [List.length_cons]; omega
    simp [hibnd, hj, this]

/-- Inserting at the front of a list. -/
theorem pyInsertAt_zero {α : Type} (a : α) (l : List α) :
    pyInsertAt 0 a l = a :: l := rfl

/-- Inserting past the head commutes with cons. -/
theorem pyInsertAt_succ_cons {α : Type} (i : Nat) (a x : α) (l : List α) :
    pyInsertAt (i + 1) a (x :: l) = x :: pyInsertAt i a l := rfl

/-- A well-formed child list has exactly one more child than keys. -/
theorem WfL_length {lo hi : Option Int} {cs : List BTreeNode} {ks : List Int}
    (h : WfL lo hi cs ks) : cs.length = ks.length + 1 :=
  match h with
  | .single _ _ _ _ => rfl
  | .cons _ _ _ _ _ _ _ _ _ hrest => by
      simp [List.length_cons, WfL_length hrest]

/-- The separator keys of a well-formed child list respect the outer bounds. -/
theorem WfL_keys_bounds {lo hi : Option Int} {cs : List BTreeNode} {ks : List Int}
    (h : WfL lo hi cs ks) : ∀ x ∈ ks, olb lo x ∧ oub hi x :=
  match h with
  | .single _ _ _ _ => by intro x hx; cases hx
  | .cons _ _ k _ _ _ _ hlo hhi hrest => by
      intro x hx
      rcases List.mem_cons.1 hx with hx | hx
      · subst hx; exact ⟨hlo, hhi⟩
      · rcases WfL_keys_bounds hrest x hx with ⟨h1, h2⟩
        exact ⟨olb_trans hlo h1, h2⟩

/-- Focus on child slot i of a well-formed child list: the child is
well-formed between the neighbouring separators, and any page well-formed
between those separators may replace it. -/
theorem WfL_focus {lo hi : Option Int} {cs : List BTreeNode} {ks : List Int}
    (h : WfL lo hi cs ks) (i : Nat) {c : BTreeNode} (hc : cs[i]? = some c) :
    Wf (lobnd lo ks i) (hibnd hi ks i) c ∧
    (∀ c2, Wf (lobnd lo ks i) (hibnd hi ks i) c2 → WfL lo hi (cs.set i c2) ks) :=
  match h, i with
  | .single lo hi c0 hc0, 0 => by
      rw [List.getElem?_cons_zero, Option.some.injEq] at hc
      subst hc
      exact ⟨hc0, fun c2 h2 => .single lo hi c2 h2⟩
  | .single _ _ _ _, i + 1 => by
      rw [List.getElem?_cons_succ] at hc
      simp at hc
  | .cons lo hi k c0 cs ks hc0 hlo hhi hrest, 0 => by
      rw [List.getElem?_cons_zero, Option.some.injEq] at hc
      subst hc
      have hbl : lobnd lo (k :: ks) 0 = lo := by simp [lobnd]
      have hbh : hibnd hi (k :: ks) 0 = some k := by
        simp [hibnd, List.length_cons]
      rw [hbl, hbh]
      exact ⟨hc0, fun c2 h2 => .cons lo hi k c2 cs ks h2 hlo hhi hrest⟩
  | .cons lo hi k c0 cs ks hc0 hlo hhi hrest, j + 1 => by
      rw [List.getElem?_cons_succ] at hc
      rcases WfL_focus hrest j hc with ⟨h1, h2⟩
      rw [lobnd_cons (some k) lo k ks j, hibnd_cons hi k ks j] at h1 h2
      refine ⟨h1, fun c2 hw => ?_⟩
      rw [List.set_cons_succ]
      exact .cons lo hi k c0 _ ks hc0 hlo hhi
        (h2 c2 hw)

/-- Replacing child slot i by a split pair (left part, promoted median,
right sibling) preserves well-formedness of the child list. -/
theorem WfL_split_focus {lo hi : Option Int} {cs : List BTreeNode} {ks : List Int}
    (h : WfL lo hi cs ks) (i : Nat) {y : BTreeNode} (hy : cs[i]? = some y)
    (y2 z : BTreeNode) (mid : Int)
    (hy2 : Wf (lobnd lo ks i) (some mid) y2)
    (hz : Wf (some mid) (hibnd hi ks i) z)
    (hmlo : olb (lobnd lo ks i) mid)
    (hmhi : oub (hibnd hi ks i) mid) :
    WfL lo hi (pyInsertAt (i + 1) z (cs.set i y2)) (pyInsertAt i mid ks) :=
  match h with
  | .single lo hi c0 _ => by
      cases i with
      | zero =>
        rw [show lobnd lo ([] : List Int) 0 = lo from rfl] at hy2 hmlo
        rw [show hibnd hi ([] : List Int) 0 = hi from rfl] at hz hmhi
        exact .cons lo hi mid y2 [z] [] hy2 hmlo hmhi (.single (some mid) hi z hz)
      | succ j =>
        rw [List.getElem?_cons_succ] at hy
        simp at hy
  | .cons lo hi k c0 cs ks hc0 hlo hhi hrest => by
      cases i with
      | zero =>
        rw [show lobnd lo (k :: ks) 0 = lo from rfl] at hy2 hmlo
        rw [show hibnd hi (k :: ks) 0 = some k from by simp [hibnd]] at hz hmhi
        rw [List.set_cons_zero, pyInsertAt_succ_cons, pyInsertAt_zero, pyInsertAt_zero]
        exact .cons lo hi mid y2 (z :: cs) (k :: ks) hy2 hmlo (oub_trans hhi hmhi)
          (.cons (some mid) hi k z cs ks hz hmhi hhi hrest)
      | succ j =>
        rw [List.getElem?_cons_succ] at hy
        rw [← lobnd_cons (some k) lo k ks j] at hy2 hmlo
        rw [← hibnd_cons hi k ks j] at hz hmhi
        rw [List.set_cons_succ, pyInsertAt_succ_cons, pyInsertAt_succ_cons]
        exact .cons lo hi k c0 _ _ hc0 hlo hhi
          (WfL_split_focus hrest j hy y2 z mid hy2 hz hmlo hmhi)

/-- Lowering the separator at slot i to v and replacing the left child below
it by a page well-formed up to v preserves well-formedness. -/
theorem WfL_subst_l {lo hi : Option Int} {cs : List BTreeNode} {ks : List Int}
    (h : WfL lo hi cs ks) (i : Nat) {k0 : Int}
    (hk : ks[i]? = some k0) (v : Int) (c2 : BTreeNode)
    (hwf : Wf (lobnd lo ks i) (some v) c2)
    (hvlo : olb (lobnd lo ks i) v) (hvk : v ≤ k0) :
    WfL lo hi (cs.set i c2) (ks.set i v) :=
  match h with
  | .single _ _ _ _ => by simp at hk
  | .cons lo hi k c0 cs ks hc0 hlo hhi hrest => by
      cases i with
      | zero =>
        rw [List.getElem?_cons_zero, Option.some.injEq] at hk
        rw [show lobnd lo (k :: ks) 0 = lo from rfl] at hwf hvlo
        rw [List.set_cons_zero, List.set_cons_zero]
        refine .cons lo hi v c2 cs ks hwf hvlo (oub_trans hhi (hk ▸ hvk)) ?_
        exact WfL_weaken hrest (fun x hx => le_trans (hk ▸ hvk) hx) (fun _ hx => hx)
      | succ j =>
        rw [List.getElem?_cons_succ] at hk
        rw [← lobnd_cons (some k) lo k ks j] at hwf hvlo
        rw [List.set_cons_succ, List.set_cons_succ]
        exact .cons lo hi k c0 _ _ hc0 hlo hhi (WfL_subst_l hrest j hk v c2 hwf hvlo hvk)

/-- Raising the separator at slot i to v and replacing the right child above
it by a page well-formed down from v preserves well-formedness. -/
theorem WfL_subst_r {lo hi : Option Int} {cs : List BTreeNode} {ks : List Int}
    (h : WfL lo hi cs ks) (i : Nat) {k0 : Int} {s : BTreeNode}
    (hk : ks[i]? = some k0) (hs : cs[i + 1]? = some s) (v : Int) (s2 : BTreeNode)
    (hwf : Wf (some v) (hibnd hi ks (i + 1)) s2)
    (hvhi : oub (hibnd hi ks (i + 1)) v) (hkv : k0 ≤ v) :
    WfL lo hi (cs.set (i + 1) s2) (ks.set i v) :=
  match h with
  | .single _ _ _ _ => by simp at hk
  | .cons lo hi k c0 cs ks hc0 hlo hhi hrest => by
      cases i with
      | zero =>
        rw [List.getElem?_cons_zero, Option.some.injEq] at hk
        rw [List.getElem?_cons_succ] at hs
        have hkv2 : k ≤ v := hk ▸ hkv
        rw [List.set_cons_succ, List.set_cons_zero]
        cases hrest with
        | single _ _ c1 hc1 =>
          rw [List.getElem?_cons_zero, Option.some.injEq] at hs
          rw [show hibnd hi (k :: ([] : List Int)) 1 = hi from by simp [hibnd]] at hwf hvhi
          rw [List.set_cons_zero]
          refine .cons lo hi v c0 [s2] []
            (Wf_weaken hc0 (fun _ hx => hx)
              (fun x hx => show oub (some v) x from le_trans hx hkv2))
            (olb_trans hlo hkv2) hvhi ?_
          exact .single (some v) hi s2 hwf
        | cons _ _ k2 c1 cs3 ks3 hc1 hlo2 hhi2 hrest2 =>
          rw [List.getElem?_cons_zero, Option.some.injEq] at hs
          rw [show hibnd hi (k :: k2 :: ks3) 1 = some k2 from by simp [hibnd]] at hwf hvhi
          rw [List.set_cons_zero]
          refine .cons lo hi v c0 (s2 :: cs3) (k2 :: ks3)
            (Wf_weaken hc0 (fun _ hx => hx)
              (fun x hx => show oub (some v) x from le_trans hx hkv2))
            (olb_trans hlo hkv2) (oub_trans hhi2 hvhi) ?_
          exact .cons (some v) hi k2 s2 cs3 ks3 hwf hvhi hhi2 hrest2
      | succ j =>
        rw [List.getElem?_cons_succ] at hk
        rw [List.getElem?_cons_succ] at hs
        rw [← hibnd_cons hi k ks (j + 1)] at hwf hvhi
        rw [List.set_cons_succ, List.set_cons_succ]
        exact .cons lo hi k c0 _ _ hc0 hlo hhi (WfL_subst_r hrest j hk hs v s2 hwf hvhi hkv)

/-- Focus for a merge: children at slots i and i+1 with the separator at
slot i are each well-formed against that separator, and any page well-formed
across the union of their ranges may replace the pair (removing the
separator). -/
theorem WfL_merge_focus {lo hi : Option Int} {cs : List BTreeNode} {ks : List Int}
    (h : WfL lo hi cs ks) (i : Nat) {c s : BTreeNode} {sep : Int}
    (hc : cs[i]? = some c) (hs : cs[i + 1]? = some s) (hsep : ks[i]? = some sep) :
    Wf (lobnd lo ks i) (some sep) c ∧
    Wf (some sep) (hibnd hi ks (i + 1)) s ∧
    (∀ m, Wf (lobnd lo ks i) (hibnd hi ks (i + 1)) m →
      WfL lo hi ((cs.set i m).eraseIdx (i + 1)) (ks.eraseIdx i)) :=
  match h with
  | .single _ _ _ _ => by simp at hsep
  | .cons lo hi k c0 cs ks hc0 hlo hhi hrest => by
      cases i with
      | zero =>
        rw [List.getElem?_cons_zero, Option.some.injEq] at hc hsep
        subst hc
        subst hsep
        rw [List.getElem?_cons_succ] at hs
        refine ⟨hc0, ?_, ?_⟩
        · rcases WfL_focus hrest 0 hs with ⟨h1, _⟩
          rw [show lobnd (some k) ks 0 = some k from rfl] at h1
          rw [hibnd_cons hi k ks 0] at h1
          exact h1
        · intro m hm
          rw [show lobnd lo (k :: ks) 0 = lo from rfl] at hm
          rw [List.set_cons_zero, List.eraseIdx_cons_succ, List.eraseIdx_cons_zero]
          cases hrest with
          | single _ _ c1 hc1 =>
            rw [show hibnd hi (k :: ([] : List Int)) 1 = hi from by simp [hibnd]] at hm
            exact .single lo hi m hm
          | cons _ _ k2 c1 cs3 ks3 hc1 hlo2 hhi2 hrest2 =>
            rw [show hibnd hi (k :: k2 :: ks3) 1 = some k2 from by simp [hibnd]] at hm
            rw [show (c1 :: cs3).eraseIdx 0 = cs3 from rfl]
            exact .cons lo hi k2 m cs3 ks3 hm (olb_trans hlo hlo2) hhi2 hrest2
      | succ j =>
        rw [List.getElem?_cons_succ] at hc hs
        rw [List.getElem?_cons_succ] at hsep
        rcases WfL_merge_focus hrest j hc hs hsep with ⟨h1, h2, h3⟩
        rw [lobnd_cons (some k) lo k ks j] at h1 h3
        rw [hibnd_cons hi k ks (j + 1)] at h2 h3
        refine ⟨h1, h2, ?_⟩
        intro m hm
        rw [List.set_cons_succ, List.eraseIdx_cons_succ, List.eraseIdx_cons_succ]
        exact .cons lo hi k c0 _ _ hc0 hlo hhi (h3 m hm)

/-- Focus for a borrow: the two children around the separator at slot i may
be replaced by pages well-formed against a new separator v lying in the same
range. -/
theorem WfL_pair_focus {lo hi : Option Int} {cs : List BTreeNode} {ks : List Int}
    (h : WfL lo hi cs ks) (i : Nat) {c s : BTreeNode} {sep : Int}
    (hc : cs[i]? = some c) (hs : cs[i + 1]? = some s) (hsep : ks[i]? = some sep) :
    Wf (lobnd lo ks i) (some sep) c ∧
    Wf (some sep) (hibnd hi ks (i + 1)) s ∧
    (∀ c2 s2 (v : Int), Wf (lobnd lo ks i) (some v) c2 →
      Wf (some v) (hibnd hi ks (i + 1)) s2 →
      olb (lobnd lo ks i) v → oub (hibnd hi ks (i + 1)) v →
      WfL lo hi ((cs.set i c2).set (i + 1) s2) (ks.set i v)) :=
  match h with
  | .single _ _ _ _ => by simp at hsep
  | .cons lo hi k c0 cs ks hc0 hlo hhi hrest => by
      cases i with
      | zero =>
        rw [List.getElem?_cons_zero, Option.some.injEq] at hc hsep
        subst hc
        subst hsep
        rw [List.getElem?_cons_succ] at hs
        refine ⟨hc0, ?_, ?_⟩
        · rcases WfL_focus hrest 0 hs with ⟨h1, _⟩
          rw [show lobnd (some k) ks 0 = some k from rfl] at h1
          rw [hibnd_cons hi k ks 0] at h1
          exact h1
        · intro c2 s2 v hc2 hs2 hvlo hvhi
          rw [show lobnd lo (k :: ks) 0 = lo from rfl] at hc2 hvlo
          rw [List.set_cons_zero, List.set_cons_succ, List.set_cons_zero]
          cases hrest with
          | single _ _ c1 hc1 =>
            rw [show hibnd hi (k :: ([] : List Int)) 1 = hi from by simp [hibnd]] at hs2 hvhi
            rw [List.set_cons_zero]
            exact .cons lo hi v c2 [s2] [] hc2 hvlo hvhi (.single (some v) hi s2 hs2)
          | cons _ _ k2 c1 cs3 ks3 hc1 hlo2 hhi2 hrest2 =>
            rw [show hibnd hi (k :: k2 :: ks3) 1 = some k2 from by simp [hibnd]] at hs2 hvhi
            rw [List.set_cons_zero]
            exact .cons lo hi v c2 (s2 :: cs3) (k2 :: ks3) hc2 hvlo
              (oub_trans hhi2 hvhi)
              (.cons (some v) hi k2 s2 cs3 ks3 hs2 hvhi hhi2 hrest2)
      | succ j =>
        rw [List.getElem?_cons_succ] at hc hs
        rw [List.getElem?_cons_succ] at hsep
        rcases WfL_pair_focus hrest j hc hs hsep with ⟨h1, h2, h3⟩
        rw [lobnd_cons (some k) lo k ks j] at h1 h3
        rw [hibnd_cons hi k ks (j + 1)] at h2 h3
        refine ⟨h1, h2, ?_⟩
        intro c2 s2 v hc2 hs2 hvlo hvhi
        rw [List.set_cons_succ, List.set_cons_succ, List.set_cons_succ]
        exact .cons lo hi k c0 _ _ hc0 hlo hhi (h3 c2 s2 v hc2 hs2 hvlo hvhi)

/-- Removing the last child and last key of a well-formed child list leaves
a well-formed list bounded above by that last key, which itself bounds the
removed child from below. -/
theorem WfL_dropLast {lo hi : Option Int} {cs : List BTreeNode} {ks : List Int}
    (h : WfL lo hi cs ks) {kl : Int} {cl : BTreeNode}
    (hkl : ks.getLast? = some kl) (hcl : cs.getLast? = some cl) :
    WfL lo (some kl) cs.dropLast ks.dropLast ∧ Wf (some kl) hi cl :=
  match h with
  | .single _ _ _ _ => by simp at hkl
  | .cons lo hi k c0 cs ks hc0 hlo hhi hrest => by
      cases hrest with
      | single _ _ c1 hc1 =>
        rw [show ((k :: []).getLast? : Option Int) = some k from rfl,
          Option.some.injEq] at hkl
        subst hkl
        rw [List.getLast?_cons_cons, show ([c1].getLast? : Option BTreeNode) = some c1 from rfl,
          Option.some.injEq] at hcl
        subst hcl
        exact ⟨.single lo (some k) c0 hc0, hc1⟩
      | cons _ _ k2 c1 cs3 ks3 hc1 hlo2 hhi2 hrest2 =>
        rw [List.getLast?_cons_cons] at hkl
        rw [List.getLast?_cons_cons] at hcl
        rcases WfL_dropLast (.cons (some k) hi k2 c1 cs3 ks3 hc1 hlo2 hhi2 hrest2) hkl hcl
          with ⟨h1, h2⟩
        have hkkl : k ≤ kl :=
          (WfL_keys_bounds (.cons (some k) hi k2 c1 cs3 ks3 hc1 hlo2 hhi2 hrest2) kl
            (List.mem_of_mem_getLast? hkl)).1
        refine ⟨?_, h2⟩
        rw [List.dropLast_cons₂, List.dropLast_cons₂]
        exact .cons lo (some kl) k c0 _ _ hc0 hlo hkkl h1

/-- Concatenating two well-formed child lists around a separator in range
yields a well-formed child list. -/
theorem WfL_append {lo hi : Option Int} {ccs scs : List BTreeNode}
    {cks sks : List Int} {sep : Int}
    (h1 : WfL lo (some sep) ccs cks) (h2 : WfL (some sep) hi scs sks)
    (hslo : olb lo sep) (hshi : oub hi sep) :
    WfL lo hi (ccs ++ scs) (cks ++ sep :: sks) :=
  match h1 with
  | .single lo _ c0 hc0 => by
      rw [List.singleton_append, List.nil_append]
      exact .cons lo hi sep c0 scs sks hc0 hslo hshi h2
  | .cons lo _ k c0 cs ks hc0 hlo hhi hrest => by
      rw [List.cons_append, List.cons_append]
      exact .cons lo hi k c0 _ _ hc0 hlo (oub_trans hshi hhi)
        (WfL_append hrest h2 hhi hshi)

/-- Frame of the in-order traversal around child slot i: fixed left and
right contexts, the left context bounded by the key before the slot and the
right context bounded below by the key after it. -/
theorem WfL_frame_set {lo hi : Option Int} {cs : List BTreeNode} {ks : List Int}
    (h : WfL lo hi cs ks) (i : Nat) {c : BTreeNode} (hc : cs[i]? = some c) :
    ∃ A B : List Int,
      inorder_go cs ks = A ++ inorder c ++ B ∧
      (∀ c2, inorder_go (cs.set i c2) ks = A ++ inorder c2 ++ B) ∧
      (i = 0 → A = []) ∧
      (∀ x ∈ A, ∃ kA, ks[i - 1]? = some kA ∧ x ≤ kA) ∧
      (∀ x ∈ B, ∃ kB, ks[i]? = some kB ∧ kB ≤ x) :=
  match h with
  | .single _ _ c0 _ => by
      cases i with
      | zero =>
        rw [List.getElem?_cons_zero, Option.some.injEq] at hc
        subst hc
        refine ⟨[], [], by simp [inorder_go_single], ?_, fun _ => rfl, by simp, by simp⟩
        intro c2
        rw [List.set_cons_zero]
        simp [inorder_go_single]
      | succ j =>
        rw [List.getElem?_cons_succ] at hc
        simp at hc
  | .cons lo hi k c0 cs ks hc0 hlo hhi hrest => by
      cases i with
      | zero =>
        rw [List.getElem?_cons_zero, Option.some.injEq] at hc
        subst hc
        refine ⟨[], k :: inorder_go cs ks, by simp [inorder_go_cons], ?_, fun _ => rfl,
          by simp, ?_⟩
        · intro c2
          rw [List.set_cons_zero]
          simp [inorder_go_cons]
        · intro x hx
          refine ⟨k, List.getElem?_cons_zero, ?_⟩
          rcases List.mem_cons.1 hx with hx | hx
          · exact le_of_eq hx.symm
          · exact (WfL_bounds hrest x hx).1
      | succ j =>
        rw [List.getElem?_cons_succ] at hc
        rcases WfL_frame_set hrest j hc with ⟨A, B, hdec, hset, hA0, hA, hB⟩
        refine ⟨inorder c0 ++ k :: A, B, ?_, ?_, ?_, ?_, ?_⟩
        · rw [inorder_go_cons, hdec]
          simp
        · intro c2
          rw [List.set_cons_succ, inorder_go_cons, hset c2]
          simp
        · intro hx
          simp at hx
        · intro x hx
          simp only [Nat.add_sub_cancel]
          rw [List.mem_append, List.mem_cons] at hx
          have hkd : ∀ d : Nat, j = d + 1 → ∃ kd, ks[d]? = some kd := by
            intro d hd
            have hdlen : d < ks.length := by
              rcases List.getElem?_eq_some_iff.1 hc with ⟨hlen, _⟩
              have := WfL_length hrest
              omega
            exact ⟨ks[d], List.getElem?_eq_getElem hdlen⟩
          rcases hx with hx | hx | hx
          · cases j with
            | zero =>
              exact ⟨k, List.getElem?_cons_zero, (Wf_bounds hc0 x hx).2⟩
            | succ d =>
              rcases hkd d rfl with ⟨kd, hkd2⟩
              rw [List.getElem?_cons_succ]
              refine ⟨kd, hkd2, ?_⟩
              exact le_trans (Wf_bounds hc0 x hx).2
                (WfL_keys_bounds hrest kd (List.getElem?_mem hkd2)).1
          · subst hx
            cases j with
            | zero => exact ⟨x, List.getElem?_cons_zero, le_refl x⟩
            | succ d =>
              rcases hkd d rfl with ⟨kd, hkd2⟩
              rw [List.getElem?_cons_succ]
              exact ⟨kd, hkd2, (WfL_keys_bounds hrest kd (List.getElem?_mem hkd2)).1⟩
          · cases j with
            | zero =>
              have hA2 : A = [] := hA0 rfl
              subst hA2
              cases hx
            | succ d =>
              rw [List.getElem?_cons_succ]
              simp only [Nat.add_sub_cancel] at hA
              exact hA x hx
        · intro x hx
          rw [List.getElem?_cons_succ]
          exact hB x hx

/-- Frame of the in-order traversal around child slot i and the separator
just after it, both being replaced (predecessor substitution shape). -/
theorem WfL_frame_subst_l {lo hi : Option Int} {cs : List BTreeNode} {ks : List Int}
    (h : WfL lo hi cs ks) (i : Nat) {c : BTreeNode} {k0 : Int}
    (hc : cs[i]? = some c) (hk : ks[i]? = some k0) :
    ∃ A B : List Int,
      inorder_go cs ks = A ++ inorder c ++ k0 :: B ∧
      (∀ c2 v, inorder_go (cs.set i c2) (ks.set i v) = A ++ inorder c2 ++ v :: B) :=
  match h with
  | .single _ _ _ _ => by simp at hk
  | .cons lo hi k c0 cs ks hc0 hlo hhi hrest => by
      cases i with
      | zero =>
        rw [List.getElem?_cons_zero, Option.some.injEq] at hc hk
        subst hc
        subst hk
        refine ⟨[], inorder_go cs ks, by simp [inorder_go_cons], ?_⟩
        intro c2 v
        rw [List.set_cons_zero, List.set_cons_zero]
        simp [inorder_go_cons]
      | succ j =>
        rw [List.getElem?_cons_succ] at hc hk
        rcases WfL_frame_subst_l hrest j hc hk with ⟨A, B, hdec, hset⟩
        refine ⟨inorder c0 ++ k :: A, B, ?_, ?_⟩
        · rw [inorder_go_cons, hdec]
          simp
        · intro c2 v
          rw [List.set_cons_succ, List.set_cons_succ, inorder_go_cons, hset c2 v]
          simp

/-- Frame of the in-order traversal around the separator at slot i and the
child just after it, both being replaced (successor substitution shape). -/
theorem WfL_frame_subst_r {lo hi : Option Int} {cs : List BTreeNode} {ks : List Int}
    (h : WfL lo hi cs ks) (i : Nat) {s : BTreeNode} {k0 : Int}
    (hk : ks[i]? = some k0) (hs : cs[i + 1]? = some s) :
    ∃ A B : List Int,
      inorder_go cs ks = A ++ k0 :: inorder s ++ B ∧
      (∀ s2 v, inorder_go (cs.set (i + 1) s2) (ks.set i v) = A ++ v :: inorder s2 ++ B) :=
  match h with
  | .single _ _ _ _ => by simp at hk
  | .cons lo hi k c0 cs ks hc0 hlo hhi hrest => by
      cases i with
      | zero =>
        rw [List.getElem?_cons_zero, Option.some.injEq] at hk
        subst hk
        rw [List.getElem?_cons_succ] at hs
        cases hrest with
        | single _ _ c1 hc1 =>
          rw [List.getElem?_cons_zero, Option.some.injEq] at hs
          subst hs
          refine ⟨inorder c0, [], by simp [inorder_go_cons, inorder_go_single], ?_⟩
          intro s2 v
          rw [List.set_cons_succ, List.set_cons_zero, List.set_cons_zero]
          simp [inorder_go_cons, inorder_go_single]
        | cons _ _ k2 c1 cs3 ks3 hc1 hlo2 hhi2 hrest2 =>
          rw [List.getElem?_cons_zero, Option.some.injEq] at hs
          subst hs
          refine ⟨inorder c0, k2 :: inorder_go cs3 ks3, by simp [inorder_go_cons], ?_⟩
          intro s2 v
          rw [List.set_cons_succ, List.set_cons_zero, List.set_cons_zero]
          simp [inorder_go_cons]
      | succ j =>
        rw [List.getElem?_cons_succ] at hk hs
        rcases WfL_frame_subst_r hrest j hk hs with ⟨A, B, hdec, hset⟩
        refine ⟨inorder c0 ++ k :: A, B, ?_, ?_⟩
        · rw [inorder_go_cons, hdec]
          simp
        · intro s2 v
          rw [List.set_cons_succ, List.set_cons_succ, inorder_go_cons, hset s2 v]
          simp

/-- Frame of the in-order traversal around the two children and separator
taking part in a merge, with the merged page replacing all three; the left
context is bounded by the key before the pair and the right context bounded
below by the key after it. -/
theorem WfL_frame_merge {lo hi : Option Int} {cs : List BTreeNode} {ks : List Int}
    (h : WfL lo hi cs ks) (i : Nat) {c s : BTreeNode} {sep : Int}
    (hc : cs[i]? = some c) (hs : cs[i + 1]? = some s) (hsep : ks[i]? = some sep) :
    ∃ A B : List Int,
      inorder_go cs ks = A ++ inorder c ++ sep :: inorder s ++ B ∧
      (∀ m, inorder_go ((cs.set i m).eraseIdx (i + 1)) (ks.eraseIdx i) =
        A ++ inorder m ++ B) ∧
      (i = 0 → A = []) ∧
      (∀ x ∈ A, ∃ kA, ks[i - 1]? = some kA ∧ x ≤ kA) ∧
      (∀ x ∈ B, ∃ kB, ks[i + 1]? = some kB ∧ kB ≤ x) :=
  match h with
  | .single _ _ _ _ => by simp at hsep
  | .cons lo hi k c0 cs ks hc0 hlo hhi hrest => by
      cases i with
      | zero =>
        rw [List.getElem?_cons_zero, Option.some.injEq] at hc hsep
        subst hc
        subst hsep
        rw [List.getElem?_cons_succ] at hs
        cases hrest with
        | single _ _ c1 hc1 =>
          rw [List.getElem?_cons_zero, Option.some.injEq] at hs
          subst hs
          refine ⟨[], [], by simp [inorder_go_cons, inorder_go_single], ?_, fun _ => rfl,
            by simp, by simp⟩
          intro m
          rw [List.set_cons_zero, List.eraseIdx_cons_succ, List.eraseIdx_cons_zero,
            List.eraseIdx_cons_zero]
          simp [inorder_go_single]
        | cons _ _ k2 c1 cs3 ks3 hc1 hlo2 hhi2 hrest2 =>
          rw [List.getElem?_cons_zero, Option.some.injEq] at hs
          subst hs
          refine ⟨[], k2 :: inorder_go cs3 ks3, by simp [inorder_go_cons], ?_,
            fun _ => rfl, by simp, ?_⟩
          · intro m
            rw [List.set_cons_zero, List.eraseIdx_cons_succ, List.eraseIdx_cons_zero,
              List.eraseIdx_cons_zero]
            simp [inorder_go_cons]
          · intro x hx
            rw [List.getElem?_cons_succ, List.getElem?_cons_zero]
            refine ⟨k2, rfl, ?_⟩
            rcases List.mem_cons.1 hx with hx | hx
            · exact le_of_eq hx.symm
            · exact (WfL_bounds hrest2 x hx).1
      | succ j =>
        rw [List.getElem?_cons_succ] at hc hs
        rw [List.getElem?_cons_succ] at hsep
        rcases WfL_frame_merge hrest j hc hs hsep with ⟨A, B, hdec, hmerge, hA0, hA, hB⟩
        refine ⟨inorder c0 ++ k :: A, B, ?_, ?_, ?_, ?_, ?_⟩
        · rw [inorder_go_cons, hdec]
          simp
        · intro m
          rw [List.set_cons_succ, List.eraseIdx_cons_succ, List.eraseIdx_cons_succ,
            inorder_go_cons, hmerge m]
          simp
        · intro hx
          simp at hx
        · intro x hx
          simp only [Nat.add_sub_cancel]
          rw [List.mem_append, List.mem_cons] at hx
          have hkd : ∀ d : Nat, j = d + 1 → ∃ kd, ks[d]? = some kd := by
            intro d hd
            have hdlen : d < ks.length := by
              rcases List.getElem?_eq_some_iff.1 hsep with ⟨hlen, _⟩
              omega
            exact ⟨ks[d], List.getElem?_eq_getElem hdlen⟩
          rcases hx with hx | hx | hx
          · cases j with
            | zero =>
              exact ⟨k, List.getElem?_cons_zero, (Wf_bounds hc0 x hx).2⟩
            | succ d =>
              rcases hkd d rfl with ⟨kd, hkd2⟩
              rw [List.getElem?_cons_succ]
              exact ⟨kd, hkd2, le_trans (Wf_bounds hc0 x hx).2
                (WfL_keys_bounds hrest kd (List.getElem?_mem hkd2)).1⟩
          · subst hx
            cases j with
            | zero => exact ⟨x, List.getElem?_cons_zero, le_refl x⟩
            | succ d =>
              rcases hkd d rfl with ⟨kd, hkd2⟩
              rw [List.getElem?_cons_succ]
              exact ⟨kd, hkd2, (WfL_keys_bounds hrest kd (List.getElem?_mem hkd2)).1⟩
          · cases j with
            | zero =>
              have hA2 : A = [] := hA0 rfl
              subst hA2
              cases hx
            | succ d =>
              rw [List.getElem?_cons_succ]
              simp only [Nat.add_sub_cancel] at hA
              exact hA x hx
        · intro x hx
          rw [List.getElem?_cons_succ]
          exact hB x hx

/-- Frame of the in-order traversal around the two children and separator
taking part in a borrow, all three being replaced in place. -/
theorem WfL_frame_pair {lo hi : Option Int} {cs : List BTreeNode} {ks : List Int}
    (h : WfL lo hi cs ks) (i : Nat) {c s : BTreeNode} {sep : Int}
    (hc : cs[i]? = some c) (hs : cs[i + 1]? = some s) (hsep : ks[i]? = some sep) :
    ∃ A B : List Int,
      inorder_go cs ks = A ++ inorder c ++ sep :: inorder s ++ B ∧
      (∀ c2 s2 (v : Int), inorder_go ((cs.set i c2).set (i + 1) s2) (ks.set i v) =
        A ++ inorder c2 ++ v :: inorder s2 ++ B) :=
  match h with
  | .single _ _ _ _ => by simp at hsep
  | .cons lo hi k c0 cs ks hc0 hlo hhi hrest => by
      cases i with
      | zero =>
        rw [List.getElem?_cons_zero, Option.some.injEq] at hc hsep
        subst hc
        subst hsep
        rw [List.getElem?_cons_succ] at hs
        cases hrest with
        | single _ _ c1 hc1 =>
          rw [List.getElem?_cons_zero, Option.some.injEq] at hs
          subst hs
          refine ⟨[], [], by simp [inorder_go_cons, inorder_go_single], ?_⟩
          intro c2 s2 v
          simp only [List.set_cons_zero, List.set_cons_succ]
          simp [inorder_go_cons, inorder_go_single]
        | cons _ _ k2 c1 cs3 ks3 hc1 hlo2 hhi2 hrest2 =>
          rw [List.getElem?_cons_zero, Option.some.injEq] at hs
          subst hs
          refine ⟨[], k2 :: inorder_go cs3 ks3, by simp [inorder_go_cons], ?_⟩
          intro c2 s2 v
          simp only [List.set_cons_zero, List.set_cons_succ]
          simp [inorder_go_cons]
      | succ j =>
        rw [List.getElem?_cons_succ] at hc hs
        rw [List.getElem?_cons_succ] at hsep
        rcases WfL_frame_pair hrest j hc hs hsep with ⟨A, B, hdec, hset⟩
        refine ⟨inorder c0 ++ k :: A, B, ?_, ?_⟩
        · rw [inorder_go_cons, hdec]
          simp
        · intro c2 s2 v
          rw [List.set_cons_succ, List.set_cons_succ, List.set_cons_succ,
            inorder_go_cons, hset c2 s2 v]
          simp

/-- Frame of the in-order traversal around child slot i being split into a
left part, a promoted median and a right sibling. -/
theorem WfL_frame_split {lo hi : Option Int} {cs : List BTreeNode} {ks : List Int}
    (h : WfL lo hi cs ks) (i : Nat) {y : BTreeNode} (hy : cs[i]? = some y) :
    ∃ A B : List Int,
      inorder_go cs ks = A ++ inorder y ++ B ∧
      (∀ y2 z (mid : Int),
        inorder_go (pyInsertAt (i + 1) z (cs.set i y2)) (pyInsertAt i mid ks) =
        A ++ inorder y2 ++ mid :: inorder z ++ B) :=
  match h with
  | .single _ _ c0 _ => by
      cases i with
      | zero =>
        rw [List.getElem?_cons_zero, Option.some.injEq] at hy
        subst hy
        refine ⟨[], [], by simp [inorder_go_single], ?_⟩
        intro y2 z mid
        rw [List.set_cons_zero, pyInsertAt_succ_cons, pyInsertAt_zero, pyInsertAt_zero]
        simp [inorder_go_cons, inorder_go_single]
      | succ j =>
        rw [List.getElem?_cons_succ] at hy
        simp at hy
  | .cons lo hi k c0 cs ks hc0 hlo hhi hrest => by
      cases i with
      | zero =>
        rw [List.getElem?_cons_zero, Option.some.injEq] at hy
        subst hy
        refine ⟨[], k :: inorder_go cs ks, by simp [inorder_go_cons], ?_⟩
        intro y2 z mid
        rw [List.set_cons_zero, pyInsertAt_succ_cons, pyInsertAt_zero, pyInsertAt_zero]
        simp [inorder_go_cons]
      | succ j =>
        rw [List.getElem?_cons_succ] at hy
        rcases WfL_frame_split hrest j hy with ⟨A, B, hdec, hset⟩
        refine ⟨inorder c0 ++ k :: A, B, ?_, ?_⟩
        · rw [inorder_go_cons, hdec]
          simp
        · intro y2 z mid
          rw [List.set_cons_succ, pyInsertAt_succ_cons, pyInsertAt_succ_cons,
            inorder_go_cons, hset y2 z mid]
          simp

/-- Unfolding of the search position on a key list with a head. -/
theorem low_pos_cons (key k : Int) (ks : List Int) :
    low_pos key (k :: ks) = if k < key then low_pos key ks + 1 else 0 := by
  by_cases h : k < key <;> simp [low_pos, List.takeWhile_cons, h]

/-- The search position never passes the end of the key list. -/
theorem low_pos_le (key : Int) (ks : List Int) : low_pos key ks ≤ ks.length :=
  (List.takeWhile_sublist _).length_le

/-- Keys before the search position are smaller than the key searched. -/
theorem low_pos_lt_key (key : Int) (ks : List Int) :
    ∀ j kj, j < low_pos key ks → ks[j]? = some kj → kj < key := by
  induction ks with
  | nil => intro j kj hj _; simp [low_pos] at hj
  | cons k ks ih =>
    intro j kj hj hget
    rw [low_pos_cons] at hj
    by_cases h : k < key
    · rw [if_pos h] at hj
      cases j with
      | zero =>
        rw [List.getElem?_cons_zero, Option.some.injEq] at hget
        exact hget ▸ h
      | succ d =>
        rw [List.getElem?_cons_succ] at hget
        exact ih d kj (by omega) hget
    · rw [if_neg h] at hj
      omega

/-- The key at the search position, when it exists, is at least the key
searched. -/
theorem low_pos_ge (key : Int) (ks : List Int) :
    ∀ kj, ks[low_pos key ks]? = some kj → key ≤ kj := by
  induction ks with
  | nil => intro kj h; simp at h
  | cons k ks ih =>
    intro kj hget
    rw [low_pos_cons] at hget
    by_cases h : k < key
    · rw [if_pos h, List.getElem?_cons_succ] at hget
      exact ih kj hget
    · rw [if_neg h, List.getElem?_cons_zero, Option.some.injEq] at hget
      subst hget
      omega

/-- The insert position splits the key list into the reversed drop-while and
take-while parts of the reversed list. -/
theorem ins_pos_decomp (key : Int) (ks : List Int) :
    ks.take (ins_pos key ks) = (ks.reverse.dropWhile (fun x => key < x)).reverse ∧
    ks.drop (ins_pos key ks) = (ks.reverse.takeWhile (fun x => key < x)).reverse := by
  have happ : ks.reverse.takeWhile (fun x => key < x) ++
      ks.reverse.dropWhile (fun x => key < x) = ks.reverse :=
    List.takeWhile_append_dropWhile _ _
  have hsplit : ks = (ks.reverse.dropWhile (fun x => key < x)).reverse ++
      (ks.reverse.takeWhile (fun x => key < x)).reverse := by
    rw [← List.reverse_append, happ, List.reverse_reverse]
  have hlen : ins_pos key ks =
      ((ks.reverse.dropWhile (fun x => key < x)).reverse).length := by
    have := congrArg List.length happ
    rw [List.length_append, List.length_reverse] at this
    rw [List.length_reverse, ins_pos]
    omega
  have hgen : ∀ (A B l : List Int) (n : Nat), l = A ++ B → n = A.length →
      l.take n = A ∧ l.drop n = B := by
    intro A B l n hl hn
    subst hl
    subst hn
    exact ⟨List.take_left A B, List.drop_left A B⟩
  exact hgen _ _ _ _ hsplit hlen

/-- The insert position never passes the end of the key list. -/
theorem ins_pos_le (key : Int) (ks : List Int) : ins_pos key ks ≤ ks.length :=
  Nat.sub_le _ _

/-- Keys at or after the insert position exceed the key inserted. -/
theorem ins_pos_drop (key : Int) (ks : List Int) :
    ∀ x ∈ ks.drop (ins_pos key ks), key < x := by
  intro x hx
  rw [(ins_pos_decomp key ks).2, List.mem_reverse] at hx
  have := List.mem_takeWhile_imp hx
  simpa using this

/-- The key just before a positive insert position does not exceed the key
inserted. -/
theorem ins_pos_before (key : Int) (ks : List Int) (h : 0 < ins_pos key ks) :
    ∃ k0, ks[ins_pos key ks - 1]? = some k0 ∧ k0 ≤ key := by
  have htake := (ins_pos_decomp key ks).1
  have hlen : (ks.take (ins_pos key ks)).length = ins_pos key ks := by
    rw [List.length_take]
    have := ins_pos_le key ks
    omega
  have hget : ks[ins_pos key ks - 1]? = (ks.take (ins_pos key ks)).getLast? := by
    rw [List.getLast?_eq_getElem?, hlen,
      List.getElem?_take_of_lt (by omega : ins_pos key ks - 1 < ins_pos key ks)]
  have hlast : (ks.take (ins_pos key ks)).getLast? =
      (ks.reverse.dropWhile (fun x => key < x)).head? := by
    rw [htake, List.getLast?_reverse]
  have hne : 0 < (ks.reverse.dropWhile (fun x => key < x)).length := by
    have := congrArg List.length htake
    rw [hlen, List.length_reverse] at this
    omega
  refine ⟨(ks.reverse.dropWhile (fun x => key < x))[0], ?_, ?_⟩
  · rw [hget, hlast, List.head?_eq_getElem?]
    exact List.getElem?_eq_getElem hne
  · have hnot := List.dropWhile_get_zero_not _ ks.reverse hne
    simpa using hnot

/-- A child taken from a list of pages at common leaf depth has that depth. -/
theorem DeepL_get {d : Nat} {cs : List BTreeNode} (h : DeepL d cs) (i : Nat)
    {c : BTreeNode} (hc : cs[i]? = some c) : Deep d c :=
  match h with
  | .nil _ => by simp at hc
  | .cons d c0 cs hc0 hcs => by
    cases i with
    | zero =>
      rw [List.getElem?_cons_zero, Option.some.injEq] at hc
      exact hc ▸ hc0
    | succ j =>
      rw [List.getElem?_cons_succ] at hc
      exact DeepL_get hcs j hc

/-- Replacing a page by one of the same depth keeps the common depth. -/
theorem DeepL_set {d : Nat} {cs : List BTreeNode} (h : DeepL d cs) (i : Nat)
    (c2 : BTreeNode) (h2 : Deep d c2) : DeepL d (cs.set i c2) :=
  match h with
  | .nil d => by exact .nil d
  | .cons d c0 cs hc0 hcs => by
    cases i with
    | zero =>
      rw [List.set_cons_zero]
      exact .cons d c2 cs h2 hcs
    | succ j =>
      rw [List.set_cons_succ]
      exact .cons d c0 _ hc0 (DeepL_set hcs j c2 h2)

/-- Inserting a page of the same depth keeps the common depth. -/
theorem DeepL_insertAt {d : Nat} {cs : List BTreeNode} (h : DeepL d cs) (i : Nat)
    (z : BTreeNode) (hz : Deep d z) : DeepL d (pyInsertAt i z cs) :=
  match h with
  | .nil d => by
    have h2 : pyInsertAt i z ([] : List BTreeNode) = [z] := by
      simp [pyInsertAt]
    rw [h2]
    exact .cons d z [] hz (.nil d)
  | .cons d c0 cs hc0 hcs => by
    cases i with
    | zero =>
      rw [pyInsertAt_zero]
      exact .cons d z _ hz (.cons d c0 cs hc0 hcs)
    | succ j =>
      rw [pyInsertAt_succ_cons]
      exact .cons d c0 _ hc0 (DeepL_insertAt hcs j z hz)

/-- Removing a page keeps the common depth of the rest. -/
theorem DeepL_eraseIdx {d : Nat} {cs : List BTreeNode} (h : DeepL d cs) (i : Nat) :
    DeepL d (cs.eraseIdx i) :=
  match h with
  | .nil d => by simpa using DeepL.nil d
  | .cons d c0 cs hc0 hcs => by
    cases i with
    | zero =>
      rw [List.eraseIdx_cons_zero]
      exact hcs
    | succ j =>
      rw [List.eraseIdx_cons_succ]
      exact .cons d c0 _ hc0 (DeepL_eraseIdx hcs j)

/-- Concatenating two lists at the same common depth. -/
theorem DeepL_append {d : Nat} {cs cs2 : List BTreeNode} (h : DeepL d cs)
    (h2 : DeepL d cs2) : DeepL d (cs ++ cs2) :=
  match h with
  | .nil d => by simpa using h2
  | .cons d c0 cs hc0 hcs => by
    rw [List.cons_append]
    exact .cons d c0 _ hc0 (DeepL_append hcs h2)

/-- A prefix keeps the common depth. -/
theorem DeepL_take {d : Nat} {cs : List BTreeNode} (h : DeepL d cs) (n : Nat) :
    DeepL d (cs.take n) :=
  match h with
  | .nil d => by simpa using DeepL.nil d
  | .cons d c0 cs hc0 hcs => by
    cases n with
    | zero => exact .nil d
    | succ m =>
      rw [List.take_succ_cons]
      exact .cons d c0 _ hc0 (DeepL_take hcs m)

/-- A suffix keeps the common depth. -/
theorem DeepL_drop {d : Nat} {cs : List BTreeNode} (h : DeepL d cs) (n : Nat) :
    DeepL d (cs.drop n) :=
  match h with
  | .nil d => by simpa using DeepL.nil d
  | .cons d c0 cs hc0 hcs => by
    cases n with
    | zero => exact .cons d c0 cs hc0 hcs
    | succ m =>
      rw [List.drop_succ_cons]
      exact DeepL_drop hcs m

/-- Dropping the last page keeps the common depth. -/
theorem DeepL_dropLast {d : Nat} {cs : List BTreeNode} (h : DeepL d cs) :
    DeepL d cs.dropLast := by
  rw [List.dropLast_eq_take]
  exact DeepL_take h _

/-- A page with the leaf flag has depth exactly 1. -/
theorem Deep_leaf_inv {d : Nat} {r : Nat} {ks : List Int} {cs : List BTreeNode}
    (h : Deep d (.mk r true ks cs)) : d = 1 := by
  cases h
  rfl

/-- An internal page has successor depth with its children at the
predecessor depth. -/
theorem Deep_node_inv {d : Nat} {r : Nat} {ks : List Int} {cs : List BTreeNode}
    (h : Deep d (.mk r false ks cs)) : ∃ d2, d = d2 + 1 ∧ DeepL d2 cs := by
  cases h with
  | node d2 _ _ _ h2 => exact ⟨d2, rfl, h2⟩

/-- Splitting a well-formed child list at key slot j: the first j+1 children
with the first j keys sit below that key, the rest above it. -/
theorem WfL_take_drop {lo hi : Option Int} {cs : List BTreeNode} {ks : List Int}
    (h : WfL lo hi cs ks) (j : Nat) {kj : Int} (hk : ks[j]? = some kj) :
    WfL lo (some kj) (cs.take (j + 1)) (ks.take j) ∧
    WfL (some kj) hi (cs.drop (j + 1)) (ks.drop (j + 1)) :=
  match h with
  | .single _ _ _ _ => by simp at hk
  | .cons lo hi k c0 cs ks hc0 hlo hhi hrest => by
      cases j with
      | zero =>
        rw [List.getElem?_cons_zero, Option.some.injEq] at hk
        subst hk
        refine ⟨?_, ?_⟩
        · simp only [List.take_succ_cons, List.take_zero]
          exact .single lo (some k) c0 hc0
        · simp only [List.drop_succ_cons, List.drop_zero]
          exact hrest
      | succ d =>
        rw [List.getElem?_cons_succ] at hk
        rcases WfL_take_drop hrest d hk with ⟨h1, h2⟩
        have hkkj : k ≤ kj :=
          (WfL_keys_bounds hrest kj (List.getElem?_mem hk)).1
        refine ⟨?_, ?_⟩
        · rw [List.take_succ_cons, List.take_succ_cons]
          exact .cons lo (some kj) k c0 _ _ hc0 hlo hkkj h1
        · rw [List.drop_succ_cons, List.drop_succ_cons]
          exact h2

/-- Inversion of a successful bind in the error monad. -/
theorem M_bind_eq_ok {α β : Type} {e : M α} {f : α → M β} {r : β}
    (h : (Bind.bind e f : M β) = .ok r) : ∃ a, e = .ok a ∧ f a = .ok r := by
  cases e with
  | ok a => exact ⟨a, rfl, h⟩
  | error z =>
    exact absurd h (by simp [Bind.bind, Except.bind])

/-- Inversion of a successful Python indexing. -/
theorem getIdx_ok {α : Type} {l : List α} {i : Nat} {a : α}
    (h : getIdx l i = .ok a) : l[i]? = some a := by
  unfold getIdx at h
  cases hl : l[i]? with
  | some b =>
    rw [hl] at h
    cases h
    rfl
  | none =>
    rw [hl] at h
    cases h

/-- Inversion of a successful Python last-element access. -/
theorem getLastP_ok {α : Type} {l : List α} {a : α}
    (h : getLastP l = .ok a) : l.getLast? = some a := by
  unfold getLastP at h
  cases hl : l.getLast? with
  | some b =>
    rw [hl] at h
    cases h
    rfl
  | none =>
    rw [hl] at h
    cases h

/-- Inversion of a successful Python pop of the last element. -/
theorem popLast_ok {α : Type} {l l2 : List α} {a : α}
    (h : popLast l = .ok (a, l2)) : l.getLast? = some a ∧ l2 = l.dropLast := by
  unfold popLast at h
  cases hl : l.getLast? with
  | some b =>
    rw [hl] at h
    cases h
    exact ⟨rfl, rfl⟩
  | none =>
    rw [hl] at h
    cases h

/-- Inversion of a successful Python pop at an index. -/
theorem popAt_ok {α : Type} {l l2 : List α} {i : Nat} {a : α}
    (h : popAt l i = .ok (a, l2)) : l[i]? = some a ∧ l2 = l.eraseIdx i := by
  unfold popAt at h
  rcases M_bind_eq_ok h with ⟨b, hb, h2⟩
  have hb2 := getIdx_ok hb
  cases h2
  exact ⟨hb2, rfl⟩

/-- The element just inserted sits at the insertion slot. -/
theorem pyInsertAt_get_self {α : Type} (i : Nat) (a : α) (l : List α)
    (hi : i ≤ l.length) : (pyInsertAt i a l)[i]? = some a := by
  unfold pyInsertAt
  rw [List.getElem?_append_right (by rw [List.length_take]; omega)]
  rw [List.length_take]
  have h2 : i - min i l.length = 0 := by omega
  rw [h2, List.getElem?_cons_zero]

/-- Entries before the insertion slot are unchanged. -/
theorem pyInsertAt_get_lt {α : Type} (i j : Nat) (a : α) (l : List α)
    (hj : j < i) (hi : i ≤ l.length) : (pyInsertAt i a l)[j]? = l[j]? := by
  unfold pyInsertAt
  rw [List.getElem?_append, if_pos (by rw [List.length_take]; omega)]
  exact List.getElem?_take_of_lt hj

/-- Entries at or after the insertion slot are shifted one to the right. -/
theorem pyInsertAt_get_succ {α : Type} (i j : Nat) (a : α) (l : List α)
    (hj : i ≤ j) (hi : i ≤ l.length) : (pyInsertAt i a l)[j + 1]? = l[j]? := by
  unfold pyInsertAt
  rw [List.getElem?_append_right (by rw [List.length_take]; omega)]
  rw [List.length_take]
  have h2 : j + 1 - min i l.length = (j - i) + 1 := by omega
  rw [h2, List.getElem?_cons_succ, List.getElem?_drop]
  congr 1
  omega

/-- Length of a list after a clamped insert within range. -/
theorem pyInsertAt_length {α : Type} (i : Nat) (a : α) (l : List α)
    (hi : i ≤ l.length) : (pyInsertAt i a l).length = l.length + 1 := by
  unfold pyInsertAt
  rw [List.length_append, List.length_take, List.length_cons, List.length_drop]
  omega

/-- A clamped insert is a permutation of pushing the element at the front. -/
theorem pyInsertAt_perm {α : Type} (i : Nat) (a : α) (l : List α) :
    List.Perm (pyInsertAt i a l) (a :: l) := by
  unfold pyInsertAt
  calc List.Perm (l.take i ++ a :: l.drop i) (a :: (l.take i ++ l.drop i)) :=
        List.perm_middle
    _ = a :: l := by rw [List.take_append_drop]

/-- Keys up to the insert position do not exceed the key inserted. -/
theorem ins_pos_take_le (key : Int) (ks : List Int)
    (hs : List.Sorted (fun a b : Int => a ≤ b) ks) :
    ∀ x ∈ ks.take (ins_pos key ks), x ≤ key := by
  intro x hx
  cases hp : ins_pos key ks with
  | zero => rw [hp] at hx; simp at hx
  | succ q =>
    rw [hp] at hx
    rcases ins_pos_before key ks (by omega) with ⟨k0, hk0, hk0le⟩
    rw [hp] at hk0
    have hk0i : ks[q]? = some k0 := by simpa using hk0
    rw [List.take_succ, hk0i] at hx
    rcases List.mem_append.1 hx with hx | hx
    · have hcross := List.pairwise_append.1
        (by rw [List.take_append_drop]; exact hs :
          List.Pairwise (fun a b : Int => a ≤ b) (ks.take q ++ ks.drop q))
      have hk0mem : k0 ∈ ks.drop q := by
        have : (ks.drop q)[0]? = some k0 := by
          rw [List.getElem?_drop]
          simpa using hk0i
        exact List.getElem?_mem this
      exact le_trans (hcross.2.2 x hx k0 hk0mem) hk0le
    · simp at hx
      exact hx ▸ hk0le

/-- Inserting a key at its insert position keeps the list weakly sorted. -/
theorem pyInsertAt_sorted (key : Int) (ks : List Int)
    (hs : List.Sorted (fun a b : Int => a ≤ b) ks) :
    List.Sorted (fun a b : Int => a ≤ b) (pyInsertAt (ins_pos key ks) key ks) := by
  unfold pyInsertAt
  refine List.pairwise_append.2 ⟨?_, ?_, ?_⟩
  · exact hs.sublist (List.take_sublist _ _)
  · refine List.pairwise_cons.2 ⟨?_, hs.sublist (List.drop_sublist _ _)⟩
    intro b hb
    exact le_of_lt (ins_pos_drop key ks b hb)
  · intro x hx y hy
    have hxk := ins_pos_take_le key ks hs x hx
    rcases List.mem_cons.1 hy with hy | hy
    · exact hy ▸ hxk
    · exact le_trans hxk (le_of_lt (ins_pos_drop key ks y hy))

/-- Separator keys occur in the in-order traversal. -/
theorem WfL_keys_mem_inorder {lo hi : Option Int} {cs : List BTreeNode}
    {ks : List Int} (h : WfL lo hi cs ks) : ∀ k ∈ ks, k ∈ inorder_go cs ks :=
  match h with
  | .single _ _ _ _ => by intro k hk; cases hk
  | .cons lo hi k0 c0 cs ks hc0 hlo hhi hrest => by
    intro k hk
    rw [inorder_go_cons]
    rcases List.mem_cons.1 hk with hk | hk
    · subst hk
      simp
    · have := WfL_keys_mem_inorder hrest k hk
      simp [this]

/-- Interleaving distributes over a child-aligned concatenation. -/
theorem inorder_go_append (ccs scs : List BTreeNode) (cks sks : List Int)
    (k : Int) (hlen : ccs.length = cks.length + 1) :
    inorder_go (ccs ++ scs) (cks ++ k :: sks) =
    inorder_go ccs cks ++ k :: inorder_go scs sks := by
  induction ccs generalizing cks with
  | nil => simp at hlen
  | cons c0 ccs2 ih =>
    cases cks with
    | nil =>
      have h2 : ccs2 = [] := by
        rw [List.length_cons] at hlen
        simpa using hlen
      subst h2
      simp [inorder_go_cons, inorder_go_single, inorder_go]
    | cons k0 cks2 =>
      rw [List.cons_append, List.cons_append, inorder_go_cons, inorder_go_cons,
        ih cks2 (by simpa using hlen)]
      simp

/-- Splitting any child of a well-formed balanced internal page preserves
well-formedness, balance and the in-order traversal, inserting the promoted
median at the split slot. -/
theorem split_child_ok {t : Nat} {lo hi : Option Int} {d : Nat} {pr : Nat}
    {lf : Bool} {pks : List Int} {pcs : List BTreeNode} {index nxt : Nat}
    {node1 : BTreeNode} {nxt1 : Nat}
    (hw : WfL lo hi pcs pks) (hd : DeepL d pcs) (ht : 1 ≤ t)
    (hok : split_child t (.mk pr lf pks pcs) index nxt = .ok (node1, nxt1)) :
    ∃ (y : BTreeNode) (mid : Int),
      pcs[index]? = some y ∧ y.keys[t - 1]? = some mid ∧
      node1.rrn = pr ∧ node1.leaf = lf ∧
      node1.keys = pyInsertAt index mid pks ∧
      nxt1 = nxt + 1 ∧
      WfL lo hi node1.children node1.keys ∧
      DeepL d node1.children ∧
      inorder_go node1.children node1.keys = inorder_go pcs pks := by
  unfold split_child at hok
  rcases M_bind_eq_ok hok with ⟨y, hy, hok2⟩
  rcases M_bind_eq_ok hok2 with ⟨mid, hmid, hok3⟩
  have hy2 : pcs[index]? = some y := getIdx_ok hy
  have hmid2 : y.keys[t - 1]? = some mid := getIdx_ok hmid
  rw [Except.ok.injEq, Prod.mk.injEq] at hok3
  obtain ⟨hnode, hnxt⟩ := hok3
  subst hnode
  rcases WfL_focus hw index hy2 with ⟨hwy, _⟩
  have hdy : Deep d y := DeepL_get hd index hy2
  rcases WfL_frame_split hw index hy2 with ⟨A, B, hdec, hframe⟩
  obtain ⟨yr, ylf, yks, ycs⟩ := y
  have hmidb := hmid2
  rw [show (BTreeNode.mk yr ylf yks ycs).keys = yks from rfl] at hmidb
  rcases List.getElem?_eq_some_iff.1 hmidb with ⟨htlt, hmidget⟩
  have hkeyid : yks.take (t - 1) ++ mid :: yks.drop t = yks := by
    conv_rhs => rw [← List.take_append_drop (t - 1) yks]
    congr 1
    rw [List.drop_eq_getElem_cons htlt, hmidget,
      show t - 1 + 1 = t from by omega]
  cases ylf with
  | true =>
    cases hwy with
    | leaf _ _ _ _ hchain hbound =>
      have hcross : ∀ n, ∀ x ∈ yks.take n, ∀ w ∈ yks.drop n, x ≤ w := by
        intro n
        have h2 : List.Pairwise (fun a b : Int => a ≤ b) (yks.take n ++ yks.drop n) := by
          rw [List.take_append_drop]
          exact hchain
        exact (List.pairwise_append.1 h2).2.2
      have hmid_drop : mid ∈ yks.drop (t - 1) := by
        have h0 : (yks.drop (t - 1))[0]? = some mid := by
          rw [List.getElem?_drop]
          simpa using hmidb
        exact List.getElem?_mem h0
      have hmid_take : mid ∈ yks.take t := by
        have h0 : (yks.take t)[t - 1]? = some mid := by
          rw [List.getElem?_take_of_lt (by omega)]
          exact hmidb
        exact List.getElem?_mem h0
      have hy2wf : Wf (lobnd lo pks index) (some mid)
          (BTreeNode.mk yr true (yks.take (t - 1)) []) := by
        refine .leaf _ _ _ _ (hchain.sublist (List.take_sublist _ _)) ?_
        intro x hx
        exact ⟨(hbound x (List.mem_of_mem_take hx)).1,
          hcross (t - 1) x hx mid hmid_drop⟩
      have hzwf : Wf (some mid) (hibnd hi pks index)
          (BTreeNode.mk nxt true (yks.drop t) []) := by
        refine .leaf _ _ _ _ (hchain.sublist (List.drop_sublist _ _)) ?_
        intro x hx
        exact ⟨hcross t mid hmid_take x hx,
          (hbound x (List.mem_of_mem_drop hx)).2⟩
      have hmlo : olb (lobnd lo pks index) mid :=
        (hbound mid (List.getElem?_mem hmidb)).1
      have hmhi : oub (hibnd hi pks index) mid :=
        (hbound mid (List.getElem?_mem hmidb)).2
      have hd1 : d = 1 := Deep_leaf_inv hdy
      subst hd1
      refine ⟨_, _, hy2, hmid2, rfl, rfl, rfl, hnxt.symm, ?_, ?_, ?_⟩
      · show WfL lo hi
          (pyInsertAt (index + 1) (BTreeNode.mk nxt true (yks.drop t) [])
            (pcs.set index (BTreeNode.mk yr true (yks.take (t - 1)) [])))
          (pyInsertAt index mid pks)
        exact WfL_split_focus hw index hy2 _ _ mid hy2wf hzwf hmlo hmhi
      · show DeepL 1
          (pyInsertAt (index + 1) (BTreeNode.mk nxt true (yks.drop t) [])
            (pcs.set index (BTreeNode.mk yr true (yks.take (t - 1)) [])))
        exact DeepL_insertAt (DeepL_set hd index _ (.leaf yr _ _)) (index + 1) _
          (.leaf nxt _ _)
      · show inorder_go
          (pyInsertAt (index + 1) (BTreeNode.mk nxt true (yks.drop t) [])
            (pcs.set index (BTreeNode.mk yr true (yks.take (t - 1)) [])))
          (pyInsertAt index mid pks) = inorder_go pcs pks
        rw [hframe, hdec]
        have hio : inorder (BTreeNode.mk yr true (yks.take (t - 1)) []) ++
            mid :: inorder (BTreeNode.mk nxt true (yks.drop t) []) =
            inorder (BTreeNode.mk yr true yks []) := by
          show yks.take (t - 1) ++ mid :: yks.drop t = yks
          exact hkeyid
        rw [← hio]
        simp
  | false =>
    cases hwy with
    | node _ _ _ _ _ hwl =>
      have hylen : ycs.length = yks.length + 1 := WfL_length hwl
      rcases WfL_take_drop hwl (t - 1) hmidb with ⟨h1, h2⟩
      rw [show t - 1 + 1 = t from by omega] at h1 h2
      have hy2wf : Wf (lobnd lo pks index) (some mid)
          (BTreeNode.mk yr false (yks.take (t - 1)) (ycs.take t)) := .node _ _ _ _ _ h1
      have hzwf : Wf (some mid) (hibnd hi pks index)
          (BTreeNode.mk nxt false (yks.drop t) (ycs.drop t)) := .node _ _ _ _ _ h2
      have hkb := WfL_keys_bounds hwl mid (List.getElem?_mem hmidb)
      rcases Deep_node_inv hdy with ⟨d2, hd2, hdcs⟩
      subst hd2
      refine ⟨_, _, hy2, hmid2, rfl, rfl, rfl, hnxt.symm, ?_, ?_, ?_⟩
      · show WfL lo hi
          (pyInsertAt (index + 1) (BTreeNode.mk nxt false (yks.drop t) (ycs.drop t))
            (pcs.set index (BTreeNode.mk yr false (yks.take (t - 1)) (ycs.take t))))
          (pyInsertAt index mid pks)
        exact WfL_split_focus hw index hy2 _ _ mid hy2wf hzwf hkb.1 hkb.2
      · show DeepL (d2 + 1)
          (pyInsertAt (index + 1) (BTreeNode.mk nxt false (yks.drop t) (ycs.drop t))
            (pcs.set index (BTreeNode.mk yr false (yks.take (t - 1)) (ycs.take t))))
        exact DeepL_insertAt
          (DeepL_set hd index _ (.node d2 _ _ _ (DeepL_take hdcs t))) (index + 1) _
          (.node d2 _ _ _ (DeepL_drop hdcs t))
      · show inorder_go
          (pyInsertAt (index + 1) (BTreeNode.mk nxt false (yks.drop t) (ycs.drop t))
            (pcs.set index (BTreeNode.mk yr false (yks.take (t - 1)) (ycs.take t))))
          (pyInsertAt index mid pks) = inorder_go pcs pks
        rw [hframe, hdec]
        have hio : inorder (BTreeNode.mk yr false (yks.take (t - 1)) (ycs.take t)) ++
            mid :: inorder (BTreeNode.mk nxt false (yks.drop t) (ycs.drop t)) =
            inorder (BTreeNode.mk yr false yks ycs) := by
          show inorder_go (ycs.take t) (yks.take (t - 1)) ++
            mid :: inorder_go (ycs.drop t) (yks.drop t) = inorder_go ycs yks
          rw [← inorder_go_append _ _ _ _ _ (by
            rw [List.length_take, List.length_take]
            omega)]
          rw [List.take_append_drop, hkeyid]
        rw [← hio]
        simp

/-- The key being inserted is above the lower bound its insert slot sees. -/
theorem lobnd_ins_pos (lo : Option Int) (key : Int) (ks : List Int)
    (holo : olb lo key) : olb (lobnd lo ks (ins_pos key ks)) key := by
  unfold lobnd
  by_cases h : ins_pos key ks = 0
  · simpa [h] using holo
  · rcases ins_pos_before key ks (by omega) with ⟨k0, hk0, hle⟩
    rw [if_neg h, hk0]
    exact hle

/-- The key being inserted is below the upper bound its insert slot sees. -/
theorem hibnd_ins_pos (hi : Option Int) (key : Int) (ks : List Int)
    (hohi : oub hi key) : oub (hibnd hi ks (ins_pos key ks)) key := by
  unfold hibnd
  by_cases h : ins_pos key ks = ks.length
  · simpa [h] using hohi
  · have hlt : ins_pos key ks < ks.length := by
      have := ins_pos_le key ks
      omega
    rw [if_neg h, List.getElem?_eq_getElem hlt]
    refine le_of_lt (ins_pos_drop key ks _ ?_)
    have h0 : (ks.drop (ins_pos key ks))[0]? = some (ks[ins_pos key ks]) := by
      rw [List.getElem?_drop]
      simpa using List.getElem?_eq_getElem hlt
    exact List.getElem?_mem h0

/-- After the promoted median enters the keys at the insert slot, a key not
below the median still fits the bounds of that slot. -/
theorem lobnd_insert_mid (lo : Option Int) (key mid : Int) (ks : List Int)
    (hle : ins_pos key ks ≤ ks.length) (holo : olb lo key) :
    olb (lobnd lo (pyInsertAt (ins_pos key ks) mid ks) (ins_pos key ks)) key := by
  unfold lobnd
  by_cases h : ins_pos key ks = 0
  · simpa [h] using holo
  · rw [if_neg h, pyInsertAt_get_lt _ _ _ _ (by omega) hle]
    rcases ins_pos_before key ks (by omega) with ⟨k0, hk0, hle2⟩
    rw [hk0]
    exact hle2

/-- After the promoted median enters the keys at the insert slot, a key not
above the median is bounded above by the median at that slot. -/
theorem hibnd_insert_mid (hi : Option Int) (key mid : Int) (ks : List Int)
    (hle : ins_pos key ks ≤ ks.length) (hnm : key ≤ mid) :
    oub (hibnd hi (pyInsertAt (ins_pos key ks) mid ks) (ins_pos key ks)) key := by
  unfold hibnd
  rw [if_neg (by rw [pyInsertAt_length _ _ _ hle]; omega),
    pyInsertAt_get_self _ _ _ hle]
  exact hnm

/-- After the promoted median enters the keys, a key above the median is
above the lower bound of the slot just after the median. -/
theorem lobnd_insert_succ (lo : Option Int) (key mid : Int) (ks : List Int)
    (hle : ins_pos key ks ≤ ks.length) (hm : mid ≤ key) :
    olb (lobnd lo (pyInsertAt (ins_pos key ks) mid ks) (ins_pos key ks + 1)) key := by
  unfold lobnd
  rw [if_neg (by omega)]
  rw [show ins_pos key ks + 1 - 1 = ins_pos key ks from by omega,
    pyInsertAt_get_self _ _ _ hle]
  exact hm

/-- After the promoted median enters the keys, the key stays below the upper
bound of the slot just after the median. -/
theorem hibnd_insert_succ (hi : Option Int) (key mid : Int) (ks : List Int)
    (hle : ins_pos key ks ≤ ks.length) (hohi : oub hi key) :
    oub (hibnd hi (pyInsertAt (ins_pos key ks) mid ks) (ins_pos key ks + 1)) key := by
  unfold hibnd
  by_cases h : ins_pos key ks = ks.length
  · rw [if_pos (by rw [pyInsertAt_length _ _ _ hle]; omega)]
    exact hohi
  · have hlt : ins_pos key ks < ks.length := by
      have := ins_pos_le key ks
      omega
    rw [if_neg (by rw [pyInsertAt_length _ _ _ hle]; omega),
      pyInsertAt_get_succ _ _ _ _ (le_refl _) hle,
      List.getElem?_eq_getElem hlt]
    refine le_of_lt (ins_pos_drop key ks _ ?_)
    have h0 : (ks.drop (ins_pos key ks))[0]? = some (ks[ins_pos key ks]) := by
      rw [List.getElem?_drop]
      simpa using List.getElem?_eq_getElem hlt
    exact List.getElem?_mem h0

/-- Inserting into a non-full well-formed, balanced subtree preserves
wellformedness at the same bounds and the common leaf depth, and the
in-order entries gain exactly the inserted key. -/
theorem insert_non_full_ok (fuel : Nat) :
    ∀ {t maxKeys : Nat} {lo hi : Option Int} {d : Nat}
      {node : BTreeNode} {key : Int} {nxt : Nat} {node2 : BTreeNode} {nxt2 : Nat},
      Wf lo hi node → Deep d node → olb lo key → oub hi key → 1 ≤ t →
      insert_non_full fuel t maxKeys node key nxt = .ok (node2, nxt2) →
      Wf lo hi node2 ∧ Deep d node2 ∧
      List.Perm (inorder node2) (key :: inorder node) := by
  induction fuel with
  | zero =>
    intro t maxKeys lo hi d node key nxt node2 nxt2 hw hd holo hohi ht hok
    exact absurd hok (by simp [insert_non_full])
  | succ fuel ih =>
    intro t maxKeys lo hi d node key nxt node2 nxt2 hw hd holo hohi ht hok
    obtain ⟨nr, nlf, nks, ncs⟩ := node
    cases nlf with
    | true =>
      simp only [insert_non_full, BTreeNode.leaf, if_true] at hok
      rw [Except.ok.injEq, Prod.mk.injEq] at hok
      obtain ⟨hnode, hnxt⟩ := hok
      subst hnode
      cases hw with
      | leaf _ _ _ _ hchain hbound =>
        have hd1 : d = 1 := Deep_leaf_inv hd
        subst hd1
        refine ⟨?_, .leaf _ _ _, ?_⟩
        · refine .leaf _ _ _ _ (pyInsertAt_sorted key nks hchain) ?_
          intro x hx
          have hx2 : x ∈ key :: nks := (pyInsertAt_perm _ _ _).mem_iff.1 hx
          rcases List.mem_cons.1 hx2 with hx2 | hx2
          · subst hx2
            exact ⟨holo, hohi⟩
          · exact hbound x hx2
        · show List.Perm (pyInsertAt (ins_pos key nks) key nks) (key :: nks)
          exact pyInsertAt_perm _ _ _
    | false =>
      rcases M_bind_eq_ok hok with ⟨child, hchild, hok2⟩
      have hchild2 : ncs[ins_pos key nks]? = some child := getIdx_ok hchild
      cases hw with
      | node _ _ _ _ _ hwl =>
      rcases Deep_node_inv hd with ⟨d2, hd2, hdcs⟩
      subst hd2
      have hilen : ins_pos key nks ≤ nks.length := ins_pos_le key nks
      by_cases hfull : child.keycount = maxKeys
      · rw [if_pos hfull] at hok2
        rcases M_bind_eq_ok hok2 with ⟨p, hsplit, hok3⟩
        obtain ⟨node1, nxt1⟩ := p
        have hsplit2 : split_child t (.mk nr false nks ncs) (ins_pos key nks) nxt
            = .ok (node1, nxt1) := hsplit
        rcases split_child_ok hwl hdcs ht hsplit2 with
          ⟨y, mid, hy, hmid, hrrn1, hleaf1, hkeys1, hnxt1, hwl1, hdl1, hio1⟩
        obtain ⟨n1r, n1lf, n1ks, n1cs⟩ := node1
        have e2 : n1lf = false := hleaf1
        subst e2
        have e3 : n1ks = pyInsertAt (ins_pos key nks) mid nks := hkeys1
        subst e3
        have hwl2 : WfL lo hi n1cs (pyInsertAt (ins_pos key nks) mid nks) := hwl1
        have hdl2 : DeepL d2 n1cs := hdl1
        have hio2 : inorder_go n1cs (pyInsertAt (ins_pos key nks) mid nks)
            = inorder_go ncs nks := hio1
        rcases M_bind_eq_ok hok3 with ⟨ki, hki, hok4⟩
        have hki2 : (pyInsertAt (ins_pos key nks) mid nks)[ins_pos key nks]?
            = some ki := getIdx_ok hki
        have hkimid : ki = mid := by
          rw [pyInsertAt_get_self _ _ _ hilen, Option.some.injEq] at hki2
          exact hki2.symm
        subst hkimid
        rcases M_bind_eq_ok hok4 with ⟨c, hc, hok5⟩
        by_cases hmk : ki < key
        · rw [if_pos hmk] at hc
          rw [if_pos hmk] at hok5
          have hc2 : n1cs[ins_pos key nks + 1]? = some c := getIdx_ok hc
          rcases M_bind_eq_ok hok5 with ⟨q, hrec, hok6⟩
          obtain ⟨c2, nxt2a⟩ := q
          rw [Except.ok.injEq, Prod.mk.injEq] at hok6
          obtain ⟨hnode, hnxta⟩ := hok6
          subst hnode
          rcases WfL_focus hwl2 (ins_pos key nks + 1) hc2 with ⟨hwc, hsetc⟩
          have hdc : Deep d2 c := DeepL_get hdl2 _ hc2
          have hlo2 : olb (lobnd lo (pyInsertAt (ins_pos key nks) ki nks)
              (ins_pos key nks + 1)) key :=
            lobnd_insert_succ lo key ki nks hilen (le_of_lt hmk)
          have hhi2 : oub (hibnd hi (pyInsertAt (ins_pos key nks) ki nks)
              (ins_pos key nks + 1)) key :=
            hibnd_insert_succ hi key ki nks hilen hohi
          rcases ih hwc hdc hlo2 hhi2 ht hrec with ⟨hwc2, hdc2, hperm⟩
          rcases WfL_frame_set hwl2 (ins_pos key nks + 1) hc2 with
            ⟨A, B, hdecf, hsetf, -, -, -⟩
          refine ⟨?_, ?_, ?_⟩
          · show Wf lo hi (.mk n1r false (pyInsertAt (ins_pos key nks) ki nks)
              (n1cs.set (ins_pos key nks + 1) c2))
            exact .node _ _ _ _ _ (hsetc c2 hwc2)
          · show Deep (d2 + 1) (.mk n1r false (pyInsertAt (ins_pos key nks) ki nks)
              (n1cs.set (ins_pos key nks + 1) c2))
            exact .node _ _ _ _ (DeepL_set hdl2 _ c2 hdc2)
          · show List.Perm
              (inorder_go (n1cs.set (ins_pos key nks + 1) c2)
                (pyInsertAt (ins_pos key nks) ki nks))
              (key :: inorder_go ncs nks)
            rw [hsetf c2, ← hio2, hdecf, List.append_assoc, List.append_assoc]
            have h1 : List.Perm (A ++ (inorder c2 ++ B))
                (A ++ ((key :: inorder c) ++ B)) :=
              (hperm.append_right B).append_left A
            exact h1.trans List.perm_middle
        · rw [if_neg hmk] at hc
          rw [if_neg hmk] at hok5
          have hc2 : n1cs[ins_pos key nks]? = some c := getIdx_ok hc
          rcases M_bind_eq_ok hok5 with ⟨q, hrec, hok6⟩
          obtain ⟨c2, nxt2a⟩ := q
          rw [Except.ok.injEq, Prod.mk.injEq] at hok6
          obtain ⟨hnode, hnxta⟩ := hok6
          subst hnode
          rcases WfL_focus hwl2 (ins_pos key nks) hc2 with ⟨hwc, hsetc⟩
          have hdc : Deep d2 c := DeepL_get hdl2 _ hc2
          have hlo2 : olb (lobnd lo (pyInsertAt (ins_pos key nks) ki nks)
              (ins_pos key nks)) key :=
            lobnd_insert_mid lo key ki nks hilen holo
          have hhi2 : oub (hibnd hi (pyInsertAt (ins_pos key nks) ki nks)
              (ins_pos key nks)) key :=
            hibnd_insert_mid hi key ki nks hilen (not_lt.mp hmk)
          rcases ih hwc hdc hlo2 hhi2 ht hrec with ⟨hwc2, hdc2, hperm⟩
          rcases WfL_frame_set hwl2 (ins_pos key nks) hc2 with
            ⟨A, B, hdecf, hsetf, -, -, -⟩
          refine ⟨?_, ?_, ?_⟩
          · show Wf lo hi (.mk n1r false (pyInsertAt (ins_pos key nks) ki nks)
              (n1cs.set (ins_pos key nks) c2))
            exact .node _ _ _ _ _ (hsetc c2 hwc2)
          · show Deep (d2 + 1) (.mk n1r false (pyInsertAt (ins_pos key nks) ki nks)
              (n1cs.set (ins_pos key nks) c2))
            exact .node _ _ _ _ (DeepL_set hdl2 _ c2 hdc2)
          · show List.Perm
              (inorder_go (n1cs.set (ins_pos key nks) c2)
                (pyInsertAt (ins_pos key nks) ki nks))
              (key :: inorder_go ncs nks)
            rw [hsetf c2, ← hio2, hdecf, List.append_assoc, List.append_assoc]
            have h1 : List.Perm (A ++ (inorder c2 ++ B))
                (A ++ ((key :: inorder c) ++ B)) :=
              (hperm.append_right B).append_left A
            exact h1.trans List.perm_middle
      · rw [if_neg hfull] at hok2
        rcases M_bind_eq_ok hok2 with ⟨q, hrec, hok6⟩
        obtain ⟨c2, nxt2a⟩ := q
        rw [Except.ok.injEq, Prod.mk.injEq] at hok6
        obtain ⟨hnode, hnxta⟩ := hok6
        subst hnode
        rcases WfL_focus hwl (ins_pos key nks) hchild2 with ⟨hwc, hsetc⟩
        have hdc : Deep d2 child := DeepL_get hdcs _ hchild2
        have hlo2 : olb (lobnd lo nks (ins_pos key nks)) key :=
          lobnd_ins_pos lo key nks holo
        have hhi2 : oub (hibnd hi nks (ins_pos key nks)) key :=
          hibnd_ins_pos hi key nks hohi
        rcases ih hwc hdc hlo2 hhi2 ht hrec with ⟨hwc2, hdc2, hperm⟩
        rcases WfL_frame_set hwl (ins_pos key nks) hchild2 with
          ⟨A, B, hdecf, hsetf, -, -, -⟩
        refine ⟨?_, ?_, ?_⟩
        · show Wf lo hi (.mk nr false nks (ncs.set (ins_pos key nks) c2))
          exact .node _ _ _ _ _ (hsetc c2 hwc2)
        · show Deep (d2 + 1) (.mk nr false nks (ncs.set (ins_pos key nks) c2))
          exact .node _ _ _ _ (DeepL_set hdcs _ c2 hdc2)
        · show List.Perm
            (inorder_go (ncs.set (ins_pos key nks) c2) nks)
            (key :: inorder_go ncs nks)
          rw [hsetf c2, hdecf, List.append_assoc, List.append_assoc]
          have h1 : List.Perm (A ++ (inorder c2 ++ B))
              (A ++ ((key :: inorder child) ++ B)) :=
            (hperm.append_right B).append_left A
          exact h1.trans List.perm_middle

/-- A successful public insert preserves the structural invariant, adds
exactly the inserted key to the in-order entries, and keeps the
construction-time configuration. -/
theorem BTree.insert_ok {fuel : Nat} {s : BTree} {key : Int} {s2 : BTree} {d : Nat}
    (hw : Wf none none s.root) (hd : Deep d s.root) (ht : 1 ≤ s.t)
    (hok : BTree.insert fuel s key = .ok s2) :
    Wf none none s2.root ∧ (∃ d2, Deep d2 s2.root) ∧
    List.Perm (inorder s2.root) (key :: inorder s.root) ∧
    (∀ o, ConfigOk o s → ConfigOk o s2) := by
  unfold BTree.insert at hok
  by_cases hfull : s.root.keycount = s.max_keys
  · rw [if_pos hfull] at hok
    rcases M_bind_eq_ok hok with ⟨p, hsplit, hok2⟩
    obtain ⟨nr2, nxt2⟩ := p
    have hwl : WfL none none [s.root] [] := .single _ _ _ hw
    have hdl : DeepL d [s.root] := .cons d _ _ hd (.nil d)
    rcases split_child_ok hwl hdl ht hsplit with
      ⟨y, mid, hy, hmid, hrrn1, hleaf1, hkeys1, hnxt1, hwl1, hdl1, hio1⟩
    obtain ⟨n1r, n1lf, n1ks, n1cs⟩ := nr2
    have e2 : n1lf = false := hleaf1
    subst e2
    have e3 : n1ks = pyInsertAt 0 mid [] := hkeys1
    subst e3
    have hw1 : Wf none none (.mk n1r false (pyInsertAt 0 mid []) n1cs) :=
      .node _ _ _ _ _ hwl1
    have hd1 : Deep (d + 1) (.mk n1r false (pyInsertAt 0 mid []) n1cs) :=
      .node _ _ _ _ hdl1
    rcases M_bind_eq_ok hok2 with ⟨q, hins, hok3⟩
    obtain ⟨nr3, nxt3⟩ := q
    rw [Except.ok.injEq] at hok3
    subst hok3
    rcases insert_non_full_ok fuel hw1 hd1 trivial trivial ht hins with
      ⟨hw3, hd3, hperm⟩
    have hio2 : inorder (BTreeNode.mk n1r false (pyInsertAt 0 mid []) n1cs)
        = inorder s.root := by
      show inorder_go n1cs (pyInsertAt 0 mid []) = inorder s.root
      rw [show inorder_go n1cs (pyInsertAt 0 mid [])
          = inorder_go [s.root] [] from hio1, inorder_go_single]
    rw [hio2] at hperm
    exact ⟨hw3, ⟨d + 1, hd3⟩, hperm, fun o hco => hco⟩
  · rw [if_neg hfull] at hok
    rcases M_bind_eq_ok hok with ⟨q, hins, hok3⟩
    obtain ⟨nr3, nxt3⟩ := q
    rw [Except.ok.injEq] at hok3
    subst hok3
    rcases insert_non_full_ok fuel hw hd trivial trivial ht hins with
      ⟨hw3, hd3, hperm⟩
    exact ⟨hw3, ⟨d, hd3⟩, hperm, fun o hco => hco⟩

/-- Two entries of a nondecreasing key list compare as their positions. -/
theorem sorted_getElem_le {ks : List Int}
    (hs : List.Sorted (fun a b : Int => a ≤ b) ks) {i j : Nat} {a b : Int}
    (hij : i < j) (ha : ks[i]? = some a) (hb : ks[j]? = some b) : a ≤ b := by
  rw [List.getElem?_eq_some] at ha hb
  obtain ⟨hi2, ha⟩ := ha
  obtain ⟨hj2, hb⟩ := hb
  subst ha hb
  exact List.pairwise_iff_getElem.1 hs i j hi2 hj2 hij

/-- The last entry of a nondecreasing list is its maximum. -/
theorem sorted_last_max {l : List Int}
    (hs : List.Sorted (fun a b : Int => a ≤ b) l) {p : Int}
    (hp : l.getLast? = some p) : ∀ x ∈ l, x ≤ p := by
  intro x hx
  rw [List.getLast?_eq_getElem?] at hp
  rcases List.mem_iff_getElem?.1 hx with ⟨i, hi⟩
  rcases Nat.lt_or_ge i (l.length - 1) with h | h
  · exact sorted_getElem_le hs h hi hp
  · have hlen : i < l.length := (List.getElem?_eq_some.1 hi).1
    have he : i = l.length - 1 := by omega
    rw [he, hp, Option.some.injEq] at hi
    omega

/-- The first entry of a nondecreasing list is its minimum. -/
theorem sorted_head_min {l : List Int}
    (hs : List.Sorted (fun a b : Int => a ≤ b) l) {q : Int}
    (hq : l.head? = some q) : ∀ x ∈ l, q ≤ x := by
  intro x hx
  rw [List.head?_eq_getElem?] at hq
  rcases List.mem_iff_getElem?.1 hx with ⟨i, hi⟩
  rcases Nat.eq_zero_or_pos i with h | h
  · rw [h, hq, Option.some.injEq] at hi
    omega
  · exact sorted_getElem_le hs h hq hi

/-- A key of a sorted, bounded key list respects the slot bounds around it. -/
theorem key_bracket {lo hi : Option Int} {ks : List Int}
    (hs : List.Sorted (fun a b : Int => a ≤ b) ks)
    (hb : ∀ x ∈ ks, olb lo x ∧ oub hi x)
    {j : Nat} {k : Int} (hj : ks[j]? = some k) :
    olb (lobnd lo ks j) k ∧ oub (hibnd hi ks (j + 1)) k := by
  have hmem : k ∈ ks := List.getElem?_mem hj
  have hjlen : j < ks.length := (List.getElem?_eq_some.1 hj).1
  constructor
  · unfold lobnd
    by_cases h0 : j = 0
    · rw [if_pos h0]
      exact (hb k hmem).1
    · rw [if_neg h0]
      have hprev : j - 1 < ks.length := by omega
      rw [List.getElem?_eq_getElem hprev]
      exact sorted_getElem_le hs (by omega) (List.getElem?_eq_getElem hprev) hj
  · unfold hibnd
    by_cases hl : j + 1 = ks.length
    · rw [if_pos hl]
      exact (hb k hmem).2
    · rw [if_neg hl]
      have hnext : j + 1 < ks.length := by omega
      rw [List.getElem?_eq_getElem hnext]
      exact sorted_getElem_le hs (by omega) hj (List.getElem?_eq_getElem hnext)

/-- Removing one copy of the key between two multisets. -/
theorem ms_erase_mid (M N : Multiset Int) (key : Int) :
    (M + key ::ₘ N).erase key = M + N := by
  rw [add_comm M, Multiset.cons_add, Multiset.erase_cons_head, add_comm]

/-- Erasure localizes to the middle part when the key occurs there. -/
theorem ms_erase_triple_mem (A X B : Multiset Int) (key : Int) (h : key ∈ X) :
    (A + X + B).erase key = A + X.erase key + B := by
  conv_lhs => rw [← Multiset.cons_erase h]
  rw [add_comm A (key ::ₘ X.erase key), Multiset.cons_add, Multiset.cons_add,
    Multiset.erase_cons_head, add_comm (X.erase key) A]

/-- Erasure localizes to the middle part when the key avoids both sides. -/
theorem ms_erase_triple_notmem (A X B : Multiset Int) (key : Int)
    (hA : key ∉ A) (hB : key ∉ B) :
    (A + X + B).erase key = A + X.erase key + B := by
  by_cases hX : key ∈ X
  · exact ms_erase_triple_mem A X B key hX
  · rw [Multiset.erase_of_not_mem hX,
      Multiset.erase_of_not_mem (by simp [Multiset.mem_add, hA, hB, hX])]

/-- On a sorted key list, a present key sits exactly at the search position. -/
theorem low_pos_found (key : Int) (ks : List Int)
    (hs : List.Sorted (fun a b : Int => a ≤ b) ks) (hmem : key ∈ ks) :
    ks[low_pos key ks]? = some key := by
  induction ks with
  | nil => cases hmem
  | cons k ks ih =>
    rw [low_pos_cons]
    by_cases h : k < key
    · rw [if_pos h, List.getElem?_cons_succ]
      refine ih hs.of_cons ?_
      rcases List.mem_cons.1 hmem with he | he
      · exact absurd (he ▸ h) (lt_irrefl key)
      · exact he
    · rw [if_neg h, List.getElem?_cons_zero, Option.some.injEq]
      rcases List.mem_cons.1 hmem with he | he
      · exact he.symm
      · have h1 : k ≤ key := List.rel_of_sorted_cons hs key he
        omega

/-- A well-formed child list is nonempty. -/
theorem WfL_ne_nil {lo hi : Option Int} {cs : List BTreeNode} {ks : List Int}
    (h : WfL lo hi cs ks) : cs ≠ [] := by
  cases h <;> simp

/-- Every page has positive common leaf depth. -/
theorem Deep_pos {d : Nat} {c : BTreeNode} (h : Deep d c) : 1 ≤ d := by
  cases h <;> omega

/-- A nonempty list of pages at common depth forces the depth positive. -/
theorem DeepL_pos {d : Nat} {cs : List BTreeNode} (h : DeepL d cs)
    (hne : cs ≠ []) : 1 ≤ d := by
  cases h with
  | nil _ => exact absurd rfl hne
  | cons _ _ _ hc _ => exact Deep_pos hc

/-- A well-formed page of depth 1 is a leaf. -/
theorem Deep_one_leaf {lo hi : Option Int} {c : BTreeNode}
    (hd : Deep 1 c) (hw : Wf lo hi c) : c.leaf = true := by
  cases hd with
  | leaf r ks cs => rfl
  | node =>
    rename_i hdl0
    cases hw with
    | node _ _ _ _ _ hwl =>
      cases hwl with
      | single _ _ c0 _ =>
        cases hdl0 with
        | cons _ _ _ hc _ => exact absurd (Deep_pos hc) (by omega)
      | cons _ _ _ c0 _ _ _ _ _ _ =>
        cases hdl0 with
        | cons _ _ _ hc _ => exact absurd (Deep_pos hc) (by omega)

/-- A well-formed page of depth at least 2 is internal. -/
theorem Deep_internal {lo hi : Option Int} {d : Nat} {c : BTreeNode}
    (hd : Deep d c) (hw : Wf lo hi c) (h2 : 2 ≤ d) : c.leaf = false := by
  cases hd with
  | leaf r ks cs => omega
  | node _ _ _ _ _ => rfl

/-- The in-order traversal of a child list ends with the traversal of its
last child. -/
theorem inorder_go_getLast {lo hi : Option Int} {cs : List BTreeNode}
    {ks : List Int} (h : WfL lo hi cs ks) {cl : BTreeNode}
    (hcl : cs[ks.length]? = some cl) {p : Int}
    (hp : (inorder cl).getLast? = some p) :
    (inorder_go cs ks).getLast? = some p :=
  match h with
  | .single _ _ c0 _ => by
    rw [show (([] : List Int).length : Nat) = 0 from rfl,
      List.getElem?_cons_zero, Option.some.injEq] at hcl
    subst hcl
    rw [inorder_go_single]
    exact hp
  | .cons lo hi k c0 cs ks hc0 hlo hhi hrest => by
    rw [List.length_cons, List.getElem?_cons_succ] at hcl
    have hrec := inorder_go_getLast hrest hcl hp
    have hne : inorder_go cs ks ≠ [] := by
      intro hx
      rw [hx] at hrec
      simp at hrec
    rw [inorder_go_cons,
      List.getLast?_append_of_ne_nil _ (List.cons_ne_nil k (inorder_go cs ks)),
      show k :: inorder_go cs ks = [k] ++ inorder_go cs ks from rfl,
      List.getLast?_append_of_ne_nil _ hne]
    exact hrec

/-- The in-order traversal of a child list starts with the traversal of its
first child. -/
theorem inorder_go_head {lo hi : Option Int} {cs : List BTreeNode}
    {ks : List Int} (h : WfL lo hi cs ks) {c0 : BTreeNode}
    (hc0 : cs[0]? = some c0) {q : Int}
    (hq : (inorder c0).head? = some q) :
    (inorder_go cs ks).head? = some q :=
  match h with
  | .single _ _ c1 _ => by
    rw [List.getElem?_cons_zero, Option.some.injEq] at hc0
    subst hc0
    rw [inorder_go_single]
    exact hq
  | .cons lo hi k c1 cs ks hc1 hlo hhi hrest => by
    rw [List.getElem?_cons_zero, Option.some.injEq] at hc0
    subst hc0
    rw [inorder_go_cons]
    cases hx : inorder c1 with
    | nil => rw [hx] at hq; simp at hq
    | cons y ys =>
      rw [hx] at hq
      simpa using hq

/-- Following last children from a well-formed page reaches a page whose
last key, if any, is the last in-order entry of the whole subtree. -/
theorem descend_last_ok (fuel : Nat) :
    ∀ {lo hi : Option Int} {cur lf : BTreeNode},
      Wf lo hi cur → descend_last fuel cur = .ok lf →
      ∀ {p : Int}, lf.keys.getLast? = some p → (inorder cur).getLast? = some p := by
  induction fuel with
  | zero =>
    intro lo hi cur lf hw hok p hp
    exact absurd hok (by simp [descend_last])
  | succ fuel ih =>
    intro lo hi cur lf hw hok p hp
    obtain ⟨nr, nlf, nks, ncs⟩ := cur
    cases nlf with
    | true =>
      simp only [descend_last, BTreeNode.leaf, if_true, Except.ok.injEq] at hok
      subst hok
      exact hp
    | false =>
      rcases M_bind_eq_ok hok with ⟨c, hc, hok2⟩
      have hc2 : ncs[nks.length]? = some c := getIdx_ok hc
      cases hw with
      | node _ _ _ _ _ hwl =>
        rcases WfL_focus hwl nks.length hc2 with ⟨hwc, -⟩
        have hrec := ih hwc hok2 hp
        show (inorder_go ncs nks).getLast? = some p
        exact inorder_go_getLast hwl hc2 hrec

/-- Following first children from a well-formed page reaches a page whose
first key, if any, is the first in-order entry of the whole subtree. -/
theorem descend_first_ok (fuel : Nat) :
    ∀ {lo hi : Option Int} {cur lf : BTreeNode},
      Wf lo hi cur → descend_first fuel cur = .ok lf →
      ∀ {q : Int}, lf.keys[0]? = some q → (inorder cur).head? = some q := by
  induction fuel with
  | zero =>
    intro lo hi cur lf hw hok q hq
    exact absurd hok (by simp [descend_first])
  | succ fuel ih =>
    intro lo hi cur lf hw hok q hq
    obtain ⟨nr, nlf, nks, ncs⟩ := cur
    cases nlf with
    | true =>
      simp only [descend_first, BTreeNode.leaf, if_true, Except.ok.injEq] at hok
      subst hok
      rw [List.head?_eq_getElem?]
      exact hq
    | false =>
      rcases M_bind_eq_ok hok with ⟨c, hc, hok2⟩
      have hc2 : ncs[0]? = some c := getIdx_ok hc
      cases hw with
      | node _ _ _ _ _ hwl =>
        rcases WfL_focus hwl 0 hc2 with ⟨hwc, -⟩
        have hrec := ih hwc hok2 hq
        show (inorder_go ncs nks).head? = some q
        exact inorder_go_head hwl hc2 hrec

/-- The separator keys of a well-formed child list are nondecreasing. -/
theorem WfL_keys_sorted {lo hi : Option Int} {cs : List BTreeNode}
    {ks : List Int} (h : WfL lo hi cs ks) :
    List.Sorted (fun a b : Int => a ≤ b) ks :=
  match h with
  | .single _ _ _ _ => List.sorted_nil
  | .cons lo hi k c0 cs ks hc0 hlo hhi hrest => by
    rw [List.sorted_cons]
    exact ⟨fun y hy => (WfL_keys_bounds hrest y hy).1,
      WfL_keys_sorted hrest⟩

/-- Merging two adjacent children around their separator preserves
well-formedness, balance and the in-order entries; the merged page holds the
left child, the separator and the right child in order. -/
theorem merge_children_ok {lo hi : Option Int} {d : Nat} {pr : Nat} {plf : Bool}
    {pks : List Int} {pcs : List BTreeNode} {idx : Nat} {node1 : BTreeNode}
    (hw : WfL lo hi pcs pks) (hd : DeepL d pcs)
    (hok : merge_children (.mk pr plf pks pcs) idx = .ok node1) :
    ∃ (m : BTreeNode) (sep : Int),
      pks[idx]? = some sep ∧
      node1 = .mk pr plf (pks.eraseIdx idx)
        ((pcs.set idx m).eraseIdx (idx + 1)) ∧
      ((pcs.set idx m).eraseIdx (idx + 1))[idx]? = some m ∧
      (∃ c s, pcs[idx]? = some c ∧ pcs[idx + 1]? = some s ∧
        inorder m = inorder c ++ sep :: inorder s) ∧
      Wf (lobnd lo pks idx) (hibnd hi pks (idx + 1)) m ∧
      WfL lo hi ((pcs.set idx m).eraseIdx (idx + 1)) (pks.eraseIdx idx) ∧
      DeepL d ((pcs.set idx m).eraseIdx (idx + 1)) ∧
      inorder_go ((pcs.set idx m).eraseIdx (idx + 1)) (pks.eraseIdx idx)
        = inorder_go pcs pks := by
  unfold merge_children at hok
  rcases M_bind_eq_ok hok with ⟨child, hcg, hok2⟩
  rcases M_bind_eq_ok hok2 with ⟨sibling, hsg, hok3⟩
  rcases M_bind_eq_ok hok3 with ⟨sep, hsepg, hok4⟩
  have hc : pcs[idx]? = some child := getIdx_ok hcg
  have hs : pcs[idx + 1]? = some sibling := getIdx_ok hsg
  have hsep : pks[idx]? = some sep := getIdx_ok hsepg
  rw [Except.ok.injEq] at hok4
  rcases WfL_merge_focus hw idx hc hs hsep with ⟨hwc, hws, hset⟩
  rcases WfL_frame_merge hw idx hc hs hsep with ⟨A, B, hdec, hsetf, -, -, -⟩
  have hdc : Deep d child := DeepL_get hd idx hc
  have hds : Deep d sibling := DeepL_get hd (idx + 1) hs
  have hks_sorted := WfL_keys_sorted hw
  have hks_bounds := WfL_keys_bounds hw
  rcases key_bracket hks_sorted hks_bounds hsep with ⟨hseplo, hsephi⟩
  have hplen : idx < pcs.length := (List.getElem?_eq_some.1 hc).1
  obtain ⟨cr, clf, cks, ccs⟩ := child
  cases clf with
  | true =>
    cases hwc with
    | leaf _ _ _ _ hcchain hcbound =>
      have hd1 : d = 1 := Deep_leaf_inv hdc
      subst hd1
      have hslf : sibling.leaf = true := Deep_one_leaf hds hws
      obtain ⟨sr, slf, sks, scs⟩ := sibling
      have hslf2 : slf = true := hslf
      subst hslf2
      cases hws with
      | leaf _ _ _ _ hschain hsbound =>
        have hmw : Wf (lobnd lo pks idx) (hibnd hi pks (idx + 1))
            (.mk cr true (cks ++ sep :: sks) []) := by
          refine .leaf _ _ _ _ ?_ ?_
          · refine List.pairwise_append.2 ⟨hcchain, ?_, ?_⟩
            · exact List.pairwise_cons.2 ⟨fun y hy => (hsbound y hy).1, hschain⟩
            · intro x hx y hy
              have hxs : x ≤ sep := (hcbound x hx).2
              rcases List.mem_cons.1 hy with hy | hy
              · exact hy ▸ hxs
              · exact le_trans hxs (hsbound y hy).1
          · intro x hx
            rcases List.mem_append.1 hx with hx | hx
            · exact ⟨(hcbound x hx).1, oub_trans hsephi (hcbound x hx).2⟩
            · rcases List.mem_cons.1 hx with hx | hx
              · subst hx
                exact ⟨hseplo, hsephi⟩
              · exact ⟨olb_trans hseplo (hsbound x hx).1, (hsbound x hx).2⟩
        have hmd : Deep 1 (.mk cr true (cks ++ sep :: sks) []) := .leaf _ _ _
        have hmi : inorder (.mk cr true (cks ++ sep :: sks) [])
            = inorder (.mk cr true cks []) ++ sep :: inorder (.mk sr true sks []) :=
          rfl
        refine ⟨.mk cr true (cks ++ sep :: sks) [], sep, hsep, hok4.symm, ?_,
          ⟨_, _, hc, hs, hmi⟩, hmw, hset _ hmw,
          DeepL_eraseIdx (DeepL_set hd idx _ hmd) (idx + 1), ?_⟩
        · rw [List.getElem?_eraseIdx_of_lt _ _ _ (by omega),
            List.getElem?_set_self hplen]
        · rw [hsetf, hdec, hmi]
          simp [List.append_assoc]
  | false =>
    cases hwc with
    | node _ _ _ _ _ hwlc =>
      rcases Deep_node_inv hdc with ⟨d2, hd2, hdlc⟩
      subst hd2
      have hd2pos : 1 ≤ d2 := DeepL_pos hdlc (WfL_ne_nil hwlc)
      have hslf : sibling.leaf = false := Deep_internal hds hws (by omega)
      obtain ⟨sr, slf, sks, scs⟩ := sibling
      have hslf2 : slf = false := hslf
      subst hslf2
      cases hws with
      | node _ _ _ _ _ hwls =>
        rcases Deep_node_inv hds with ⟨d3, hd3, hdls⟩
        have hdls2 : DeepL d2 scs := by
          have hd32 : d3 = d2 := by omega
          rwa [hd32] at hdls
        have hmw : Wf (lobnd lo pks idx) (hibnd hi pks (idx + 1))
            (.mk cr false (cks ++ sep :: sks) (ccs ++ scs)) :=
          .node _ _ _ _ _ (WfL_append hwlc hwls hseplo hsephi)
        have hmd : Deep (d2 + 1) (.mk cr false (cks ++ sep :: sks) (ccs ++ scs)) :=
          .node _ _ _ _ (DeepL_append hdlc hdls2)
        have hmi : inorder (.mk cr false (cks ++ sep :: sks) (ccs ++ scs))
            = inorder (.mk cr false cks ccs) ++ sep
              :: inorder (.mk sr false sks scs) := by
          show inorder_go (ccs ++ scs) (cks ++ sep :: sks)
            = inorder_go ccs cks ++ sep :: inorder_go scs sks
          exact inorder_go_append ccs scs cks sks sep (WfL_length hwlc)
        refine ⟨.mk cr false (cks ++ sep :: sks) (ccs ++ scs), sep, hsep,
          hok4.symm, ?_, ⟨_, _, hc, hs, hmi⟩, hmw, hset _ hmw,
          DeepL_eraseIdx (DeepL_set hd idx _ hmd) (idx + 1), ?_⟩
        · rw [List.getElem?_eraseIdx_of_lt _ _ _ (by omega),
            List.getElem?_set_self hplen]
        · rw [hsetf, hdec, hmi]
          simp [List.append_assoc]

/-- Borrowing through the parent from the left sibling preserves
well-formedness, balance and the in-order entries, and keeps the descent
slot's separators strictly bracketing any key they bracketed before. -/
theorem borrow_from_prev_ok {lo hi : Option Int} {d : Nat} {pr : Nat}
    {plf : Bool} {pks : List Int} {pcs : List BTreeNode} {idx : Nat}
    {node1 : BTreeNode}
    (hw : WfL lo hi pcs pks) (hd : DeepL d pcs) (hpos : 1 ≤ idx)
    (hok : borrow_from_prev (.mk pr plf pks pcs) idx = .ok node1) :
    ∃ (ks1 : List Int) (cs1 : List BTreeNode),
      node1 = .mk pr plf ks1 cs1 ∧
      WfL lo hi cs1 ks1 ∧ DeepL d cs1 ∧
      inorder_go cs1 ks1 = inorder_go pcs pks ∧
      ∀ key, NavOk pks idx key → NavOk ks1 idx key := by
  obtain ⟨j, rfl⟩ : ∃ j, idx = j + 1 := ⟨idx - 1, by omega⟩
  unfold borrow_from_prev at hok
  rcases M_bind_eq_ok hok with ⟨child, hcg, hok2⟩
  rcases M_bind_eq_ok hok2 with ⟨left, hlg, hok3⟩
  rcases M_bind_eq_ok hok3 with ⟨sep, hsepg, hok4⟩
  have hchild : pcs[j + 1]? = some child := getIdx_ok hcg
  have hleft : pcs[j]? = some left := getIdx_ok hlg
  have hsep : pks[j]? = some sep := getIdx_ok hsepg
  rcases WfL_pair_focus hw j hleft hchild hsep with ⟨hwleft, hwchild, hset⟩
  rcases WfL_frame_pair hw j hleft hchild hsep with ⟨A, B, hdec, hsetf⟩
  have hdleft : Deep d left := DeepL_get hd j hleft
  have hdchild : Deep d child := DeepL_get hd (j + 1) hchild
  rcases key_bracket (WfL_keys_sorted hw) (WfL_keys_bounds hw) hsep with
    ⟨hseplo, hsephi⟩
  have hjlen : j < pks.length := (List.getElem?_eq_some.1 hsep).1
  have hna : ∀ key, NavOk pks (j + 1) key → ∀ lk : Int, lk ≤ sep →
      NavOk (pks.set j lk) (j + 1) key := by
    intro key ⟨na, nb⟩ lk hlks
    constructor
    · intro kA _ hkA
      rw [show j + 1 - 1 = j from rfl, List.getElem?_set_self hjlen,
        Option.some.injEq] at hkA
      have hsk : sep < key := na sep (by omega) hsep
      omega
    · intro kB hkB
      rw [List.getElem?_set_ne (by omega)] at hkB
      exact nb kB hkB
  obtain ⟨cr, clf, cks, ccs⟩ := child
  cases clf with
  | true =>
    rcases M_bind_eq_ok hok4 with ⟨q, hpop, hok5⟩
    obtain ⟨lk, leftKeys⟩ := q
    rcases popLast_ok hpop with ⟨hlk0, hlkeys⟩
    subst hlkeys
    rw [Except.ok.injEq] at hok5
    have hd1 : d = 1 := Deep_leaf_inv hdchild
    subst hd1
    have hllf : left.leaf = true := Deep_one_leaf hdleft hwleft
    obtain ⟨lr, llf, lks, lcs⟩ := left
    have hllf2 : llf = true := hllf
    subst hllf2
    have hlk : lks.getLast? = some lk := hlk0
    cases hwleft with
    | leaf _ _ _ _ hlchain hlbound =>
      cases hwchild with
      | leaf _ _ _ _ hcchain hcbound =>
        have hlkmem : lk ∈ lks := List.mem_of_mem_getLast? hlk
        have hlkb := hlbound lk hlkmem
        have lmax := sorted_last_max hlchain hlk
        have hwleft2 : Wf (lobnd lo pks j) (some lk)
            (.mk lr true lks.dropLast []) := by
          refine .leaf _ _ _ _ (hlchain.sublist (List.dropLast_sublist lks)) ?_
          intro x hx
          have hx2 : x ∈ lks := (List.dropLast_sublist lks).subset hx
          exact ⟨(hlbound x hx2).1, lmax x hx2⟩
        have hwchild2 : Wf (some lk) (hibnd hi pks (j + 1))
            (.mk cr true (sep :: cks) []) := by
          refine .leaf _ _ _ _
            (List.pairwise_cons.2 ⟨fun y hy => (hcbound y hy).1, hcchain⟩) ?_
          intro x hx
          rcases List.mem_cons.1 hx with hx | hx
          · subst hx
            exact ⟨hlkb.2, hsephi⟩
          · exact ⟨olb_trans hlkb.2 (hcbound x hx).1, (hcbound x hx).2⟩
        have hok6 : BTreeNode.mk pr plf (pks.set j lk)
            ((pcs.set j (.mk lr true lks.dropLast [])).set (j + 1)
              (.mk cr true (sep :: cks) [])) = node1 := by
          rw [← hok5]
          show BTreeNode.mk pr plf (pks.set j lk)
              ((pcs.set j (.mk lr true lks.dropLast [])).set (j + 1)
                (.mk cr true (sep :: cks) []))
            = BTreeNode.mk pr plf (pks.set (j + 1 - 1) lk)
              ((pcs.set (j + 1) (.mk cr true (sep :: cks) [])).set (j + 1 - 1)
                (.mk lr true lks.dropLast []))
          rw [show (j + 1 : Nat) - 1 = j from rfl,
            List.set_comm _ _ pcs (by omega : j ≠ j + 1)]
        refine ⟨pks.set j lk, _, hok6.symm, ?_, ?_, ?_, ?_⟩
        · exact hset _ _ lk hwleft2 hwchild2 hlkb.1 (oub_trans hsephi hlkb.2)
        · exact DeepL_set (DeepL_set hd j _ (.leaf _ _ _)) (j + 1) _ (.leaf _ _ _)
        · rw [hsetf (.mk lr true lks.dropLast []) (.mk cr true (sep :: cks) []) lk,
            hdec]
          show A ++ lks.dropLast ++ lk :: (sep :: cks) ++ B
            = A ++ lks ++ (sep :: cks) ++ B
          conv_rhs => rw [← List.dropLast_append_getLast? lk hlk]
          simp [List.append_assoc]
        · intro key hnav
          exact hna key hnav lk hlkb.2
  | false =>
    rcases M_bind_eq_ok hok4 with ⟨q, hpopc, hok5⟩
    obtain ⟨lc, leftChildren⟩ := q
    rcases popLast_ok hpopc with ⟨hlc0, hlcs⟩
    subst hlcs
    rcases M_bind_eq_ok hok5 with ⟨q2, hpopk, hok6⟩
    obtain ⟨lk, leftKeys⟩ := q2
    rcases popLast_ok hpopk with ⟨hlk0, hlkeys⟩
    subst hlkeys
    rw [Except.ok.injEq] at hok6
    cases hwchild with
    | node _ _ _ _ _ hwlc =>
      rcases Deep_node_inv hdchild with ⟨d2, hd2, hdlc⟩
      subst hd2
      have hd2pos : 1 ≤ d2 := DeepL_pos hdlc (WfL_ne_nil hwlc)
      have hllf : left.leaf = false := Deep_internal hdleft hwleft (by omega)
      obtain ⟨lr, llf, lks, lcs⟩ := left
      have hllf2 : llf = false := hllf
      subst hllf2
      have hlk : lks.getLast? = some lk := hlk0
      have hlc : lcs.getLast? = some lc := hlc0
      cases hwleft with
      | node _ _ _ _ _ hwll =>
        rcases Deep_node_inv hdleft with ⟨d3, hd3, hdll⟩
        have hdll2 : DeepL d2 lcs := by
          have h32 : d3 = d2 := by omega
          rwa [h32] at hdll
        rcases WfL_dropLast hwll hlk hlc with ⟨hwll2, hwlc2⟩
        have hlkmem : lk ∈ lks := List.mem_of_mem_getLast? hlk
        have hlkb := WfL_keys_bounds hwll lk hlkmem
        have hdlcel : Deep d2 lc := by
          rw [List.getLast?_eq_getElem?] at hlc
          exact DeepL_get hdll2 _ hlc
        have hlksne : lks ≠ [] := by
          intro h
          rw [h] at hlk
          simp at hlk
        have hlcsne : lcs ≠ [] := by
          intro h
          rw [h] at hlc
          simp at hlc
        have hlen2 : lcs.dropLast.length = lks.dropLast.length + 1 := by
          have h1 := WfL_length hwll
          have h2 : lks.length ≥ 1 := List.length_pos.2 hlksne
          have h3 : lcs.length ≥ 1 := List.length_pos.2 hlcsne
          rw [List.length_dropLast, List.length_dropLast]
          omega
        have hwleft2 : Wf (lobnd lo pks j) (some lk)
            (.mk lr false lks.dropLast lcs.dropLast) := .node _ _ _ _ _ hwll2
        have hwchild2 : Wf (some lk) (hibnd hi pks (j + 1))
            (.mk cr false (sep :: cks) (lc :: ccs)) :=
          .node _ _ _ _ _ (.cons _ _ sep lc ccs cks hwlc2 hlkb.2 hsephi hwlc)
        have hdecl : inorder_go lcs lks
            = inorder_go lcs.dropLast lks.dropLast ++ lk :: inorder lc := by
          conv_lhs => rw [← List.dropLast_append_getLast? lc hlc,
            ← List.dropLast_append_getLast? lk hlk]
          rw [show ([lk] : List Int) = lk :: [] from rfl,
            inorder_go_append _ _ _ _ _ hlen2, inorder_go_single]
        have hok7 : BTreeNode.mk pr plf (pks.set j lk)
            ((pcs.set j (.mk lr false lks.dropLast lcs.dropLast)).set (j + 1)
              (.mk cr false (sep :: cks) (lc :: ccs))) = node1 := by
          rw [← hok6]
          show BTreeNode.mk pr plf (pks.set j lk)
              ((pcs.set j (.mk lr false lks.dropLast lcs.dropLast)).set (j + 1)
                (.mk cr false (sep :: cks) (lc :: ccs)))
            = BTreeNode.mk pr plf (pks.set (j + 1 - 1) lk)
              ((pcs.set (j + 1) (.mk cr false (sep :: cks) (lc :: ccs))).set
                (j + 1 - 1) (.mk lr false lks.dropLast lcs.dropLast))
          rw [show (j + 1 : Nat) - 1 = j from rfl,
            List.set_comm _ _ pcs (by omega : j ≠ j + 1)]
        refine ⟨pks.set j lk, _, hok7.symm, ?_, ?_, ?_, ?_⟩
        · exact hset _ _ lk hwleft2 hwchild2 hlkb.1 (oub_trans hsephi hlkb.2)
        · refine DeepL_set (DeepL_set hd j _ ?_) (j + 1) _ ?_
          · exact .node _ _ _ _ (DeepL_dropLast hdll2)
          · exact .node _ _ _ _ (.cons _ _ _ hdlcel hdlc)
        · rw [hsetf (.mk lr false lks.dropLast lcs.dropLast)
              (.mk cr false (sep :: cks) (lc :: ccs)) lk,
            hdec]
          show A ++ inorder_go lcs.dropLast lks.dropLast
              ++ lk :: inorder_go (lc :: ccs) (sep :: cks) ++ B
            = A ++ inorder_go lcs lks ++ sep :: inorder_go ccs cks ++ B
          rw [hdecl, inorder_go_cons]
          simp [List.append_assoc]
        · intro key hnav
          exact hna key hnav lk hlkb.2

/-- Borrowing through the parent from the right sibling preserves
well-formedness, balance and the in-order entries, and keeps the descent
slot's separators strictly bracketing any key they bracketed before. -/
theorem borrow_from_next_ok {lo hi : Option Int} {d : Nat} {pr : Nat}
    {plf : Bool} {pks : List Int} {pcs : List BTreeNode} {idx : Nat}
    {node1 : BTreeNode}
    (hw : WfL lo hi pcs pks) (hd : DeepL d pcs)
    (hok : borrow_from_next (.mk pr plf pks pcs) idx = .ok node1) :
    ∃ (ks1 : List Int) (cs1 : List BTreeNode),
      node1 = .mk pr plf ks1 cs1 ∧
      WfL lo hi cs1 ks1 ∧ DeepL d cs1 ∧
      inorder_go cs1 ks1 = inorder_go pcs pks ∧
      ∀ key, NavOk pks idx key → NavOk ks1 idx key := by
  unfold borrow_from_next at hok
  rcases M_bind_eq_ok hok with ⟨child, hcg, hok2⟩
  rcases M_bind_eq_ok hok2 with ⟨right, hrg, hok3⟩
  rcases M_bind_eq_ok hok3 with ⟨sep, hsepg, hok4⟩
  have hchild : pcs[idx]? = some child := getIdx_ok hcg
  have hright : pcs[idx + 1]? = some right := getIdx_ok hrg
  have hsep : pks[idx]? = some sep := getIdx_ok hsepg
  rcases WfL_pair_focus hw idx hchild hright hsep with ⟨hwchild, hwright, hset⟩
  rcases WfL_frame_pair hw idx hchild hright hsep with ⟨A, B, hdec, hsetf⟩
  have hdchild : Deep d child := DeepL_get hd idx hchild
  have hdright : Deep d right := DeepL_get hd (idx + 1) hright
  rcases key_bracket (WfL_keys_sorted hw) (WfL_keys_bounds hw) hsep with
    ⟨hseplo, hsephi⟩
  have hjlen : idx < pks.length := (List.getElem?_eq_some.1 hsep).1
  have hna : ∀ key, NavOk pks idx key → ∀ rk : Int, sep ≤ rk →
      NavOk (pks.set idx rk) idx key := by
    intro key ⟨na, nb⟩ rk hrks
    constructor
    · intro kA h0 hkA
      rw [List.getElem?_set_ne (by omega)] at hkA
      exact na kA h0 hkA
    · intro kB hkB
      rw [List.getElem?_set_self hjlen, Option.some.injEq] at hkB
      have hsk : key < sep := nb sep hsep
      omega
  obtain ⟨cr, clf, cks, ccs⟩ := child
  cases clf with
  | true =>
    rcases M_bind_eq_ok hok4 with ⟨q, hpop, hok5⟩
    obtain ⟨rk, rightKeys⟩ := q
    rcases popAt_ok hpop with ⟨hrk0, hrkeys⟩
    subst hrkeys
    rw [Except.ok.injEq] at hok5
    have hd1 : d = 1 := Deep_leaf_inv hdchild
    subst hd1
    have hrlf : right.leaf = true := Deep_one_leaf hdright hwright
    obtain ⟨rr, rlf, rks, rcs⟩ := right
    have hrlf2 : rlf = true := hrlf
    subst hrlf2
    have hrk : rks[0]? = some rk := hrk0
    cases hwchild with
    | leaf _ _ _ _ hcchain hcbound =>
      cases hwright with
      | leaf _ _ _ _ hrchain hrbound =>
        cases rks with
        | nil => simp at hrk
        | cons rk0 rest =>
          rw [List.getElem?_cons_zero, Option.some.injEq] at hrk
          subst hrk
          rcases List.sorted_cons.1 hrchain with ⟨hrmin, hrestchain⟩
          have hrkb := hrbound rk0 (List.mem_cons_self rk0 rest)
          have hwchild2 : Wf (lobnd lo pks idx) (some rk0)
              (.mk cr true (cks ++ [sep]) []) := by
            refine .leaf _ _ _ _ ?_ ?_
            · refine List.pairwise_append.2
                ⟨hcchain, List.sorted_singleton sep, ?_⟩
              intro x hx y hy
              rw [List.mem_singleton] at hy
              subst hy
              exact (hcbound x hx).2
            · intro x hx
              rcases List.mem_append.1 hx with hx | hx
              · exact ⟨(hcbound x hx).1,
                  oub_trans (show oub (some rk0) sep from hrkb.1)
                    (hcbound x hx).2⟩
              · rw [List.mem_singleton] at hx
                subst hx
                exact ⟨hseplo, hrkb.1⟩
          have hwright2 : Wf (some rk0) (hibnd hi pks (idx + 1))
              (.mk rr true rest []) := by
            refine .leaf _ _ _ _ hrestchain ?_
            intro x hx
            exact ⟨hrmin x hx, (hrbound x (List.mem_cons_of_mem rk0 hx)).2⟩
          have hok6 : BTreeNode.mk pr plf (pks.set idx rk0)
              ((pcs.set idx (.mk cr true (cks ++ [sep]) [])).set (idx + 1)
                (.mk rr true rest [])) = node1 := hok5
          refine ⟨pks.set idx rk0, _, hok6.symm, ?_, ?_, ?_, ?_⟩
          · exact hset _ _ rk0 hwchild2 hwright2
              (olb_trans hseplo hrkb.1) hrkb.2
          · exact DeepL_set (DeepL_set hd idx _ (.leaf _ _ _)) (idx + 1) _
              (.leaf _ _ _)
          · rw [hsetf (.mk cr true (cks ++ [sep]) []) (.mk rr true rest []) rk0,
              hdec]
            show A ++ (cks ++ [sep]) ++ rk0 :: rest ++ B
              = A ++ cks ++ sep :: (rk0 :: rest) ++ B
            simp [List.append_assoc]
          · intro key hnav
            exact hna key hnav rk0 hrkb.1
  | false =>
    rcases M_bind_eq_ok hok4 with ⟨q, hpopc, hok5⟩
    obtain ⟨rc, rightChildren⟩ := q
    rcases popAt_ok hpopc with ⟨hrc0, hrcs⟩
    subst hrcs
    rcases M_bind_eq_ok hok5 with ⟨q2, hpopk, hok6⟩
    obtain ⟨rk, rightKeys⟩ := q2
    rcases popAt_ok hpopk with ⟨hrk0, hrkeys⟩
    subst hrkeys
    rw [Except.ok.injEq] at hok6
    cases hwchild with
    | node _ _ _ _ _ hwlc =>
      rcases Deep_node_inv hdchild with ⟨d2, hd2, hdlc⟩
      subst hd2
      have hd2pos : 1 ≤ d2 := DeepL_pos hdlc (WfL_ne_nil hwlc)
      have hrlf : right.leaf = false := Deep_internal hdright hwright (by omega)
      obtain ⟨rr, rlf, rks, rcs⟩ := right
      have hrlf2 : rlf = false := hrlf
      subst hrlf2
      have hrk : rks[0]? = some rk := hrk0
      have hrc : rcs[0]? = some rc := hrc0
      cases hwright with
      | node _ _ _ _ _ hwlr =>
        rcases Deep_node_inv hdright with ⟨d3, hd3, hdlr⟩
        have hdlr2 : DeepL d2 rcs := by
          have h32 : d3 = d2 := by omega
          rwa [h32] at hdlr
        cases rks with
        | nil => simp at hrk
        | cons rk0 rest =>
          rw [List.getElem?_cons_zero, Option.some.injEq] at hrk
          subst hrk
          cases rcs with
          | nil => simp at hrc
          | cons rc0 rcs2 =>
            rw [List.getElem?_cons_zero, Option.some.injEq] at hrc
            subst hrc
            cases hwlr with
            | cons _ _ _ _ _ _ hcrc hlo2 hhi2 hrest =>
              cases hdlr2 with
              | cons _ _ _ hdrc hdrcs =>
                have hwchild2 : Wf (lobnd lo pks idx) (some rk0)
                    (.mk cr false (cks ++ [sep]) (ccs ++ [rc0])) :=
                  .node _ _ _ _ _ (WfL_append hwlc (.single _ _ rc0 hcrc)
                    hseplo (show oub (some rk0) sep from hlo2))
                have hwright2 : Wf (some rk0) (hibnd hi pks (idx + 1))
                    (.mk rr false rest rcs2) := .node _ _ _ _ _ hrest
                have hok7 : BTreeNode.mk pr plf (pks.set idx rk0)
                    ((pcs.set idx (.mk cr false (cks ++ [sep]) (ccs ++ [rc0]))).set
                      (idx + 1) (.mk rr false rest rcs2)) = node1 := hok6
                refine ⟨pks.set idx rk0, _, hok7.symm, ?_, ?_, ?_, ?_⟩
                · exact hset _ _ rk0 hwchild2 hwright2
                    (olb_trans hseplo (show sep ≤ rk0 from hlo2)) hhi2
                · refine DeepL_set (DeepL_set hd idx _ ?_) (idx + 1) _ ?_
                  · exact .node _ _ _ _
                      (DeepL_append hdlc (.cons _ _ _ hdrc (.nil _)))
                  · exact .node _ _ _ _ hdrcs
                · rw [hsetf (.mk cr false (cks ++ [sep]) (ccs ++ [rc0]))
                      (.mk rr false rest rcs2) rk0, hdec]
                  show A ++ inorder_go (ccs ++ [rc0]) (cks ++ [sep])
                      ++ rk0 :: inorder_go rcs2 rest ++ B
                    = A ++ inorder_go ccs cks
                      ++ sep :: inorder_go (rc0 :: rcs2) (rk0 :: rest) ++ B
                  rw [show (([sep] : List Int)) = sep :: [] from rfl,
                    inorder_go_append _ _ _ _ _ (WfL_length hwlc),
                    inorder_go_single, inorder_go_cons]
                  simp [List.append_assoc]
                · intro key hnav
                  exact hna key hnav rk0 (show sep ≤ rk0 from hlo2)

/-- Pushing a multiset cons over an addition from the right. -/
theorem ms_add_cons (E B : Multiset Int) (v : Int) :
    E + v ::ₘ B = v ::ₘ (E + B) := by
  rw [add_comm E, Multiset.cons_add, add_comm B E]

/-- Accounting for the predecessor substitution: removing v from the focused
child and reinstating it as the separator undoes the removal of the old
separator key. -/
theorem ms_found_subst (A X B : Multiset Int) (key v : Int) (hv : v ∈ X) :
    A + X.erase v + v ::ₘ B = (A + X + key ::ₘ B).erase key := by
  rw [ms_erase_mid (A + X) B key]
  conv_rhs => rw [← Multiset.cons_erase hv]
  rw [add_assoc, add_assoc, ms_add_cons (X.erase v) B v, Multiset.cons_add]

/-- Accounting for the successor substitution, mirror image of the
predecessor case. -/
theorem ms_found_subst_r (A X B : Multiset Int) (key v : Int) (hv : v ∈ X) :
    A + v ::ₘ X.erase v + B = (A + key ::ₘ X + B).erase key := by
  rw [Multiset.cons_erase hv, ms_add_cons A X key, Multiset.cons_add,
    Multiset.erase_cons_head]

/-- Removing the entry at a position where the key sits equals erasing one
copy of the key. -/
theorem ms_eraseIdx_found {l : List Int} {i : Nat} {key : Int}
    (h : l[i]? = some key) :
    (↑(l.eraseIdx i) : Multiset Int) = (↑l : Multiset Int).erase key := by
  rcases List.getElem?_eq_some.1 h with ⟨hlen, hget⟩
  conv_rhs => rw [← List.take_append_drop i l,
    ← List.getElem_cons_drop l i hlen, hget]
  rw [List.eraseIdx_eq_take_drop_succ]
  show ((l.take i : List Int) : Multiset Int) + ((l.drop (i + 1) : List Int) : Multiset Int)
    = (((l.take i : List Int) : Multiset Int) + key ::ₘ ((l.drop (i + 1) : List Int) : Multiset Int)).erase key
  exact (ms_erase_mid _ _ _).symm

/-- Common tail of every rebalance branch of _delete's descent: fetch the
child at the chosen slot, delete recursively there, and write it back.
The recursion's own specification is passed as a hypothesis. -/
theorem delete_descend_tail {fuel t : Nat} {key : Int} {lo hi : Option Int}
    {d2 : Nat} {ks1 : List Int} {cs1 : List BTreeNode} {idx1 : Nat}
    {r : Nat} {node2 : BTreeNode}
    (IH : ∀ {lo hi : Option Int} {d : Nat} {nd nd2 : BTreeNode},
      Wf lo hi nd → Deep d nd → delete_go fuel t nd key = .ok nd2 →
      Wf lo hi nd2 ∧ Deep d nd2 ∧
      (↑(inorder nd2) : Multiset Int) = (↑(inorder nd) : Multiset Int).erase key)
    (hwl1 : WfL lo hi cs1 ks1) (hdl1 : DeepL d2 cs1)
    (hnav1 : NavOk ks1 idx1 key)
    (hok : (do
        let c ← getIdx cs1 idx1
        let c2 ← delete_go fuel t c key
        Except.ok (BTreeNode.mk r false ks1 (cs1.set idx1 c2))) = .ok node2) :
    Wf lo hi node2 ∧ Deep (d2 + 1) node2 ∧
    (↑(inorder node2) : Multiset Int)
      = (↑(inorder_go cs1 ks1) : Multiset Int).erase key := by
  rcases M_bind_eq_ok hok with ⟨c, hcg, hok4⟩
  have hcc : cs1[idx1]? = some c := getIdx_ok hcg
  rcases M_bind_eq_ok hok4 with ⟨c2, hrec, hok5⟩
  rw [Except.ok.injEq] at hok5
  subst hok5
  rcases WfL_focus hwl1 idx1 hcc with ⟨hwc, hsetc⟩
  have hdc : Deep d2 c := DeepL_get hdl1 _ hcc
  rcases IH hwc hdc hrec with ⟨hwc2, hdc2, hmc2⟩
  rcases WfL_frame_set hwl1 idx1 hcc with ⟨A, B, hdecf, hsetff, h0A, hAb, hBb⟩
  have hkeyA : key ∉ A := by
    intro hk
    by_cases h0 : idx1 = 0
    · rw [h0A h0] at hk
      cases hk
    · rcases hAb key hk with ⟨kA, hkA1, hkA2⟩
      have := hnav1.1 kA (by omega) hkA1
      omega
  have hkeyB : key ∉ B := by
    intro hk
    rcases hBb key hk with ⟨kB, hkB1, hkB2⟩
    have := hnav1.2 kB hkB1
    omega
  refine ⟨.node _ _ _ _ _ (hsetc c2 hwc2),
    .node _ _ _ _ (DeepL_set hdl1 _ c2 hdc2), ?_⟩
  show (↑(inorder_go (cs1.set idx1 c2) ks1) : Multiset Int)
    = (↑(inorder_go cs1 ks1) : Multiset Int).erase key
  rw [hsetff c2, hdecf]
  show ((↑A : Multiset Int) + ↑(inorder c2) + ↑B)
    = ((↑A : Multiset Int) + ↑(inorder c) + ↑B).erase key
  rw [hmc2]
  refine (ms_erase_triple_notmem _ _ _ key ?_ ?_).symm
  · rwa [Multiset.mem_coe]
  · rwa [Multiset.mem_coe]

/-- Recursive deletion preserves well-formedness at the same bounds and the
common leaf depth, and removes exactly one copy of the key (none if absent)
from the in-order entries. -/
theorem delete_go_ok (fuel : Nat) :
    ∀ {t : Nat} {lo hi : Option Int} {d : Nat} {node : BTreeNode} {key : Int}
      {node2 : BTreeNode},
      Wf lo hi node → Deep d node →
      delete_go fuel t node key = .ok node2 →
      Wf lo hi node2 ∧ Deep d node2 ∧
      (↑(inorder node2) : Multiset Int)
        = (↑(inorder node) : Multiset Int).erase key := by
  induction fuel with
  | zero =>
    intro t lo hi d node key node2 hw hd hok
    exact absurd hok (by simp [delete_go])
  | succ fuel ih =>
    intro t lo hi d node key node2 hw hd hok
    obtain ⟨nr, nlf, nks, ncs⟩ := node
    simp only [delete_go, BTreeNode.keys, BTreeNode.leaf, BTreeNode.children,
      BTreeNode.rrn] at hok
    by_cases hfound : nks[low_pos key nks]? = some key
    · rw [if_pos hfound] at hok
      have hidxlen : low_pos key nks < nks.length :=
        (List.getElem?_eq_some.1 hfound).1
      cases nlf with
      | true =>
        rw [if_pos rfl, Except.ok.injEq] at hok
        subst hok
        cases hw with
        | leaf _ _ _ _ hchain hbound =>
          have hd1 : d = 1 := Deep_leaf_inv hd
          subst hd1
          refine ⟨.leaf _ _ _ _ (hchain.sublist (List.eraseIdx_sublist _ _)) ?_,
            .leaf _ _ _, ?_⟩
          · intro x hx
            exact hbound x ((List.eraseIdx_sublist _ _).subset hx)
          · show (↑(nks.eraseIdx (low_pos key nks)) : Multiset Int)
              = (↑nks : Multiset Int).erase key
            exact ms_eraseIdx_found hfound
      | false =>
        rcases M_bind_eq_ok hok with ⟨lc, hlcg, hok2⟩
        have hlc : ncs[low_pos key nks]? = some lc := getIdx_ok hlcg
        cases hw with
        | node _ _ _ _ _ hwl =>
        rcases Deep_node_inv hd with ⟨d2, hd2, hdl⟩
        subst hd2
        have hhib : hibnd hi nks (low_pos key nks) = some key := by
          unfold hibnd
          rw [if_neg (by omega), hfound]
        rcases WfL_focus hwl (low_pos key nks) hlc with ⟨hwlc, hsetlc⟩
        have hdlc : Deep d2 lc := DeepL_get hdl _ hlc
        by_cases hguard : t ≤ lc.keycount
        · rw [if_pos hguard] at hok2
          rcases M_bind_eq_ok hok2 with ⟨pred, hpredg, hok3⟩
          unfold get_predecessor at hpredg
          rcases M_bind_eq_ok hpredg with ⟨c0, hc0g, hpg2⟩
          have hc0 : ncs[low_pos key nks]? = some c0 := getIdx_ok hc0g
          rw [hlc, Option.some.injEq] at hc0
          subst hc0
          rcases M_bind_eq_ok hpg2 with ⟨lf, hdesc, hlast⟩
          have hlfkeys : lf.keys.getLast? = some pred := getLastP_ok hlast
          have hplast : (inorder lc).getLast? = some pred :=
            descend_last_ok fuel hwlc hdesc hlfkeys
          have hpmem : pred ∈ inorder lc := List.mem_of_mem_getLast? hplast
          have pmax := sorted_last_max (Wf_sorted hwlc) hplast
          have hpb := Wf_bounds hwlc pred hpmem
          have hpk : pred ≤ key := by
            have h2 := hpb.2
            rwa [hhib] at h2
          rcases M_bind_eq_ok hok3 with ⟨c, hcg, hok4⟩
          have hcc : ncs[low_pos key nks]? = some c := getIdx_ok hcg
          rw [hlc, Option.some.injEq] at hcc
          subst hcc
          rcases M_bind_eq_ok hok4 with ⟨c2, hrec, hok5⟩
          rw [Except.ok.injEq] at hok5
          subst hok5
          rcases ih hwlc hdlc hrec with ⟨hwc2, hdc2, hmc2⟩
          have hwc2b : Wf (lobnd lo nks (low_pos key nks)) (some pred) c2 := by
            refine Wf_tighten_hi hwc2 ?_
            intro x hx
            have hx2 : x ∈ (↑(inorder c2) : Multiset Int) := Multiset.mem_coe.2 hx
            rw [hmc2] at hx2
            have hx3 : x ∈ inorder lc :=
              Multiset.mem_coe.1 (Multiset.mem_of_mem_erase hx2)
            exact pmax x hx3
          have hwl2 := WfL_subst_l hwl (low_pos key nks) hfound pred c2 hwc2b
            hpb.1 hpk
          rcases WfL_frame_subst_l hwl (low_pos key nks) hlc hfound with
            ⟨A, B, hdecf, hsetff⟩
          refine ⟨?_, ?_, ?_⟩
          · show Wf lo hi (.mk nr false (nks.set (low_pos key nks) pred)
              (ncs.set (low_pos key nks) c2))
            exact .node _ _ _ _ _ hwl2
          · show Deep (d2 + 1) (.mk nr false (nks.set (low_pos key nks) pred)
              (ncs.set (low_pos key nks) c2))
            exact .node _ _ _ _ (DeepL_set hdl _ c2 hdc2)
          · show (↑(inorder_go (ncs.set (low_pos key nks) c2)
                (nks.set (low_pos key nks) pred)) : Multiset Int)
              = (↑(inorder_go ncs nks) : Multiset Int).erase key
            rw [hsetff c2 pred, hdecf]
            show ((↑A : Multiset Int) + ↑(inorder c2) + pred ::ₘ ↑B)
              = ((↑A : Multiset Int) + ↑(inorder lc) + key ::ₘ ↑B).erase key
            rw [hmc2]
            exact ms_found_subst _ _ _ key pred (Multiset.mem_coe.2 hpmem)
        · rw [if_neg hguard] at hok2
          rcases M_bind_eq_ok hok2 with ⟨rc, hrcg, hok3⟩
          have hrc : ncs[low_pos key nks + 1]? = some rc := getIdx_ok hrcg
          by_cases hguard2 : t ≤ rc.keycount
          · rw [if_pos hguard2] at hok3
            rcases M_bind_eq_ok hok3 with ⟨succ, hsucg, hok4⟩
            unfold get_successor at hsucg
            rcases M_bind_eq_ok hsucg with ⟨c0, hc0g, hsg2⟩
            have hc0 : ncs[low_pos key nks + 1]? = some c0 := getIdx_ok hc0g
            rw [hrc, Option.some.injEq] at hc0
            subst hc0
            rcases M_bind_eq_ok hsg2 with ⟨lf, hdesc, hfirst⟩
            have hlfkeys : lf.keys[0]? = some succ := getIdx_ok hfirst
            rcases WfL_focus hwl (low_pos key nks + 1) hrc with ⟨hwrc, hsetrc⟩
            have hdrc : Deep d2 rc := DeepL_get hdl _ hrc
            have hlob : lobnd lo nks (low_pos key nks + 1) = some key := by
              unfold lobnd
              rw [if_neg (by omega), show low_pos key nks + 1 - 1
                = low_pos key nks from rfl, hfound]
            have hshead : (inorder rc).head? = some succ :=
              descend_first_ok fuel hwrc hdesc hlfkeys
            have hsmem : succ ∈ inorder rc := List.mem_of_mem_head? hshead
            have smin := sorted_head_min (Wf_sorted hwrc) hshead
            have hsb := Wf_bounds hwrc succ hsmem
            have hks : key ≤ succ := by
              have h2 := hsb.1
              rwa [hlob] at h2
            rcases M_bind_eq_ok hok4 with ⟨c, hcg, hok5⟩
            have hcc : ncs[low_pos key nks + 1]? = some c := getIdx_ok hcg
            rw [hrc, Option.some.injEq] at hcc
            subst hcc
            rcases M_bind_eq_ok hok5 with ⟨c2, hrec, hok6⟩
            rw [Except.ok.injEq] at hok6
            subst hok6
            rcases ih hwrc hdrc hrec with ⟨hwc2, hdc2, hmc2⟩
            have hwc2b : Wf (some succ) (hibnd hi nks (low_pos key nks + 1)) c2 := by
              refine Wf_tighten_lo hwc2 ?_
              intro x hx
              have hx2 : x ∈ (↑(inorder c2) : Multiset Int) := Multiset.mem_coe.2 hx
              rw [hmc2] at hx2
              have hx3 : x ∈ inorder rc :=
                Multiset.mem_coe.1 (Multiset.mem_of_mem_erase hx2)
              exact smin x hx3
            have hwl2 := WfL_subst_r hwl (low_pos key nks) hfound hrc succ c2
              hwc2b hsb.2 hks
            rcases WfL_frame_subst_r hwl (low_pos key nks) hfound hrc with
              ⟨A, B, hdecf, hsetff⟩
            refine ⟨?_, ?_, ?_⟩
            · show Wf lo hi (.mk nr false (nks.set (low_pos key nks) succ)
                (ncs.set (low_pos key nks + 1) c2))
              exact .node _ _ _ _ _ hwl2
            · show Deep (d2 + 1) (.mk nr false (nks.set (low_pos key nks) succ)
                (ncs.set (low_pos key nks + 1) c2))
              exact .node _ _ _ _ (DeepL_set hdl _ c2 hdc2)
            · show (↑(inorder_go (ncs.set (low_pos key nks + 1) c2)
                  (nks.set (low_pos key nks) succ)) : Multiset Int)
                = (↑(inorder_go ncs nks) : Multiset Int).erase key
              rw [hsetff c2 succ, hdecf]
              show ((↑A : Multiset Int) + succ ::ₘ ↑(inorder c2) + ↑B)
                = ((↑A : Multiset Int) + key ::ₘ ↑(inorder rc) + ↑B).erase key
              rw [hmc2]
              exact ms_found_subst_r _ _ _ key succ (Multiset.mem_coe.2 hsmem)
          · rw [if_neg hguard2] at hok3
            rcases M_bind_eq_ok hok3 with ⟨node1, hmerge, hok4⟩
            rcases merge_children_ok hwl hdl hmerge with
              ⟨m, sep, hsep1, hnode1, hmat, hmdec, hmw, hwl1, hdl1, hio1⟩
            rcases hmdec with ⟨cL, cR, hcL, hcR, hmi⟩
            rw [hfound, Option.some.injEq] at hsep1
            subst hsep1
            subst hnode1
            rcases M_bind_eq_ok hok4 with ⟨c, hcg, hok5⟩
            have hcc : ((ncs.set (low_pos key nks) m).eraseIdx
                (low_pos key nks + 1))[low_pos key nks]? = some c := getIdx_ok hcg
            rw [hmat, Option.some.injEq] at hcc
            subst hcc
            rcases M_bind_eq_ok hok5 with ⟨c2, hrec, hok6⟩
            rw [Except.ok.injEq] at hok6
            subst hok6
            rcases WfL_focus hwl1 (low_pos key nks) hmat with ⟨hwm, hsetm⟩
            have hdm : Deep d2 m := DeepL_get hdl1 _ hmat
            rcases ih hwm hdm hrec with ⟨hwc2, hdc2, hmc2⟩
            rcases WfL_frame_set hwl1 (low_pos key nks) hmat with
              ⟨A, B, hdecf, hsetff, -, -, -⟩
            have hkeym : key ∈ inorder m := by
              rw [hmi]
              exact List.mem_append.2 (Or.inr (List.mem_cons_self _ _))
            refine ⟨?_, ?_, ?_⟩
            · show Wf lo hi (.mk nr false (nks.eraseIdx (low_pos key nks))
                (((ncs.set (low_pos key nks) m).eraseIdx
                  (low_pos key nks + 1)).set (low_pos key nks) c2))
              exact .node _ _ _ _ _ (hsetm c2 hwc2)
            · show Deep (d2 + 1) (.mk nr false (nks.eraseIdx (low_pos key nks))
                (((ncs.set (low_pos key nks) m).eraseIdx
                  (low_pos key nks + 1)).set (low_pos key nks) c2))
              exact .node _ _ _ _ (DeepL_set hdl1 _ c2 hdc2)
            · show (↑(inorder_go (((ncs.set (low_pos key nks) m).eraseIdx
                    (low_pos key nks + 1)).set (low_pos key nks) c2)
                  (nks.eraseIdx (low_pos key nks))) : Multiset Int)
                = (↑(inorder_go ncs nks) : Multiset Int).erase key
              rw [hsetff c2, ← hio1, hdecf]
              show ((↑A : Multiset Int) + ↑(inorder c2) + ↑B)
                = ((↑A : Multiset Int) + ↑(inorder m) + ↑B).erase key
              rw [hmc2]
              exact (ms_erase_triple_mem _ _ _ key (Multiset.mem_coe.2 hkeym)).symm
    · rw [if_neg hfound] at hok
      cases nlf with
      | true =>
        rw [if_pos rfl, Except.ok.injEq] at hok
        subst hok
        cases hw with
        | leaf _ _ _ _ hchain hbound =>
          have hnotmem : key ∉ nks := by
            intro hmem
            exact hfound (low_pos_found key nks hchain hmem)
          refine ⟨.leaf _ _ _ _ hchain hbound, hd, ?_⟩
          show (↑nks : Multiset Int) = (↑nks : Multiset Int).erase key
          exact (Multiset.erase_of_not_mem (by rwa [Multiset.mem_coe])).symm
      | false =>
        rcases M_bind_eq_ok hok with ⟨child, hchg, hok2⟩
        have hchild : ncs[low_pos key nks]? = some child := getIdx_ok hchg
        cases hw with
        | node _ _ _ _ _ hwl =>
        rcases Deep_node_inv hd with ⟨d2, hd2, hdl⟩
        subst hd2
        have hnav : NavOk nks (low_pos key nks) key := by
          constructor
          · intro kA h0 hkA
            exact low_pos_lt_key key nks _ kA (by omega) hkA
          · intro kB hkB
            have h1 : key ≤ kB := low_pos_ge key nks kB hkB
            have h2 : kB ≠ key := by
              intro he
              rw [he] at hkB
              exact hfound hkB
            omega
        by_cases hfull : child.keycount < t
        · rw [if_pos hfull] at hok2
          by_cases h0 : 0 < low_pos key nks
          · rw [if_pos h0] at hok2
            rcases M_bind_eq_ok hok2 with ⟨pp, hpp, hok2a⟩
            rcases M_bind_eq_ok hok2a with ⟨yb, hyb, hok2b⟩
            have hybe : yb = decide (t ≤ pp.keycount) := by
              rw [show (pure (decide (t ≤ pp.keycount)) : M Bool)
                = .ok (decide (t ≤ pp.keycount)) from rfl,
                Except.ok.injEq] at hyb
              exact hyb.symm
            subst hybe
            by_cases hcp : t ≤ pp.keycount
            · rw [if_pos (by simp [hcp])] at hok2b
              rcases M_bind_eq_ok hok2b with ⟨n2, hbp, hok2c⟩
              rcases M_bind_eq_ok hok2c with ⟨pr2, hpr2, htail⟩
              have hpr2e : pr2 = (n2, low_pos key nks) := by
                rw [show (pure (n2, low_pos key nks) : M (BTreeNode × Nat))
                  = .ok (n2, low_pos key nks) from rfl, Except.ok.injEq] at hpr2
                exact hpr2.symm
              subst hpr2e
              rcases borrow_from_prev_ok hwl hdl h0 hbp with
                ⟨ks1, cs1, hn, hwl1, hdl1, hio1, hnavt⟩
              subst hn
              rcases delete_descend_tail
                (fun hw2 hd2b hok2d => ih hw2 hd2b hok2d)
                hwl1 hdl1 (hnavt key hnav) htail with ⟨hW, hD, hM⟩
              refine ⟨hW, hD, ?_⟩
              rw [hM, hio1]
              exact rfl
            · rw [if_neg (by simp [hcp])] at hok2b
              by_cases hnext : low_pos key nks < ncs.length - 1
              · rw [if_pos hnext] at hok2b
                rcases M_bind_eq_ok hok2b with ⟨p2, hp2, hokc⟩
                rcases M_bind_eq_ok hokc with ⟨y2, hy2, hokd⟩
                have hy2e : y2 = decide (t ≤ p2.keycount) := by
                  rw [show (pure (decide (t ≤ p2.keycount)) : M Bool)
                    = .ok (decide (t ≤ p2.keycount)) from rfl,
                    Except.ok.injEq] at hy2
                  exact hy2.symm
                subst hy2e
                by_cases hcn : t ≤ p2.keycount
                · rw [if_pos (by simp [hcn])] at hokd
                  rcases M_bind_eq_ok hokd with ⟨n2, hbn, hoke⟩
                  rcases M_bind_eq_ok hoke with ⟨pr2, hpr2, htail⟩
                  have hpr2e : pr2 = (n2, low_pos key nks) := by
                    rw [show (pure (n2, low_pos key nks) : M (BTreeNode × Nat))
                      = .ok (n2, low_pos key nks) from rfl,
                      Except.ok.injEq] at hpr2
                    exact hpr2.symm
                  subst hpr2e
                  rcases borrow_from_next_ok hwl hdl hbn with
                    ⟨ks1, cs1, hn, hwl1, hdl1, hio1, hnavt⟩
                  subst hn
                  rcases delete_descend_tail
                    (fun hw2 hd2b hok2f => ih hw2 hd2b hok2f)
                    hwl1 hdl1 (hnavt key hnav) htail with ⟨hW, hD, hM⟩
                  refine ⟨hW, hD, ?_⟩
                  rw [hM, hio1]
                  exact rfl
                · rw [if_neg (by simp [hcn]), if_pos hnext] at hokd
                  rcases M_bind_eq_ok hokd with ⟨n2, hmg, hoke⟩
                  rcases M_bind_eq_ok hoke with ⟨pr2, hpr2, htail⟩
                  have hpr2e : pr2 = (n2, low_pos key nks) := by
                    rw [show (pure (n2, low_pos key nks) : M (BTreeNode × Nat))
                      = .ok (n2, low_pos key nks) from rfl,
                      Except.ok.injEq] at hpr2
                    exact hpr2.symm
                  subst hpr2e
                  rcases merge_children_ok hwl hdl hmg with
                    ⟨m, sep, hsep1, hnode1, hmat, -, hmw, hwl1, hdl1, hio1⟩
                  subst hnode1
                  have hnav1 : NavOk (nks.eraseIdx (low_pos key nks))
                      (low_pos key nks) key := by
                    constructor
                    · intro kA h0b hkA
                      rw [List.getElem?_eraseIdx_of_lt _ _ _ (by omega)] at hkA
                      exact hnav.1 kA h0b hkA
                    · intro kB hkB
                      rw [List.getElem?_eraseIdx_of_ge _ _ _ (le_refl _)] at hkB
                      have hsk : key < sep := hnav.2 sep hsep1
                      have hskb : sep ≤ kB := sorted_getElem_le
                        (WfL_keys_sorted hwl) (by omega) hsep1 hkB
                      omega
                  rcases delete_descend_tail
                    (fun hw2 hd2b hok2f => ih hw2 hd2b hok2f)
                    hwl1 hdl1 hnav1 htail with ⟨hW, hD, hM⟩
                  refine ⟨hW, hD, ?_⟩
                  rw [hM, hio1]
                  exact rfl
              · rw [if_neg hnext] at hok2b
                rcases M_bind_eq_ok hok2b with ⟨y2, hy2, hokd⟩
                have hy2e : y2 = false := by
                  rw [show (pure false : M Bool) = .ok false from rfl,
                    Except.ok.injEq] at hy2
                  exact hy2.symm
                subst hy2e
                rw [if_neg (by simp), if_neg hnext] at hokd
                rcases M_bind_eq_ok hokd with ⟨n2, hmg, hoke⟩
                rcases M_bind_eq_ok hoke with ⟨pr2, hpr2, htail⟩
                have hpr2e : pr2 = (n2, low_pos key nks - 1) := by
                  rw [show (pure (n2, low_pos key nks - 1) : M (BTreeNode × Nat))
                    = .ok (n2, low_pos key nks - 1) from rfl,
                    Except.ok.injEq] at hpr2
                  exact hpr2.symm
                subst hpr2e
                rcases merge_children_ok hwl hdl hmg with
                  ⟨m, sep, hsep1, hnode1, hmat, -, hmw, hwl1, hdl1, hio1⟩
                subst hnode1
                have hlenw := WfL_length hwl
                have hlpe := low_pos_le key nks
                have hidx : low_pos key nks = nks.length := by omega
                have hsep1len : low_pos key nks - 1 < nks.length :=
                  (List.getElem?_eq_some.1 hsep1).1
                have h0b : 0 < low_pos key nks := by omega
                have hnav1 : NavOk (nks.eraseIdx (low_pos key nks - 1))
                    (low_pos key nks - 1) key := by
                  constructor
                  · intro kA h0c hkA
                    rw [List.getElem?_eraseIdx_of_lt _ _ _ (by omega)] at hkA
                    have hsk : sep < key := hnav.1 sep (by omega) hsep1
                    have hkas : kA ≤ sep := sorted_getElem_le
                      (WfL_keys_sorted hwl) (by omega) hkA hsep1
                    omega
                  · intro kB hkB
                    rw [List.getElem?_eraseIdx_of_ge _ _ _ (le_refl _),
                      show low_pos key nks - 1 + 1 = low_pos key nks from
                        by omega, hidx,
                      List.getElem?_eq_none (le_refl _)] at hkB
                    exact absurd hkB (by simp)
                rcases delete_descend_tail
                  (fun hw2 hd2b hok2f => ih hw2 hd2b hok2f)
                  hwl1 hdl1 hnav1 htail with ⟨hW, hD, hM⟩
                refine ⟨hW, hD, ?_⟩
                rw [hM, hio1]
                exact rfl
          · rw [if_neg h0] at hok2
            rcases M_bind_eq_ok hok2 with ⟨yb, hyb, hok2b⟩
            have hybe : yb = false := by
              rw [show (pure false : M Bool) = .ok false from rfl,
                Except.ok.injEq] at hyb
              exact hyb.symm
            subst hybe
            rw [if_neg (by simp)] at hok2b
            by_cases hnext : low_pos key nks < ncs.length - 1
            · rw [if_pos hnext] at hok2b
              rcases M_bind_eq_ok hok2b with ⟨p2, hp2, hokc⟩
              rcases M_bind_eq_ok hokc with ⟨y2, hy2, hokd⟩
              have hy2e : y2 = decide (t ≤ p2.keycount) := by
                rw [show (pure (decide (t ≤ p2.keycount)) : M Bool)
                  = .ok (decide (t ≤ p2.keycount)) from rfl,
                  Except.ok.injEq] at hy2
                exact hy2.symm
              subst hy2e
              by_cases hcn : t ≤ p2.keycount
              · rw [if_pos (by simp [hcn])] at hokd
                rcases M_bind_eq_ok hokd with ⟨n2, hbn, hoke⟩
                rcases M_bind_eq_ok hoke with ⟨pr2, hpr2, htail⟩
                have hpr2e : pr2 = (n2, low_pos key nks) := by
                  rw [show (pure (n2, low_pos key nks) : M (BTreeNode × Nat))
                    = .ok (n2, low_pos key nks) from rfl,
                    Except.ok.injEq] at hpr2
                  exact hpr2.symm
                subst hpr2e
                rcases borrow_from_next_ok hwl hdl hbn with
                  ⟨ks1, cs1, hn, hwl1, hdl1, hio1, hnavt⟩
                subst hn
                rcases delete_descend_tail
                  (fun hw2 hd2b hok2f => ih hw2 hd2b hok2f)
                  hwl1 hdl1 (hnavt key hnav) htail with ⟨hW, hD, hM⟩
                refine ⟨hW, hD, ?_⟩
                rw [hM, hio1]
                exact rfl
              · rw [if_neg (by simp [hcn]), if_pos hnext] at hokd
                rcases M_bind_eq_ok hokd with ⟨n2, hmg, hoke⟩
                rcases M_bind_eq_ok hoke with ⟨pr2, hpr2, htail⟩
                have hpr2e : pr2 = (n2, low_pos key nks) := by
                  rw [show (pure (n2, low_pos key nks) : M (BTreeNode × Nat))
                    = .ok (n2, low_pos key nks) from rfl,
                    Except.ok.injEq] at hpr2
                  exact hpr2.symm
                subst hpr2e
                rcases merge_children_ok hwl hdl hmg with
                  ⟨m, sep, hsep1, hnode1, hmat, -, hmw, hwl1, hdl1, hio1⟩
                subst hnode1
                have hnav1 : NavOk (nks.eraseIdx (low_pos key nks))
                    (low_pos key nks) key := by
                  constructor
                  · intro kA h0b hkA
                    rw [List.getElem?_eraseIdx_of_lt _ _ _ (by omega)] at hkA
                    exact hnav.1 kA h0b hkA
                  · intro kB hkB
                    rw [List.getElem?_eraseIdx_of_ge _ _ _ (le_refl _)] at hkB
                    have hsk : key < sep := hnav.2 sep hsep1
                    have hskb : sep ≤ kB := sorted_getElem_le
                      (WfL_keys_sorted hwl) (by omega) hsep1 hkB
                    omega
                rcases delete_descend_tail
                  (fun hw2 hd2b hok2f => ih hw2 hd2b hok2f)
                  hwl1 hdl1 hnav1 htail with ⟨hW, hD, hM⟩
                refine ⟨hW, hD, ?_⟩
                rw [hM, hio1]
                exact rfl
            · rw [if_neg hnext] at hok2b
              rcases M_bind_eq_ok hok2b with ⟨y2, hy2, hokd⟩
              have hy2e : y2 = false := by
                rw [show (pure false : M Bool) = .ok false from rfl,
                  Except.ok.injEq] at hy2
                exact hy2.symm
              subst hy2e
              rw [if_neg (by simp), if_neg hnext] at hokd
              rcases M_bind_eq_ok hokd with ⟨n2, hmg, hoke⟩
              rcases M_bind_eq_ok hoke with ⟨pr2, hpr2, htail⟩
              have hpr2e : pr2 = (n2, low_pos key nks - 1) := by
                rw [show (pure (n2, low_pos key nks - 1) : M (BTreeNode × Nat))
                  = .ok (n2, low_pos key nks - 1) from rfl,
                  Except.ok.injEq] at hpr2
                exact hpr2.symm
              subst hpr2e
              rcases merge_children_ok hwl hdl hmg with
                ⟨m, sep, hsep1, hnode1, hmat, -, hmw, hwl1, hdl1, hio1⟩
              subst hnode1
              have hlenw := WfL_length hwl
              have hlpe := low_pos_le key nks
              have hidx : low_pos key nks = nks.length := by omega
              have hsep1len : low_pos key nks - 1 < nks.length :=
                (List.getElem?_eq_some.1 hsep1).1
              have h0b : 0 < low_pos key nks := by omega
              have hnav1 : NavOk (nks.eraseIdx (low_pos key nks - 1))
                  (low_pos key nks - 1) key := by
                constructor
                · intro kA h0c hkA
                  rw [List.getElem?_eraseIdx_of_lt _ _ _ (by omega)] at hkA
                  have hsk : sep < key := hnav.1 sep (by omega) hsep1
                  have hkas : kA ≤ sep := sorted_getElem_le
                    (WfL_keys_sorted hwl) (by omega) hkA hsep1
                  omega
                · intro kB hkB
                  rw [List.getElem?_eraseIdx_of_ge _ _ _ (le_refl _),
                    show low_pos key nks - 1 + 1 = low_pos key nks from
                      by omega, hidx,
                    List.getElem?_eq_none (le_refl _)] at hkB
                  exact absurd hkB (by simp)
              rcases delete_descend_tail
                (fun hw2 hd2b hok2f => ih hw2 hd2b hok2f)
                hwl1 hdl1 hnav1 htail with ⟨hW, hD, hM⟩
              refine ⟨hW, hD, ?_⟩
              rw [hM, hio1]
              exact rfl
        · rw [if_neg hfull] at hok2
          rcases M_bind_eq_ok hok2 with ⟨pr2, hpr2, htail⟩
          have hpr2e : pr2 = (BTreeNode.mk nr false nks ncs, low_pos key nks) := by
            rw [show (pure (BTreeNode.mk nr false nks ncs, low_pos key nks)
              : M (BTreeNode × Nat)) = .ok (BTreeNode.mk nr false nks ncs,
                low_pos key nks) from rfl, Except.ok.injEq] at hpr2
            exact hpr2.symm
          subst hpr2e
          exact delete_descend_tail (fun hw2 hd2b hok2d => ih hw2 hd2b hok2d)
            hwl hdl hnav htail

/-- A successful public delete preserves the structural invariant, removes
exactly one copy of the key (none if absent) from the in-order entries, and
keeps the construction-time configuration. -/
theorem BTree.delete_ok {fuel : Nat} {s : BTree} {key : Int} {s2 : BTree} {d : Nat}
    (hw : Wf none none s.root) (hd : Deep d s.root)
    (hok : BTree.delete fuel s key = .ok s2) :
    Wf none none s2.root ∧ (∃ d2, Deep d2 s2.root) ∧
    (↑(inorder s2.root) : Multiset Int)
      = (↑(inorder s.root) : Multiset Int).erase key ∧
    (∀ o, ConfigOk o s → ConfigOk o s2) := by
  unfold BTree.delete at hok
  rcases M_bind_eq_ok hok with ⟨r, hdel, hok2⟩
  rcases delete_go_ok fuel hw hd hdel with ⟨hwr, hdr, hmr⟩
  by_cases hcollapse : r.keycount = 0 ∧ r.leaf = false
  · rw [if_pos hcollapse] at hok2
    rcases M_bind_eq_ok hok2 with ⟨r2, hr2g, hok3⟩
    rw [Except.ok.injEq] at hok3
    subst hok3
    obtain ⟨rr, rlf, rks, rcs⟩ := r
    have hlf : rlf = false := hcollapse.2
    subst hlf
    have hks : rks = [] := List.length_eq_zero.1 hcollapse.1
    subst hks
    cases hwr with
    | node _ _ _ _ _ hwl =>
      cases hwl with
      | single _ _ c hc =>
        have hr2 : [c][0]? = some r2 := getIdx_ok hr2g
        rw [List.getElem?_cons_zero, Option.some.injEq] at hr2
        subst hr2
        rcases Deep_node_inv hdr with ⟨d2, hd2, hdl⟩
        cases hdl with
        | cons _ _ _ hdc _ =>
          refine ⟨hc, ⟨d2, hdc⟩, ?_, fun o hco => hco⟩
          rw [show inorder (BTreeNode.mk rr false [] [c]) = inorder c from by
            show inorder_go [c] [] = inorder c
            exact inorder_go_single c] at hmr
          exact hmr
  · rw [if_neg hcollapse, Except.ok.injEq] at hok2
    subst hok2
    exact ⟨hwr, ⟨d, hdr⟩, hmr, fun o hco => hco⟩

/-- Every reachable tree state satisfies the structural invariant and keeps
its construction-time configuration. -/
theorem Reach_inv {order : Nat} {s : BTree} (h : Reach order s) :
    StateInv s ∧ ConfigOk order s := by
  induction h with
  | init s hinit =>
    unfold BTree.init at hinit
    by_cases ho : order < 3
    · rw [if_pos ho] at hinit
      cases hinit
    · rw [if_neg ho, Except.ok.injEq] at hinit
      subst hinit
      refine ⟨⟨.leaf _ _ _ _ List.sorted_nil (fun x hx => by cases hx),
        ⟨1, .leaf _ _ _⟩⟩, rfl, rfl, rfl, rfl, rfl, rfl, by omega⟩
  | ins s s2 fuel k hreach hins ih =>
    rcases ih with ⟨⟨hw, d, hd⟩, hcfg⟩
    have ht : 1 ≤ s.t := by
      have h1 := hcfg.2.2.2.2.2.1
      have h2 := hcfg.2.2.2.2.2.2
      omega
    rcases BTree.insert_ok hw hd ht hins with ⟨hw2, hd2, hperm, hkeep⟩
    exact ⟨⟨hw2, hd2⟩, hkeep order hcfg⟩
  | del s s2 fuel k hreach hdel ih =>
    rcases ih with ⟨⟨hw, d, hd⟩, hcfg⟩
    rcases BTree.delete_ok hw hd hdel with ⟨hw2, hd2, hm, hkeep⟩
    exact ⟨⟨hw2, hd2⟩, hkeep order hcfg⟩

/-- Reachability is preserved by running any successful operation list. -/
theorem Reach_runOps {order fuel : Nat} :
    ∀ (ops : List Op) {s s2 : BTree}, Reach order s →
      runOps fuel s ops = .ok s2 → Reach order s2 := by
  intro ops
  induction ops with
  | nil =>
    intro s s2 h hok
    rw [show runOps fuel s [] = .ok s from rfl, Except.ok.injEq] at hok
    subst hok
    exact h
  | cons op ops ih =>
    intro s s2 h hok
    rw [show runOps fuel s (op :: ops)
      = (do
          let s3 ← applyOp fuel s op
          runOps fuel s3 ops) from rfl] at hok
    rcases M_bind_eq_ok hok with ⟨s3, hap, hrun⟩
    cases op with
    | ins k => exact ih (.ins s s3 fuel k h hap) hrun
    | del k => exact ih (.del s s3 fuel k h hap) hrun

mutual

/-- On well-formed pages the recursive count agrees with the number of
in-order entries. -/
theorem count_keys_eq {lo hi : Option Int} {n : BTreeNode} (h : Wf lo hi n) :
    count_keys n = (inorder n).length :=
  match h with
  | .leaf lo hi r ks _ _ => by
    show ks.length + count_keys_list [] = ks.length
    simp [count_keys_list]
  | .node lo hi r ks cs hwl => by
    show ks.length + count_keys_list cs = (inorder_go cs ks).length
    rw [← count_keys_list_eq hwl]
    omega

/-- List form of the count agreement: children plus separators. -/
theorem count_keys_list_eq {lo hi : Option Int} {cs : List BTreeNode}
    {ks : List Int} (h : WfL lo hi cs ks) :
    count_keys_list cs + ks.length = (inorder_go cs ks).length :=
  match h with
  | .single _ _ c hc => by
    show count_keys c + count_keys_list [] + ([] : List Int).length
      = (inorder_go [c] []).length
    rw [inorder_go_single, count_keys_eq hc]
    simp [count_keys_list]
  | .cons lo hi k c cs ks hc _ _ hrest => by
    show count_keys c + count_keys_list cs + (k :: ks).length
      = (inorder_go (c :: cs) (k :: ks)).length
    rw [inorder_go_cons, List.length_append, List.length_cons, List.length_cons,
      ← count_keys_list_eq hrest, count_keys_eq hc]
    omega

end

/-- The public count is the number of in-order entries of the root. -/
theorem total_keys_eq {s : BTree} (hw : Wf none none s.root) :
    BTree.total_keys s = (inorder s.root).length := by
  obtain ⟨so, smc, smk, smnc, smnk, st, snr, sroot⟩ := s
  obtain ⟨rr, rlf, rks, rcs⟩ := sroot
  unfold BTree.total_keys
  by_cases hempty : (BTree.mk so smc smk smnc smnk st snr
      (BTreeNode.mk rr rlf rks rcs)).root.keycount = 0 ∧
      (BTree.mk so smc smk smnc smnk st snr
        (BTreeNode.mk rr rlf rks rcs)).root.leaf
  · rw [if_pos hempty]
    have hlf : rlf = true := hempty.2
    subst hlf
    have hkse : rks = [] := List.length_eq_zero.1 hempty.1
    subst hkse
    rfl
  · rw [if_neg hempty]
    exact count_keys_eq hw

mutual

/-- All leaf depths of a balanced page equal the common depth. -/
theorem Deep_leaf_depths {d : Nat} {n : BTreeNode} (h : Deep d n) :
    ∀ x ∈ leaf_depths n, x = d :=
  match h with
  | .leaf r ks cs => by
    intro x hx
    rcases List.mem_singleton.1 hx with rfl
    rfl
  | .node d r ks cs hl => by
    intro x hx
    rcases List.mem_map.1 hx with ⟨y, hy, hxy⟩
    rw [← hxy, Deep_leaf_depths_list hl y hy]

/-- List form of the common-depth property. -/
theorem Deep_leaf_depths_list {d : Nat} {cs : List BTreeNode} (h : DeepL d cs) :
    ∀ x ∈ leaf_depths_list cs, x = d :=
  match h with
  | .nil _ => by intro x hx; cases hx
  | .cons d c cs hc hcs => by
    intro x hx
    rcases List.mem_append.1 hx with hx | hx
    · exact Deep_leaf_depths hc x hx
    · exact Deep_leaf_depths_list hcs x hx

end

mutual

/-- Well-formed pages satisfy the fanout check: every internal page has one
more child than keys. -/
theorem Wf_fanout {lo hi : Option Int} {n : BTreeNode} (h : Wf lo hi n) :
    fanout_ok n = true :=
  match h with
  | .leaf lo hi r ks _ _ => by
    rfl
  | .node lo hi r ks cs hwl => by
    show ((false || decide (cs.length = ks.length + 1)) && fanout_ok_list cs) = true
    rw [Bool.false_or, WfL_fanout hwl, Bool.and_true, decide_eq_true_eq]
    exact WfL_length hwl

/-- List form of the fanout check over a well-formed child list. -/
theorem WfL_fanout {lo hi : Option Int} {cs : List BTreeNode} {ks : List Int}
    (h : WfL lo hi cs ks) : fanout_ok_list cs = true :=
  match h with
  | .single _ _ c hc => by
    show (fanout_ok c && fanout_ok_list []) = true
    rw [Wf_fanout hc]
    rfl
  | .cons lo hi k c cs ks hc _ _ hrest => by
    show (fanout_ok c && fanout_ok_list cs) = true
    rw [Wf_fanout hc, WfL_fanout hrest]
    rfl

end

/-- Search over a well-formed balanced page terminates within depth-bounded
fuel and answers membership of the key among the in-order entries. -/
theorem search_node_ok (fuel : Nat) :
    ∀ {lo hi : Option Int} {d : Nat} {node : BTreeNode} {key : Int},
      Wf lo hi node → Deep d node → d < fuel →
      ∃ res, search_node fuel node key = .ok res ∧
        (res.isSome = true ↔ key ∈ inorder node) := by
  induction fuel with
  | zero =>
    intro lo hi d node key hw hd hfuel
    omega
  | succ fuel ih =>
    intro lo hi d node key hw hd hfuel
    obtain ⟨nr, nlf, nks, ncs⟩ := node
    by_cases hfound : nks[low_pos key nks]? = some key
    · refine ⟨some (.mk nr nlf nks ncs, low_pos key nks), ?_, ?_⟩
      · simp only [search_node, BTreeNode.keys, BTreeNode.leaf,
          BTreeNode.children]
        rw [if_pos hfound]
      · constructor
        · intro _
          have hmem : key ∈ nks := List.getElem?_mem hfound
          cases nlf with
          | true => exact hmem
          | false =>
            cases hw with
            | node _ _ _ _ _ hwl =>
              exact WfL_keys_mem_inorder hwl key hmem
        · intro _
          rfl
    · cases nlf with
      | true =>
        refine ⟨none, ?_, ?_⟩
        · simp only [search_node, BTreeNode.keys, BTreeNode.leaf,
            BTreeNode.children]
          rw [if_neg hfound, if_pos trivial]
        · constructor
          · intro h
            simp at h
          · intro hmem
            cases hw with
            | leaf _ _ _ _ hchain _ =>
              exact absurd (low_pos_found key nks hchain hmem) hfound
      | false =>
        cases hw with
        | node _ _ _ _ _ hwl =>
        rcases Deep_node_inv hd with ⟨d2, hd2, hdl⟩
        subst hd2
        have hlen := WfL_length hwl
        have hle := low_pos_le key nks
        have hclen : low_pos key nks < ncs.length := by omega
        have hc : ncs[low_pos key nks]? = some ncs[low_pos key nks] :=
          List.getElem?_eq_getElem hclen
        have hget : getIdx ncs (low_pos key nks) = .ok ncs[low_pos key nks] := by
          unfold getIdx
          rw [hc]
        rcases WfL_focus hwl (low_pos key nks) hc with ⟨hwc, -⟩
        have hdc : Deep d2 ncs[low_pos key nks] := DeepL_get hdl _ hc
        rcases ih hwc hdc (by omega) with ⟨res, hres, hiff⟩
        have hnav : NavOk nks (low_pos key nks) key := by
          constructor
          · intro kA h0 hkA
            exact low_pos_lt_key key nks _ kA (by omega) hkA
          · intro kB hkB
            have h1 : key ≤ kB := low_pos_ge key nks kB hkB
            have h2 : kB ≠ key := by
              intro he
              rw [he] at hkB
              exact hfound hkB
            omega
        rcases WfL_frame_set hwl (low_pos key nks) hc with
          ⟨A, B, hdecf, -, h0A, hAb, hBb⟩
        refine ⟨res, ?_, ?_⟩
        · simp only [search_node, BTreeNode.keys, BTreeNode.leaf,
            BTreeNode.children]
          rw [if_neg hfound, if_neg (by simp), hget, M_bind_ok]
          exact hres
        · rw [hiff]
          show key ∈ inorder ncs[low_pos key nks] ↔ key ∈ inorder_go ncs nks
          rw [hdecf]
          constructor
          · intro h
            exact List.mem_append.2 (Or.inl (List.mem_append.2 (Or.inr h)))
          · intro h
            rcases List.mem_append.1 h with h | hB2
            · rcases List.mem_append.1 h with hA2 | h
              · exfalso
                by_cases h0 : low_pos key nks = 0
                · rw [h0A h0] at hA2
                  cases hA2
                · rcases hAb key hA2 with ⟨kA, hkA1, hkA2⟩
                  have := hnav.1 kA (by omega) hkA1
                  omega
              · exact h
            · exfalso
              rcases hBb key hB2 with ⟨kB, hkB1, hkB2⟩
              have := hnav.2 kB hkB1
              omega

/-- The public search, with fuel one more than the common leaf depth,
returns Found exactly when the key is among the in-order entries. -/
theorem BTree.search_ok {s : BTree} {key : Int} {d : Nat}
    (hw : Wf none none s.root) (hd : Deep d s.root) :
    (key ∈ inorder s.root →
      ∃ r p, BTree.search (d + 1) s key = .ok (.found r p)) ∧
    (key ∉ inorder s.root → BTree.search (d + 1) s key = .ok .notFound) := by
  unfold BTree.search
  by_cases hempty : s.root.keycount = 0 ∧ s.root.leaf
  · rw [if_pos hempty]
    constructor
    · intro hmem
      exfalso
      rcases hempty with ⟨h0, hlf⟩
      rcases hroot : s.root with ⟨rr, rlf, rks, rcs⟩
      rw [hroot] at h0 hlf hmem
      have hlf2 : rlf = true := hlf
      subst hlf2
      have hks : rks = [] := List.length_eq_zero.1 h0
      subst hks
      cases hmem
    · intro _
      rfl
  · rw [if_neg hempty]
    rcases search_node_ok (d + 1) hw hd (by omega) with ⟨res, hres, hiff⟩
    rw [hres, M_bind_ok]
    constructor
    · intro hmem
      have hsome : res.isSome = true := hiff.2 hmem
      cases res with
      | some p =>
        obtain ⟨n, i⟩ := p
        exact ⟨n.rrn, i, rfl⟩
      | none => simp at hsome
    · intro hmem
      have hnone : ¬ res.isSome = true := fun h => hmem (hiff.1 h)
      cases res with
      | some p => simp at hnone
      | none => rfl

/-- A key present in a reachable tree stays present across any successful
operation run that never deletes that key. -/
theorem runOps_mem {order fuel : Nat} {key : Int} :
    ∀ (ops : List Op) {s s2 : BTree}, Reach order s →
      runOps fuel s ops = .ok s2 → (∀ j, Op.del j ∈ ops → j ≠ key) →
      key ∈ inorder s.root → key ∈ inorder s2.root := by
  intro ops
  induction ops with
  | nil =>
    intro s s2 h hok hdel hmem
    rw [show runOps fuel s [] = .ok s from rfl, Except.ok.injEq] at hok
    subst hok
    exact hmem
  | cons op ops ih =>
    intro s s2 h hok hdel hmem
    rw [show runOps fuel s (op :: ops)
      = (do
          let s3 ← applyOp fuel s op
          runOps fuel s3 ops) from rfl] at hok
    rcases M_bind_eq_ok hok with ⟨s3, hap, hrun⟩
    rcases Reach_inv h with ⟨⟨hw, d, hd⟩, hcfg⟩
    cases op with
    | ins k =>
      have ht : 1 ≤ s.t := by
        have h1 := hcfg.2.2.2.2.2.1
        have h2 := hcfg.2.2.2.2.2.2
        omega
      rcases BTree.insert_ok hw hd ht hap with ⟨-, -, hperm, -⟩
      refine ih (.ins s s3 fuel k h hap) hrun
        (fun j hj => hdel j (List.mem_cons_of_mem _ hj)) ?_
      exact hperm.mem_iff.2 (List.mem_cons_of_mem _ hmem)
    | del k =>
      have hne : k ≠ key := hdel k (List.mem_cons_self _ _)
      rcases BTree.delete_ok hw hd hap with ⟨-, -, hm, -⟩
      refine ih (.del s s3 fuel k h hap) hrun
        (fun j hj => hdel j (List.mem_cons_of_mem _ hj)) ?_
      have hmem2 : key ∈ (↑(inorder s.root) : Multiset Int) :=
        Multiset.mem_coe.2 hmem
      have hmem3 : key ∈ (↑(inorder s.root) : Multiset Int).erase k :=
        (Multiset.mem_erase_of_ne (fun he => hne he.symm)).2 hmem2
      rw [← hm] at hmem3
      exact Multiset.mem_coe.1 hmem3

/-- Entry-count bookkeeping across a successful operation run: the final
count plus the successful deletions equals the initial count plus the
insertions. -/
theorem runOps_count {order fuel : Nat} :
    ∀ (ops : List Op) {s s2 : BTree} {D : Nat}, Reach order s →
      runOps fuel s ops = .ok s2 → successful_dels fuel s ops = .ok D →
      (inorder s2.root).length + D = (inorder s.root).length + ins_count ops := by
  intro ops
  induction ops with
  | nil =>
    intro s s2 D h hok hdels
    rw [show runOps fuel s [] = .ok s from rfl, Except.ok.injEq] at hok
    subst hok
    rw [show successful_dels fuel s [] = .ok 0 from rfl, Except.ok.injEq] at hdels
    subst hdels
    rfl
  | cons op ops ih =>
    intro s s2 D h hok hdels
    rw [show runOps fuel s (op :: ops)
      = (do
          let s3 ← applyOp fuel s op
          runOps fuel s3 ops) from rfl] at hok
    rcases M_bind_eq_ok hok with ⟨s3, hap, hrun⟩
    rcases Reach_inv h with ⟨⟨hw, d, hd⟩, hcfg⟩
    cases op with
    | ins k =>
      rw [show successful_dels fuel s (.ins k :: ops)
        = (do
            let s4 ← applyOp fuel s (.ins k)
            let dd ← successful_dels fuel s4 ops
            .ok dd) from rfl] at hdels
      rcases M_bind_eq_ok hdels with ⟨s4, hap2, hdels2⟩
      rw [hap, Except.ok.injEq] at hap2
      subst hap2
      rcases M_bind_eq_ok hdels2 with ⟨dd, hdd, hfin⟩
      rw [Except.ok.injEq] at hfin
      subst hfin
      have ht : 1 ≤ s.t := by
        have h1 := hcfg.2.2.2.2.2.1
        have h2 := hcfg.2.2.2.2.2.2
        omega
      rcases BTree.insert_ok hw hd ht hap with ⟨-, -, hperm, -⟩
      have hrec := ih (.ins s s3 fuel k h hap) hrun hdd
      have hlen : (inorder s3.root).length = (inorder s.root).length + 1 := by
        rw [hperm.length_eq]
        rfl
      show (inorder s2.root).length + dd
        = (inorder s.root).length + (ins_count ops + 1)
      omega
    | del k =>
      rw [show successful_dels fuel s (.del k :: ops)
        = (do
            let s4 ← applyOp fuel s (.del k)
            let dd ← successful_dels fuel s4 ops
            .ok (if (inorder s.root).contains k then dd + 1 else dd))
        from rfl] at hdels
      rcases M_bind_eq_ok hdels with ⟨s4, hap2, hdels2⟩
      rw [hap, Except.ok.injEq] at hap2
      subst hap2
      rcases M_bind_eq_ok hdels2 with ⟨dd, hdd, hfin⟩
      rcases BTree.delete_ok hw hd hap with ⟨-, -, hm, -⟩
      rw [Except.ok.injEq] at hfin
      have hrec := ih (.del s s3 fuel k h hap) hrun hdd
      have hcards : (inorder s3.root).length
          = Multiset.card ((↑(inorder s.root) : Multiset Int).erase k) := by
        rw [← hm]
        rfl
      by_cases hmem : k ∈ inorder s.root
      · rw [if_pos (List.elem_iff.2 hmem)] at hfin
        subst hfin
        have hpos : 0 < (inorder s.root).length := List.length_pos.2
          (List.ne_nil_of_mem hmem)
        have hcard : Multiset.card ((↑(inorder s.root) : Multiset Int).erase k)
            = (inorder s.root).length - 1 := by
          rw [Multiset.card_erase_of_mem (Multiset.mem_coe.2 hmem)]
          rfl
        show (inorder s2.root).length + (dd + 1)
          = (inorder s.root).length + ins_count ops
        omega
      · rw [if_neg (fun hc => hmem (List.elem_iff.1 hc))] at hfin
        subst hfin
        have hcard : Multiset.card ((↑(inorder s.root) : Multiset Int).erase k)
            = (inorder s.root).length := by
          rw [Multiset.erase_of_not_mem (fun hc => hmem (Multiset.mem_coe.1 hc))]
          rfl
        show (inorder s2.root).length + dd
          = (inorder s.root).length + ins_count ops
        omega

/-- C2 (amended): deleting a key not present in a reachable tree leaves the
in-order key sequence unchanged, although pages may be restructured. -/
theorem delete_absent_preserves_inorder {order fuel : Nat} {s s2 : BTree}
    {key : Int} (h : Reach order s) (hnot : key ∉ inorder s.root)
    (hok : BTree.delete fuel s key = .ok s2) :
    inorder s2.root = inorder s.root := by
  rcases Reach_inv h with ⟨⟨hw, d, hd⟩, -⟩
  rcases BTree.delete_ok hw hd hok with ⟨hw2, hd2, hm, -⟩
  rw [Multiset.erase_of_not_mem (fun hc => hnot (Multiset.mem_coe.1 hc))] at hm
  have hperm : List.Perm (inorder s2.root) (inorder s.root) :=
    Multiset.coe_eq_coe.1 hm
  exact List.eq_of_perm_of_sorted hperm (Wf_sorted hw2) (Wf_sorted hw)

/-- Closed instance: deleting 5 from the freshly built order-3 tree keeps
the (empty) in-order sequence. -/
theorem delete_absent_preserves_inorder_witness :
    ((5 : Int) ∉ inorder (BTree.mk 3 3 2 2 1 2 1
      (BTreeNode.mk 0 true [] [])).root) ∧
    inorder (BTree.mk 3 3 2 2 1 2 1 (BTreeNode.mk 0 true [] [])).root
      = inorder (BTree.mk 3 3 2 2 1 2 1 (BTreeNode.mk 0 true [] [])).root :=
  ⟨by decide, delete_absent_preserves_inorder
    (show Reach 3 (BTree.mk 3 3 2 2 1 2 1 (BTreeNode.mk 0 true [] [])) from .init _ rfl)
    (by decide)
    (show BTree.delete 5 (BTree.mk 3 3 2 2 1 2 1 (BTreeNode.mk 0 true [] [])) 5
      = .ok (BTree.mk 3 3 2 2 1 2 1 (BTreeNode.mk 0 true [] [])) from rfl)⟩

/-- C4: after inserting a key into a reachable tree and running any further
successful operations that never delete that key, search finds it; after a
delete that leaves no copy of the key, search answers not-found. -/
theorem search_roundtrip {order : Nat} {s : BTree} (hreach : Reach order s) :
    (∀ fuel key s1 ops s2, BTree.insert fuel s key = .ok s1 →
      runOps fuel s1 ops = .ok s2 → (∀ j, Op.del j ∈ ops → j ≠ key) →
      ∃ fuel2 r p, BTree.search fuel2 s2 key = .ok (.found r p)) ∧
    (∀ fuel key s1, BTree.delete fuel s key = .ok s1 →
      key ∉ inorder s1.root →
      ∃ fuel2, BTree.search fuel2 s1 key = .ok .notFound) := by
  constructor
  · intro fuel key s1 ops s2 hins hrun hdel
    rcases Reach_inv hreach with ⟨⟨hw, d, hd⟩, hcfg⟩
    have ht : 1 ≤ s.t := by
      have h1 := hcfg.2.2.2.2.2.1
      have h2 := hcfg.2.2.2.2.2.2
      omega
    rcases BTree.insert_ok hw hd ht hins with ⟨-, -, hperm, -⟩
    have hreach1 : Reach order s1 := .ins s s1 fuel key hreach hins
    have hreach2 : Reach order s2 := Reach_runOps ops hreach1 hrun
    have hmem1 : key ∈ inorder s1.root :=
      hperm.mem_iff.2 (List.mem_cons_self _ _)
    have hmem2 : key ∈ inorder s2.root := runOps_mem ops hreach1 hrun hdel hmem1
    rcases Reach_inv hreach2 with ⟨⟨hw2, d2, hd2⟩, -⟩
    rcases (BTree.search_ok hw2 hd2).1 hmem2 with ⟨r, p, hs⟩
    exact ⟨d2 + 1, r, p, hs⟩
  · intro fuel key s1 hdel hnot
    have hreach1 : Reach order s1 := .del s s1 fuel key hreach hdel
    rcases Reach_inv hreach1 with ⟨⟨hw1, d1, hd1⟩, -⟩
    exact ⟨d1 + 1, (BTree.search_ok hw1 hd1).2 hnot⟩

/-- Closed instance: search finds 7 right after inserting it into the fresh
order-3 tree, and misses 5 after the (no-op) delete of 5. -/
theorem search_roundtrip_witness :
    (∃ fuel2 r p, BTree.search fuel2 (BTree.mk 3 3 2 2 1 2 1
      (BTreeNode.mk 0 true [7] [])) 7 = .ok (.found r p)) ∧
    (∃ fuel2, BTree.search fuel2 (BTree.mk 3 3 2 2 1 2 1
      (BTreeNode.mk 0 true [] [])) 5 = .ok .notFound) :=
  ⟨(search_roundtrip (show Reach 3 (BTree.mk 3 3 2 2 1 2 1 (BTreeNode.mk 0 true [] [])) from .init _ rfl)).1
      10 7 _ [] _ rfl rfl (fun j hj => absurd hj (List.not_mem_nil _)),
   (search_roundtrip (show Reach 3 (BTree.mk 3 3 2 2 1 2 1 (BTreeNode.mk 0 true [] [])) from .init _ rfl)).2
      10 5 _ rfl (by decide)⟩

/-- C5: all leaf pages of a reachable tree lie at one common depth. -/
theorem reachable_balanced {order : Nat} {s : BTree} (h : Reach order s) :
    ∃ dl, ∀ x ∈ leaf_depths s.root, x = dl := by
  rcases Reach_inv h with ⟨⟨-, d, hd⟩, -⟩
  exact ⟨d, Deep_leaf_depths hd⟩

/-- Closed instance: the order-3 tree reached by inserting 10, 20, 15 has
all its leaves at one depth. -/
theorem reachable_balanced_witness :
    ∃ dl, ∀ x ∈ leaf_depths (BTree.mk 3 3 2 2 1 2 3
      (BTreeNode.mk 1 false [20]
        [BTreeNode.mk 0 true [10, 15] [], BTreeNode.mk 2 true [] []])).root,
      x = dl :=
  reachable_balanced
    (show Reach 3 (BTree.mk 3 3 2 2 1 2 3
      (BTreeNode.mk 1 false [20]
        [BTreeNode.mk 0 true [10, 15] [], BTreeNode.mk 2 true [] []])) from
      .ins _ _ 10 15 (.ins _ _ 10 20 (.ins _ _ 10 10 (.init _ rfl) rfl) rfl) rfl)

/-- C6: after any successful run from a fresh tree, the public key count
equals the number of inserts minus the number of successful deletes. -/
theorem count_conservation {order fuel : Nat} {s0 s2 : BTree} {ops : List Op}
    {D : Nat}
    (hinit : BTree.init order = .ok s0)
    (hrun : runOps fuel s0 ops = .ok s2)
    (hdels : successful_dels fuel s0 ops = .ok D) :
    BTree.total_keys s2 = ins_count ops - D := by
  have hreach0 : Reach order s0 := .init s0 hinit
  have hreach2 : Reach order s2 := Reach_runOps ops hreach0 hrun
  rcases Reach_inv hreach2 with ⟨⟨hw2, -⟩, -⟩
  have hcount := runOps_count ops hreach0 hrun hdels
  have hroot0 : s0.root = BTreeNode.mk 0 true [] [] := by
    unfold BTree.init at hinit
    by_cases ho : order < 3
    · rw [if_pos ho] at hinit
      cases hinit
    · rw [if_neg ho, Except.ok.injEq] at hinit
      subst hinit
      rfl
  rw [hroot0, show (inorder (BTreeNode.mk 0 true [] [])).length = 0 from rfl]
    at hcount
  rw [total_keys_eq hw2]
  omega

/-- Closed instance: two inserts and one successful plus one absent delete
leave a count of 2 - 1 = 1. -/
theorem count_conservation_witness :
    BTree.total_keys (BTree.mk 3 3 2 2 1 2 1 (BTreeNode.mk 0 true [2] []))
      = ins_count [Op.ins 1, Op.ins 2, Op.del 1, Op.del 5] - 1 :=
  count_conservation
    (show BTree.init 3 = .ok (BTree.mk 3 3 2 2 1 2 1 (BTreeNode.mk 0 true [] [])) from rfl)
    (show runOps 10 (BTree.mk 3 3 2 2 1 2 1 (BTreeNode.mk 0 true [] [])) [Op.ins 1, Op.ins 2, Op.del 1, Op.del 5]
      = .ok (BTree.mk 3 3 2 2 1 2 1 (BTreeNode.mk 0 true [2] [])) from rfl)
    (show successful_dels 10 (BTree.mk 3 3 2 2 1 2 1 (BTreeNode.mk 0 true [] [])) [Op.ins 1, Op.ins 2, Op.del 1, Op.del 5]
      = .ok 1 from rfl)

/-- C7: the in-order traversal of every reachable tree is nondecreasing. -/
theorem inorder_nondecreasing {order : Nat} {s : BTree} (h : Reach order s) :
    List.Sorted (fun a b : Int => a ≤ b) (inorder s.root) := by
  rcases Reach_inv h with ⟨⟨hw, -⟩, -⟩
  exact Wf_sorted hw

/-- Closed instance: the traversal of the tree reached by inserting
10, 20, 15 is nondecreasing. -/
theorem inorder_nondecreasing_witness :
    List.Sorted (fun a b : Int => a ≤ b)
      (inorder (BTree.mk 3 3 2 2 1 2 3
        (BTreeNode.mk 1 false [20]
          [BTreeNode.mk 0 true [10, 15] [], BTreeNode.mk 2 true [] []])).root) :=
  inorder_nondecreasing
    (show Reach 3 (BTree.mk 3 3 2 2 1 2 3
      (BTreeNode.mk 1 false [20]
        [BTreeNode.mk 0 true [10, 15] [], BTreeNode.mk 2 true [] []])) from
      .ins _ _ 10 15 (.ins _ _ 10 20 (.ins _ _ 10 10 (.init _ rfl) rfl) rfl) rfl)

/-- C9: every internal page of a reachable tree has one more child than
keys. -/
theorem reachable_fanout {order : Nat} {s : BTree} (h : Reach order s) :
    fanout_ok s.root = true := by
  rcases Reach_inv h with ⟨⟨hw, -⟩, -⟩
  exact Wf_fanout hw

/-- Closed instance: the fanout check passes on the tree reached by
inserting 10, 20, 15. -/
theorem reachable_fanout_witness :
    fanout_ok (BTree.mk 3 3 2 2 1 2 3
      (BTreeNode.mk 1 false [20]
        [BTreeNode.mk 0 true [10, 15] [], BTreeNode.mk 2 true [] []])).root
      = true :=
  reachable_fanout
    (show Reach 3 (BTree.mk 3 3 2 2 1 2 3
      (BTreeNode.mk 1 false [20]
        [BTreeNode.mk 0 true [10, 15] [], BTreeNode.mk 2 true [] []])) from
      .ins _ _ 10 15 (.ins _ _ 10 20 (.ins _ _ 10 10 (.init _ rfl) rfl) rfl) rfl)
